import Mathlib

/-!
Verification development for the rust-eve-tools repository: a shallow
embedding of its asset store, mutator-attribute algebra, saga engine,
rate limiter, location-chain resolver and dynamics-report projector,
together with theorems settling the specification claims.

Modelling conventions:
* Rust `f64` values are modelled as `Rat` (the claims are about the
  min/max/multiplication structure, not about rounding).
* `BTreeMap` is modelled as an association list with in-place update;
  `BTreeSet` as a duplicate-free insertion list.  Iteration order in the
  Rust code is key-sorted; every property proved here is insensitive to
  the iteration order.
* Rust functions whose only failure mode is lock poisoning are total;
  `unwrap` on map lookups is modelled with `Option`.
-/

unseal Rat.mul Rat.add Rat.sub Rat.inv

namespace RustEve

/-! ## Association-list maps and sets (model of BTreeMap / BTreeSet) -/

namespace Rmap

variable {α β : Type} [DecidableEq α]

/-- Lookup of the first binding of a key. -/
def find? (m : List (α × β)) (k : α) : Option β :=
  match m with
  | [] => none
  | (k', v) :: rest => if k' = k then some v else find? rest k

/-- Insert a binding, replacing an existing binding in place. -/
def insert (m : List (α × β)) (k : α) (v : β) : List (α × β) :=
  match m with
  | [] => [(k, v)]
  | (k', v') :: rest =>
      if k' = k then (k, v) :: rest else (k', v') :: insert rest k v

/-- Key membership. -/
def contains (m : List (α × β)) (k : α) : Bool :=
  (find? m k).isSome

/-- Model of Rust `entry(k).or_insert(v)`: insert only when absent. -/
def insertIfAbsent (m : List (α × β)) (k : α) (v : β) : List (α × β) :=
  if contains m k then m else m ++ [(k, v)]

theorem find?_insert (m : List (α × β)) (k : α) (v : β) :
    find? (insert m k v) k = some v := by
  induction m with
  | nil => simp [insert, find?]
  | cons hd tl ih =>
    obtain ⟨k', v'⟩ := hd
    by_cases h : k' = k <;> simp [insert, find?, h, ih]

theorem find?_insert_ne (m : List (α × β)) (k k' : α) (v : β) (h : k ≠ k') :
    find? (insert m k v) k' = find? m k' := by
  induction m with
  | nil => simp [insert, find?, h, Ne.symm h]
  | cons hd tl ih =>
    obtain ⟨a, b⟩ := hd
    by_cases ha : a = k
    · subst ha
      simp [insert, find?, h, Ne.symm h]
    · simp [insert, find?, ha, ih]

theorem find?_append_single_ne (m : List (α × β)) (k k' : α) (v : β)
    (h : k ≠ k') : find? (m ++ [(k, v)]) k' = find? m k' := by
  induction m with
  | nil => simp [find?, h]
  | cons hd tl ih =>
    obtain ⟨a, b⟩ := hd
    by_cases hb : a = k' <;> simp [find?, hb, ih]

theorem find?_insertIfAbsent_ne (m : List (α × β)) (k k' : α) (v : β)
    (h : k ≠ k') : find? (insertIfAbsent m k v) k' = find? m k' := by
  unfold insertIfAbsent
  by_cases hc : contains m k <;>
    simp [hc, find?_append_single_ne m k k' v h]

theorem contains_insert (m : List (α × β)) (k : α) (v : β) :
    contains (insert m k v) k = true := by
  simp [contains, find?_insert]

theorem isSome_find?_insert_of (m : List (α × β)) (k k' : α) (v : β)
    (h : (find? m k').isSome) : (find? (insert m k v) k').isSome := by
  by_cases hk : k = k'
  · subst hk; simp [find?_insert]
  · rw [find?_insert_ne m k k' v hk]; exact h

theorem insert_of_find?_eq (m : List (α × β)) (k : α) (v : β)
    (h : find? m k = some v) : insert m k v = m := by
  induction m with
  | nil => simp [find?] at h
  | cons hd tl ih =>
    obtain ⟨a, b⟩ := hd
    by_cases ha : a = k
    · subst ha
      simp [find?] at h
      simp [insert, h]
    · simp [find?, ha] at h
      simp [insert, ha, ih h]

theorem insert_insert_same_key (m : List (α × β)) (k : α) (v w : β) :
    insert (insert m k v) k w = insert m k w := by
  induction m with
  | nil => simp [insert]
  | cons hd tl ih =>
    obtain ⟨a, b⟩ := hd
    by_cases ha : a = k
    · subst ha
      simp [insert]
    · simp [insert, ha, ih]

theorem insert_comm_of_contains (m : List (α × β)) (k k' : α) (v w : β)
    (h : contains m k = true) (hne : k ≠ k') :
    insert (insert m k v) k' w = insert (insert m k' w) k v := by
  induction m with
  | nil => simp [contains, find?] at h
  | cons hd tl ih =>
    obtain ⟨a, b⟩ := hd
    by_cases ha : a = k
    · subst ha
      simp [insert, Ne.symm hne, hne]
    · have h' : contains tl k = true := by
        simpa [contains, find?, ha] using h
      by_cases ha' : a = k'
      · subst ha'
        simp [insert, ha, Ne.symm hne]
      · simp [insert, ha, ha', ih h']

/-- Fold of in-place inserts over a list of bindings. -/
def insertList (m : List (α × β)) (l : List (α × β)) : List (α × β) :=
  l.foldl (fun m p => insert m p.1 p.2) m

theorem insertList_cons (m : List (α × β)) (p : α × β) (l : List (α × β)) :
    insertList m (p :: l) = insertList (insert m p.1 p.2) l := rfl

theorem contains_insert_of (m : List (α × β)) (j k : α) (w : β)
    (h : contains m k = true) : contains (insert m j w) k = true := by
  by_cases hj : j = k
  · subst hj; exact contains_insert m j w
  · rw [contains, find?_insert_ne m j k w hj]; exact h

theorem contains_insertList_of (l : List (α × β)) :
    ∀ (m : List (α × β)) (k : α), contains m k = true →
      contains (insertList m l) k = true := by
  induction l with
  | nil => intro m k h; exact h
  | cons p tl ih =>
    intro m k h
    rw [insertList_cons]
    exact ih _ k (contains_insert_of m p.1 k p.2 h)

theorem find?_insertList_not_key (l : List (α × β)) :
    ∀ (m : List (α × β)) (k : α), (∀ p ∈ l, p.1 ≠ k) →
      find? (insertList m l) k = find? m k := by
  induction l with
  | nil => intro m k _; rfl
  | cons p tl ih =>
    intro m k hall
    rw [insertList_cons, ih _ k (fun q hq => hall q (List.mem_cons_of_mem p hq))]
    exact find?_insert_ne m p.1 k p.2 (hall p (List.mem_cons_self p tl))

theorem insertList_insert_absorb (l : List (α × β)) :
    ∀ (m : List (α × β)) (k : α) (v : β), k ∈ l.map Prod.fst →
      contains m k = true →
      insertList (insert m k v) l = insertList m l := by
  induction l with
  | nil => intro m k v hk _; simp at hk
  | cons p tl ih =>
    intro m k v hk hc
    by_cases hpk : p.1 = k
    · rw [insertList_cons, insertList_cons, ← hpk, insert_insert_same_key]
    · have hk' : k ∈ tl.map Prod.fst := by
        simp only [List.map_cons, List.mem_cons] at hk
        rcases hk with hk | hk
        · exact absurd hk.symm hpk
        · exact hk
      rw [insertList_cons, insertList_cons,
        insert_comm_of_contains m k p.1 v p.2 hc (fun h => hpk h.symm)]
      exact ih _ k v hk' (contains_insert_of m p.1 k p.2 hc)

theorem insertList_idem (l : List (α × β)) :
    ∀ m : List (α × β), insertList (insertList m l) l = insertList m l := by
  induction l with
  | nil => intro m; rfl
  | cons p tl ih =>
    intro m
    obtain ⟨k, v⟩ := p
    rw [insertList_cons]
    by_cases hk : k ∈ tl.map Prod.fst
    · have hc : contains (insertList (insert m k v) tl) k = true :=
        contains_insertList_of tl _ k (contains_insert m k v)
      rw [insertList_cons,
        insertList_insert_absorb tl _ k v hk hc, ih]
    · have hfind : find? (insertList (insert m k v) tl) k = some v := by
        rw [find?_insertList_not_key tl _ k
          (fun p hp hcontra => hk (hcontra ▸ List.mem_map_of_mem Prod.fst hp))]
        exact find?_insert m k v
      rw [insertList_cons, insert_of_find?_eq _ k v hfind, ih]

theorem find?_append_of_isSome (m l : List (α × β)) (k : α) (v : β)
    (h : find? m k = some v) : find? (m ++ l) k = some v := by
  induction m with
  | nil => simp [find?] at h
  | cons hd tl ih =>
    obtain ⟨a, b⟩ := hd
    by_cases ha : a = k
    · subst ha
      simp [find?] at h ⊢
      exact h
    · simp [find?, ha] at h ⊢
      exact ih h

theorem contains_insertIfAbsent_self (m : List (α × β)) (k : α) (v : β) :
    contains (insertIfAbsent m k v) k = true := by
  unfold insertIfAbsent
  by_cases hc : contains m k
  · simpa [hc] using hc
  · simp only [hc, Bool.false_eq_true, if_false]
    unfold contains at hc ⊢
    cases hf : find? m k with
    | some v' => simp [hf] at hc
    | none =>
      induction m with
      | nil => simp [find?]
      | cons hd tl ih =>
        obtain ⟨a, b⟩ := hd
        by_cases ha : a = k
        · simp [find?, ha] at hf
        · simp [find?, ha] at hf ⊢
          exact ih (by simp [contains, hf]) hf

theorem contains_insertIfAbsent_of (m : List (α × β)) (k k' : α) (v : β)
    (h : contains m k' = true) : contains (insertIfAbsent m k v) k' = true := by
  unfold insertIfAbsent
  by_cases hc : contains m k
  · simpa [hc] using h
  · simp only [hc, Bool.false_eq_true, if_false]
    unfold contains at h ⊢
    cases hf : find? m k' with
    | none => simp [hf] at h
    | some v' => simp [find?_append_of_isSome m _ k' v' hf]

theorem insertIfAbsent_of_contains (m : List (α × β)) (k : α) (v : β)
    (h : contains m k = true) : insertIfAbsent m k v = m := by
  unfold insertIfAbsent
  simp [h]

theorem find?_mem_of (m : List (α × β)) (k : α) (v : β)
    (h : find? m k = some v) : (k, v) ∈ m := by
  induction m with
  | nil => simp [find?] at h
  | cons hd tl ih =>
    obtain ⟨a, b⟩ := hd
    by_cases ha : a = k
    · subst ha
      simp [find?] at h
      simp [h]
    · simp [find?, ha] at h
      exact List.mem_cons_of_mem _ (ih h)

theorem mem_of_insert (m : List (α × β)) (k : α) (v : β) (p : α × β)
    (h : p ∈ insert m k v) : p = (k, v) ∨ p ∈ m := by
  induction m with
  | nil => simpa [insert] using h
  | cons hd tl ih =>
    obtain ⟨a, b⟩ := hd
    by_cases ha : a = k
    · subst ha
      simp only [insert, if_pos rfl] at h
      rcases List.mem_cons.mp h with h' | h'
      · exact Or.inl h'
      · exact Or.inr (List.mem_cons_of_mem _ h')
    · simp only [insert, if_neg ha] at h
      rcases List.mem_cons.mp h with h' | h'
      · exact Or.inr (by simp [h'])
      · rcases ih h' with h'' | h''
        · exact Or.inl h''
        · exact Or.inr (List.mem_cons_of_mem _ h'')

theorem contains_ex (m : List (α × β)) (k : α)
    (h : contains m k = true) : ∃ v, find? m k = some v := by
  unfold contains at h
  exact Option.isSome_iff_exists.mp h

end Rmap

namespace Rset

variable {α : Type} [DecidableEq α]

/-- Model of `BTreeSet::insert`: add only when absent. -/
def insert (s : List α) (a : α) : List α :=
  if a ∈ s then s else s ++ [a]

theorem mem_insert_self (s : List α) (a : α) : a ∈ insert s a := by
  unfold insert
  by_cases h : a ∈ s <;> simp [h]

theorem mem_insert_of_mem (s : List α) (a b : α) (h : b ∈ s) :
    b ∈ insert s a := by
  unfold insert
  by_cases ha : a ∈ s <;> simp [ha, h]

theorem insert_of_mem (s : List α) (a : α) (h : a ∈ s) : insert s a = s := by
  simp [insert, h]

theorem mem_insert_iff (s : List α) (a b : α) :
    b ∈ insert s a ↔ b = a ∨ b ∈ s := by
  unfold insert
  by_cases h : a ∈ s
  · simp only [h, if_pos]
    constructor
    · exact Or.inr
    · rintro (rfl | hb)
      · exact h
      · exact hb
  · simp [h, or_comm]

end Rset

/-! ## Identifier types and entity structures (src/eve/types.rs) -/

abbrev CharacterId := Nat
abbrev ItemId := Int
abbrev TypeId := Int
abbrev StationId := Int
abbrev DogmaAttributeId := Int
abbrev MarketGroupId := Int

/-- Wrap of a Rust `i64 as i32` cast, used for `location_id as StationId`. -/
def asStationId (x : Int) : Int :=
  (x + 2 ^ 31) % 2 ^ 32 - 2 ^ 31

structure DogmaAttributeConcise where
  attribute_id : DogmaAttributeId
  value : Rat
  deriving DecidableEq, Repr

structure DogmaEffect where
  effect_id : Int
  is_default : Bool
  deriving DecidableEq, Repr

structure ItemType where
  capacity : Option Rat
  description : String
  dogma_attributes : List DogmaAttributeConcise
  dogma_effects : List DogmaEffect
  graphic_id : Option Int
  group_id : Int
  icon_id : Option Int
  market_group_id : Option MarketGroupId
  mass : Option Rat
  name : String
  packaged_volume : Option Rat
  portion_size : Option Int
  published : Bool
  radius : Option Rat
  type_id : TypeId
  volume : Option Rat
  deriving DecidableEq, Repr

structure DynamicItem where
  created_by : Int
  dogma_attributes : List DogmaAttributeConcise
  dogma_effects : List DogmaEffect
  mutator_type_id : TypeId
  source_type_id : TypeId
  deriving DecidableEq, Repr

structure AssetItem where
  item_id : ItemId
  type_id : TypeId
  location_id : Int
  location_type : String
  quantity : Int
  location_flag : String
  is_singleton : Bool
  is_blueprint_copy : Option Bool
  deriving DecidableEq, Repr

structure AssetName where
  item_id : ItemId
  name : String
  deriving DecidableEq, Repr

structure Position where
  x : Rat
  y : Rat
  z : Rat
  deriving DecidableEq, Repr

structure Station where
  max_dockable_ship_volume : Rat
  name : String
  office_rental_cost : Rat
  owner : Option Int
  position : Position
  race_id : Option Int
  reprocessing_efficiency : Rat
  reprocessing_stations_take : Rat
  services : List String
  station_id : Int
  system_id : Int
  type_id : Int
  deriving DecidableEq, Repr

structure DogmaAttribute where
  attribute_id : DogmaAttributeId
  default_value : Option Rat
  description : Option String
  display_name : Option String
  high_is_good : Option Bool
  icon_id : Option Int
  name : Option String
  published : Option Bool
  stackable : Option Bool
  unit_id : Option Int
  deriving DecidableEq, Repr

structure MarketGroup where
  description : String
  market_group_id : MarketGroupId
  name : String
  parent_group_id : Option MarketGroupId
  types : List TypeId
  deriving DecidableEq, Repr

/-! ## Asset store (src/db/mod.rs) -/

namespace Db

/-- `db::AttributeRange` (field order as in the source: max then min). -/
structure AttributeRange where
  max : Rat
  min : Rat
  deriving DecidableEq, Repr

/-- The three derived maps plus the per-mutator attribute ranges. -/
structure MutaplasmidEffects where
  source_to_mutator_to_resulting : List (TypeId × List (TypeId × TypeId))
  resulting_to_applicable : List (TypeId × List TypeId)
  resulting_to_mutator_to_source : List (TypeId × List (TypeId × List TypeId))
  attributes : List (TypeId × List (DogmaAttributeId × AttributeRange))
  deriving DecidableEq, Repr

def MutaplasmidEffects.empty : MutaplasmidEffects :=
  ⟨[], [], [], []⟩

/-- `db::GetData`, the implied-key alphabet emitted by the store. -/
inductive GetData where
  | dynamic (type_id : TypeId) (item_id : ItemId)
  | marketGroup (market_group_id : MarketGroupId)
  | station (station_id : StationId)
  | type' (type_id : TypeId)
  | dogmaAttribute (dogma_attribute_id : DogmaAttributeId)
  deriving DecidableEq, Repr

/-- The in-memory asset store (`CharacterAssets`). -/
structure CharacterAssets where
  assets : List (ItemId × AssetItem)
  assets_names : List (ItemId × String)
  stations : List (StationId × Station)
  dynamics : List (ItemId × DynamicItem)
  dogma_attributes : List (DogmaAttributeId × DogmaAttribute)
  dogma_attributes_name_to_id : List (String × DogmaAttributeId)
  types : List (TypeId × ItemType)
  market_groups : List (MarketGroupId × MarketGroup)
  abyssal_items : List TypeId
  mutaplasmid_effects : MutaplasmidEffects
  deriving DecidableEq, Repr

namespace CharacterAssets

/-- `CharacterAssets::new`. -/
def new (abyssal_items : List TypeId) : CharacterAssets :=
  ⟨[], [], [], [], [], [], [], [], abyssal_items, .empty⟩

/-- `CharacterAssets::is_on_station`. -/
def is_on_station (asset : AssetItem) : Bool :=
  asset.location_type = "station"

/-- `CharacterAssets::is_abyssal`. -/
def is_abyssal (s : CharacterAssets) (asset : AssetItem) : Bool :=
  asset.type_id ∈ s.abyssal_items

/-- One `(resulting_type, source_type)` entry of the
`add_mutaplasmid_effects` inner loop body. -/
def addMutaEntry (mutator_type_id : TypeId)
    (st : MutaplasmidEffects × List GetData)
    (resulting_type_id source_type_id : TypeId) :
    MutaplasmidEffects × List GetData :=
  let eff := st.1
  let inner := (Rmap.find? eff.source_to_mutator_to_resulting source_type_id).getD []
  let eff := { eff with
    source_to_mutator_to_resulting :=
      Rmap.insert eff.source_to_mutator_to_resulting source_type_id
        (Rmap.insertIfAbsent inner mutator_type_id resulting_type_id) }
  let app := (Rmap.find? eff.resulting_to_applicable resulting_type_id).getD []
  let eff := { eff with
    resulting_to_applicable :=
      Rmap.insert eff.resulting_to_applicable resulting_type_id
        (Rset.insert app source_type_id) }
  let rms := (Rmap.find? eff.resulting_to_mutator_to_source resulting_type_id).getD []
  let srcs := (Rmap.find? rms mutator_type_id).getD []
  let eff := { eff with
    resulting_to_mutator_to_source :=
      Rmap.insert eff.resulting_to_mutator_to_source resulting_type_id
        (Rmap.insert rms mutator_type_id (Rset.insert srcs source_type_id)) }
  (eff, Rset.insert st.2 (GetData.type' source_type_id))

/-- One `(resulting_type, applicable_types)` iteration of the
`add_mutaplasmid_effects` outer loop. -/
def ioStep (mutator_type_id : TypeId) (st : MutaplasmidEffects × List GetData)
    (pair : TypeId × List TypeId) : MutaplasmidEffects × List GetData :=
  pair.2.foldl (fun st src => addMutaEntry mutator_type_id st pair.1 src) st

/-- The full input/output loop of `add_mutaplasmid_effects`. -/
def ioFold (mutator_type_id : TypeId) (input_output : List (TypeId × List TypeId))
    (st : MutaplasmidEffects × List GetData) : MutaplasmidEffects × List GetData :=
  input_output.foldl (ioStep mutator_type_id) st

/-- One iteration of the attributes loop of `add_mutaplasmid_effects`. -/
def attrStep (mutator_type_id : TypeId) (eff : MutaplasmidEffects)
    (triple : DogmaAttributeId × Rat × Rat) : MutaplasmidEffects :=
  let inner := (Rmap.find? eff.attributes mutator_type_id).getD []
  { eff with
    attributes :=
      Rmap.insert eff.attributes mutator_type_id
        (Rmap.insertIfAbsent inner triple.1 ⟨triple.2.2, triple.2.1⟩) }

/-- The attributes loop of `add_mutaplasmid_effects`. -/
def attrFold (mutator_type_id : TypeId)
    (attributes : List (DogmaAttributeId × Rat × Rat))
    (eff : MutaplasmidEffects) : MutaplasmidEffects :=
  attributes.foldl (attrStep mutator_type_id) eff

/-- `CharacterAssets::add_mutaplasmid_effects`. -/
def add_mutaplasmid_effects (s : CharacterAssets) (mutator_type_id : TypeId)
    (attributes : List (DogmaAttributeId × Rat × Rat))
    (input_output : List (TypeId × List TypeId)) :
    CharacterAssets × List GetData :=
  let step := ioFold mutator_type_id input_output (s.mutaplasmid_effects, [])
  let eff := attrFold mutator_type_id attributes step.1
  ({ s with mutaplasmid_effects := eff }, step.2)

/-- The implied keys emitted by `add_asset`, as a function of the tables it
consults (the just-updated assets table is not among them). -/
def assetNewItems (stations : List (StationId × Station))
    (dynamics : List (ItemId × DynamicItem)) (types : List (TypeId × ItemType))
    (abyssal_items : List TypeId) (asset : AssetItem) : List GetData :=
  let new_items : List GetData := []
  let new_items :=
    if is_on_station asset &&
        !Rmap.contains stations (asStationId asset.location_id) then
      new_items ++ [GetData.station (asStationId asset.location_id)]
    else new_items
  let new_items :=
    if decide (asset.type_id ∈ abyssal_items) &&
        !Rmap.contains dynamics asset.item_id then
      new_items ++ [GetData.dynamic asset.type_id asset.item_id]
    else new_items
  let new_items :=
    if !Rmap.contains types asset.type_id then
      new_items ++ [GetData.type' asset.type_id]
    else new_items
  new_items

/-- `CharacterAssets::add_asset`. -/
def add_asset (s : CharacterAssets) (asset : AssetItem) :
    CharacterAssets × List GetData :=
  ({ s with assets := Rmap.insert s.assets asset.item_id asset },
    assetNewItems s.stations s.dynamics s.types s.abyssal_items asset)

/-- `CharacterAssets::add_asset_name`. -/
def add_asset_name (s : CharacterAssets) (asset_id : ItemId) (name : String) :
    CharacterAssets × List GetData :=
  ({ s with assets_names := Rmap.insert s.assets_names asset_id name }, [])

/-- `CharacterAssets::add_station`. -/
def add_station (s : CharacterAssets) (station_id : StationId)
    (station : Station) : CharacterAssets × List GetData :=
  ({ s with stations := Rmap.insert s.stations station_id station }, [])

/-- `CharacterAssets::add_dogma_attribute`. -/
def add_dogma_attribute (s : CharacterAssets) (dogma_attribute : DogmaAttribute) :
    CharacterAssets × List GetData :=
  let attribute_id := dogma_attribute.attribute_id
  let name := dogma_attribute.name.getD ("attribute_" ++ toString attribute_id)
  ({ s with
      dogma_attributes := Rmap.insert s.dogma_attributes attribute_id dogma_attribute,
      dogma_attributes_name_to_id :=
        Rmap.insert s.dogma_attributes_name_to_id name attribute_id }, [])

/-- The implied keys emitted by `add_type`. -/
def typeNewItems (market_groups : List (MarketGroupId × MarketGroup))
    (item_type : ItemType) : List GetData :=
  match item_type.market_group_id with
  | some market_group_id =>
      if !Rmap.contains market_groups market_group_id then
        [GetData.marketGroup market_group_id]
      else []
  | none => []

/-- `CharacterAssets::add_type`. -/
def add_type (s : CharacterAssets) (item_type : ItemType) :
    CharacterAssets × List GetData :=
  ({ s with types := Rmap.insert s.types item_type.type_id item_type },
    typeNewItems s.market_groups item_type)

/-- Loop of `add_market_group` emitting refs for member types not yet
present (in push order). -/
def missingMemberTypes (types : List (TypeId × ItemType)) :
    List TypeId → List GetData
  | [] => []
  | t :: rest =>
      if !Rmap.contains types t then
        GetData.type' t :: missingMemberTypes types rest
      else missingMemberTypes types rest

/-- `CharacterAssets::add_market_group`. -/
def add_market_group (s : CharacterAssets) (market_group : MarketGroup) :
    CharacterAssets × List GetData :=
  ({ s with
      market_groups :=
        Rmap.insert s.market_groups market_group.market_group_id market_group },
    missingMemberTypes s.types market_group.types)

/-- Loop of `add_dynamic_internal` emitting refs for dogma attributes not
yet present (in push order). -/
def missingDynAttrs (table : List (DogmaAttributeId × DogmaAttribute)) :
    List DogmaAttributeConcise → List GetData
  | [] => []
  | attr :: rest =>
      if !Rmap.contains table attr.attribute_id then
        GetData.dogmaAttribute attr.attribute_id :: missingDynAttrs table rest
      else missingDynAttrs table rest

/-- The implied keys emitted by `add_dynamic_internal`. -/
def dynamicNewItems (dogma_attributes : List (DogmaAttributeId × DogmaAttribute))
    (types : List (TypeId × ItemType)) (dynamic : DynamicItem) : List GetData :=
  let new_items : List GetData :=
    missingDynAttrs dogma_attributes dynamic.dogma_attributes
  let new_items :=
    if !Rmap.contains types dynamic.source_type_id then
      new_items ++ [GetData.type' dynamic.source_type_id]
    else new_items
  let new_items :=
    if !Rmap.contains types dynamic.mutator_type_id then
      new_items ++ [GetData.type' dynamic.mutator_type_id]
    else new_items
  new_items

/-- `CharacterAssets::add_dynamic_internal` (and the public `add_dynamic`). -/
def add_dynamic (s : CharacterAssets) (_type_id : TypeId) (item_id : ItemId)
    (dynamic : DynamicItem) : CharacterAssets × List GetData :=
  ({ s with dynamics := Rmap.insert s.dynamics item_id dynamic },
    dynamicNewItems s.dogma_attributes s.types dynamic)

/-- `CharacterAssets::get_attribute_id_by_name`. -/
def get_attribute_id_by_name (s : CharacterAssets) (name : String) :
    Option DogmaAttributeId :=
  Rmap.find? s.dogma_attributes_name_to_id name

/-- `CharacterAssets::get_attributes_by_mutator_type_id` (the `Err` case of
the Rust `Result` is `none`). -/
def get_attributes_by_mutator_type_id (s : CharacterAssets)
    (mutator_type_id : TypeId) : Option (List (DogmaAttributeId × AttributeRange)) :=
  Rmap.find? s.mutaplasmid_effects.attributes mutator_type_id

/-- `CharacterAssets::get_resulting_type_by_source_mutator`. -/
def get_resulting_type_by_source_mutator (s : CharacterAssets)
    (source_type_id mutator_type_id : TypeId) : Option TypeId :=
  (Rmap.find? s.mutaplasmid_effects.source_to_mutator_to_resulting
      source_type_id).bind
    (fun inner => Rmap.find? inner mutator_type_id)

/-- `CharacterAssets::get_attribute_ids_by_mutator`. -/
def get_attribute_ids_by_mutator (s : CharacterAssets)
    (mutator_type_id : TypeId) : Option (List DogmaAttributeId) :=
  (Rmap.find? s.mutaplasmid_effects.attributes mutator_type_id).map
    (fun attrs => attrs.map Prod.fst)

/-- `CharacterAssets::get_applicable_types_by_resulting_type`. -/
def get_applicable_types_by_resulting_type (s : CharacterAssets)
    (resulting_type_id : TypeId) : Option (List TypeId) :=
  Rmap.find? s.mutaplasmid_effects.resulting_to_applicable resulting_type_id

/-- Loop body of `get_mutators_by_resulting_type_id`; `none` models the
panicking `unwrap` on a missing types-table or attributes-table entry. -/
def getMutatorsLoop (types : List (TypeId × ItemType))
    (attrs : List (TypeId × List (DogmaAttributeId × AttributeRange)))
    (rel : List (TypeId × List TypeId))
    (res : List ((TypeId × String) × List (DogmaAttributeId × AttributeRange))) :
    Option (List ((TypeId × String) × List (DogmaAttributeId × AttributeRange))) :=
  match rel with
  | [] => some res
  | (m, _) :: rest =>
      match Rmap.find? types m, Rmap.find? attrs m with
      | some mt, some a =>
          getMutatorsLoop types attrs rest (Rmap.insertIfAbsent res (m, mt.name) a)
      | _, _ => none

/-- `CharacterAssets::get_mutators_by_resulting_type_id`. -/
def get_mutators_by_resulting_type_id (s : CharacterAssets)
    (resulting_type_id : TypeId) :
    Option (List ((TypeId × String) × List (DogmaAttributeId × AttributeRange))) :=
  match Rmap.find? s.mutaplasmid_effects.resulting_to_mutator_to_source
      resulting_type_id with
  | none => some []
  | some rel => getMutatorsLoop s.types s.mutaplasmid_effects.attributes rel []

/-- Merge one per-pair interval into the accumulator, exactly as the match
in `get_min_max_attributes_by_resulting_type_id` does. -/
def mergeRange (acc : List (DogmaAttributeId × AttributeRange))
    (a : DogmaAttributeId) (new_min new_max : Rat) :
    List (DogmaAttributeId × AttributeRange) :=
  match Rmap.find? acc a with
  | some r => Rmap.insert acc a { max := max new_max r.max, min := min new_min r.min }
  | none => Rmap.insert acc a { max := new_max, min := new_min }

/-- Inner loop of `get_min_max_attributes_by_resulting_type_id` over the
source type's dogma attributes. -/
def minMaxDogma (mutator_attributes : List (DogmaAttributeId × AttributeRange)) :
    List DogmaAttributeConcise → List (DogmaAttributeId × AttributeRange) →
    List (DogmaAttributeId × AttributeRange)
  | [], acc => acc
  | attr :: rest, acc =>
      match Rmap.find? mutator_attributes attr.attribute_id with
      | some rng =>
          let v1 := rng.min * attr.value
          let v2 := rng.max * attr.value
          minMaxDogma mutator_attributes rest
            (mergeRange acc attr.attribute_id (min v1 v2) (max v1 v2))
      | none => minMaxDogma mutator_attributes rest acc

/-- Middle loop of `get_min_max_attributes_by_resulting_type_id` over the
source types of one mutator; `none` models the `unwrap` on `types.get`. -/
def minMaxSources (types : List (TypeId × ItemType))
    (mutator_attributes : List (DogmaAttributeId × AttributeRange))
    (srcs : List TypeId) (acc : List (DogmaAttributeId × AttributeRange)) :
    Option (List (DogmaAttributeId × AttributeRange)) :=
  match srcs with
  | [] => some acc
  | src :: rest =>
      match Rmap.find? types src with
      | none => none
      | some st =>
          minMaxSources types mutator_attributes rest
            (minMaxDogma mutator_attributes st.dogma_attributes acc)

/-- Outer loop of `get_min_max_attributes_by_resulting_type_id`; `none`
models the `unwrap` on the attributes table. -/
def minMaxMutators
    (attrs : List (TypeId × List (DogmaAttributeId × AttributeRange)))
    (types : List (TypeId × ItemType)) (rel : List (TypeId × List TypeId))
    (acc : List (DogmaAttributeId × AttributeRange)) :
    Option (List (DogmaAttributeId × AttributeRange)) :=
  match rel with
  | [] => some acc
  | (m, srcs) :: rest =>
      match Rmap.find? attrs m with
      | none => none
      | some ma =>
          (minMaxSources types ma srcs acc).bind (minMaxMutators attrs types rest)

/-- `CharacterAssets::get_min_max_attributes_by_resulting_type_id`. -/
def get_min_max_attributes_by_resulting_type_id (s : CharacterAssets)
    (resulting_type_id : TypeId) :
    Option (List (DogmaAttributeId × AttributeRange)) :=
  minMaxMutators s.mutaplasmid_effects.attributes s.types
    ((Rmap.find? s.mutaplasmid_effects.resulting_to_mutator_to_source
        resulting_type_id).getD [])
    []

/-- `CharacterAssets::all_items_resolved`. -/
def all_items_resolved (s : CharacterAssets) : Bool :=
  (s.assets.all fun p =>
    let asset := p.2
    (if is_on_station asset then
        Rmap.contains s.stations (asStationId asset.location_id)
      else true) &&
    (let tid? : Option TypeId :=
        if s.is_abyssal asset then
          (Rmap.find? s.dynamics asset.item_id).map (fun d => d.source_type_id)
        else some asset.type_id
     match tid? with
     | none => false
     | some tid =>
         match Rmap.find? s.types tid with
         | none => false
         | some it =>
             match it.market_group_id with
             | some g => Rmap.contains s.market_groups g
             | none => true)) &&
  (s.dynamics.all fun p =>
    p.2.dogma_attributes.all fun attr =>
      Rmap.contains s.dogma_attributes attr.attribute_id)

end CharacterAssets

/-! ### Claim-side description of the min/max union (C1)

These definitions follow the specification's wording: for every
`(source, mutator)` pair yielding the resulting type, each attribute with a
mutator range `[lo, hi]` and a base value `v` contributes the interval
`[min(lo*v, hi*v), max(lo*v, hi*v)]`, and the answer is the coordinate-wise
min/max union of the contributions. -/

/-- Per-pair interval contributions of one source type under one mutator. -/
def pairContribs (mutator_attributes : List (DogmaAttributeId × AttributeRange))
    (das : List DogmaAttributeConcise) : List (DogmaAttributeId × Rat × Rat) :=
  das.filterMap fun attr =>
    (Rmap.find? mutator_attributes attr.attribute_id).map fun rng =>
      (attr.attribute_id, min (rng.min * attr.value) (rng.max * attr.value),
        max (rng.min * attr.value) (rng.max * attr.value))

/-- Contributions restricted to a single attribute id. -/
def contribsFor (cs : List (DogmaAttributeId × Rat × Rat))
    (a : DogmaAttributeId) : List (Rat × Rat) :=
  cs.filterMap fun c => if c.1 = a then some c.2 else none

/-- All per-pair contributions for a resulting type, over the store's
`resulting → mutator → sources` relation. -/
def allContribs (s : CharacterAssets) (resulting_type_id : TypeId) :
    List (DogmaAttributeId × Rat × Rat) :=
  ((Rmap.find? s.mutaplasmid_effects.resulting_to_mutator_to_source
      resulting_type_id).getD []).flatMap fun p =>
    p.2.flatMap fun src =>
      pairContribs ((Rmap.find? s.mutaplasmid_effects.attributes p.1).getD [])
        (((Rmap.find? s.types src).map ItemType.dogma_attributes).getD [])

/-- One merge step on an optional interval. -/
def mergeOpt (o : Option AttributeRange) (lo hi : Rat) : AttributeRange :=
  match o with
  | some r => { max := max hi r.max, min := min lo r.min }
  | none => { max := hi, min := lo }

/-- Folding a contribution list into an optional interval. -/
def mergeOptList (o : Option AttributeRange) (cs : List (Rat × Rat)) :
    Option AttributeRange :=
  cs.foldl (fun o c => some (mergeOpt o c.1 c.2)) o

/-- The coordinate-wise union interval of a contribution list: min of the
per-pair minima and max of the per-pair maxima, `none` when empty. -/
def unionInterval (cs : List (Rat × Rat)) : Option AttributeRange :=
  match cs with
  | [] => none
  | c :: rest =>
      some { max := rest.foldl (fun acc x => max acc x.2) c.2,
             min := rest.foldl (fun acc x => min acc x.1) c.1 }

theorem mergeOptList_append (o : Option AttributeRange)
    (cs cs' : List (Rat × Rat)) :
    mergeOptList o (cs ++ cs') = mergeOptList (mergeOptList o cs) cs' := by
  simp [mergeOptList, List.foldl_append]

theorem contribsFor_append (cs cs' : List (DogmaAttributeId × Rat × Rat))
    (a : DogmaAttributeId) :
    contribsFor (cs ++ cs') a = contribsFor cs a ++ contribsFor cs' a := by
  simp [contribsFor]

theorem mergeOptList_some (rest : List (Rat × Rat)) :
    ∀ M m : Rat, mergeOptList (some { max := M, min := m }) rest =
      some { max := rest.foldl (fun acc x => max acc x.2) M,
             min := rest.foldl (fun acc x => min acc x.1) m } := by
  induction rest with
  | nil => intro M m; simp [mergeOptList]
  | cons c cs ih =>
    intro M m
    have h1 : mergeOptList (some { max := M, min := m }) (c :: cs) =
        mergeOptList (some { max := max c.2 M, min := min c.1 m }) cs := rfl
    rw [h1, ih]
    simp [max_comm c.2 M, min_comm c.1 m]

theorem mergeOptList_none_eq_union (cs : List (Rat × Rat)) :
    mergeOptList none cs = unionInterval cs := by
  cases cs with
  | nil => rfl
  | cons c rest =>
    have h1 : mergeOptList none (c :: rest) =
        mergeOptList (some { max := c.2, min := c.1 }) rest := rfl
    rw [h1, mergeOptList_some]
    rfl

theorem mergeRange_find?_self (acc : List (DogmaAttributeId × AttributeRange))
    (a : DogmaAttributeId) (lo hi : Rat) :
    Rmap.find? (CharacterAssets.mergeRange acc a lo hi) a =
      some (mergeOpt (Rmap.find? acc a) lo hi) := by
  unfold CharacterAssets.mergeRange mergeOpt
  cases h : Rmap.find? acc a <;> simp [h, Rmap.find?_insert]

theorem mergeRange_find?_ne (acc : List (DogmaAttributeId × AttributeRange))
    (a b : DogmaAttributeId) (lo hi : Rat) (h : a ≠ b) :
    Rmap.find? (CharacterAssets.mergeRange acc a lo hi) b = Rmap.find? acc b := by
  unfold CharacterAssets.mergeRange
  cases hf : Rmap.find? acc a <;> simp [hf, Rmap.find?_insert_ne _ _ _ _ h]

theorem minMaxDogma_spec (ma : List (DogmaAttributeId × AttributeRange))
    (das : List DogmaAttributeConcise) :
    ∀ (acc : List (DogmaAttributeId × AttributeRange)) (a : DogmaAttributeId),
      Rmap.find? (CharacterAssets.minMaxDogma ma das acc) a =
        mergeOptList (Rmap.find? acc a) (contribsFor (pairContribs ma das) a) := by
  induction das with
  | nil =>
    intro acc a
    simp [CharacterAssets.minMaxDogma, pairContribs, contribsFor, mergeOptList]
  | cons attr rest ih =>
    intro acc a
    cases hfind : Rmap.find? ma attr.attribute_id with
    | none =>
      have h2 : pairContribs ma (attr :: rest) = pairContribs ma rest := by
        unfold pairContribs
        rw [List.filterMap_cons]
        simp [hfind]
      simp only [CharacterAssets.minMaxDogma, hfind]
      rw [h2, ih]
    | some rng =>
      have h2 : pairContribs ma (attr :: rest) =
          (attr.attribute_id, min (rng.min * attr.value) (rng.max * attr.value),
            max (rng.min * attr.value) (rng.max * attr.value)) ::
            pairContribs ma rest := by
        unfold pairContribs
        rw [List.filterMap_cons]
        simp [hfind]
      simp only [CharacterAssets.minMaxDogma, hfind]
      rw [h2, ih]
      by_cases hab : attr.attribute_id = a
      · subst hab
        rw [mergeRange_find?_self]
        have h3 : contribsFor
            ((attr.attribute_id, min (rng.min * attr.value) (rng.max * attr.value),
              max (rng.min * attr.value) (rng.max * attr.value)) ::
              pairContribs ma rest) attr.attribute_id =
            (min (rng.min * attr.value) (rng.max * attr.value),
              max (rng.min * attr.value) (rng.max * attr.value)) ::
              contribsFor (pairContribs ma rest) attr.attribute_id := by
          unfold contribsFor
          rw [List.filterMap_cons]
          simp
        rw [h3]
        rfl
      · rw [mergeRange_find?_ne _ _ _ _ _ hab]
        have h3 : contribsFor
            ((attr.attribute_id, min (rng.min * attr.value) (rng.max * attr.value),
              max (rng.min * attr.value) (rng.max * attr.value)) ::
              pairContribs ma rest) a =
            contribsFor (pairContribs ma rest) a := by
          unfold contribsFor
          rw [List.filterMap_cons]
          simp [hab]
        rw [h3]

theorem minMaxSources_spec (types : List (TypeId × ItemType))
    (ma : List (DogmaAttributeId × AttributeRange)) :
    ∀ (srcs : List TypeId) (acc : List (DogmaAttributeId × AttributeRange)),
      (∀ src ∈ srcs, (Rmap.find? types src).isSome) →
      ∃ m, CharacterAssets.minMaxSources types ma srcs acc = some m ∧
        ∀ a, Rmap.find? m a =
          mergeOptList (Rmap.find? acc a)
            (contribsFor
              (srcs.flatMap fun src =>
                pairContribs ma
                  (((Rmap.find? types src).map ItemType.dogma_attributes).getD []))
              a) := by
  intro srcs
  induction srcs with
  | nil =>
    intro acc _
    exact ⟨acc, rfl, by intro a; simp [contribsFor, mergeOptList]⟩
  | cons src rest ih =>
    intro acc hall
    have hsrc : (Rmap.find? types src).isSome := hall src (by simp)
    obtain ⟨st, hst⟩ := Option.isSome_iff_exists.mp hsrc
    obtain ⟨m, hm, hchar⟩ :=
      ih (CharacterAssets.minMaxDogma ma st.dogma_attributes acc)
        (fun x hx => hall x (by simp [hx]))
    refine ⟨m, ?_, ?_⟩
    · simp only [CharacterAssets.minMaxSources, hst]
      exact hm
    · intro a
      rw [hchar a, minMaxDogma_spec]
      rw [List.flatMap_cons, contribsFor_append, mergeOptList_append, hst]
      rfl

theorem minMaxMutators_spec
    (attrs : List (TypeId × List (DogmaAttributeId × AttributeRange)))
    (types : List (TypeId × ItemType)) :
    ∀ (rel : List (TypeId × List TypeId))
      (acc : List (DogmaAttributeId × AttributeRange)),
      (∀ p ∈ rel, (Rmap.find? attrs p.1).isSome) →
      (∀ p ∈ rel, ∀ src ∈ p.2, (Rmap.find? types src).isSome) →
      ∃ m, CharacterAssets.minMaxMutators attrs types rel acc = some m ∧
        ∀ a, Rmap.find? m a =
          mergeOptList (Rmap.find? acc a)
            (contribsFor
              (rel.flatMap fun p =>
                p.2.flatMap fun src =>
                  pairContribs ((Rmap.find? attrs p.1).getD [])
                    (((Rmap.find? types src).map ItemType.dogma_attributes).getD []))
              a) := by
  intro rel
  induction rel with
  | nil =>
    intro acc _ _
    exact ⟨acc, rfl, by intro a; simp [contribsFor, mergeOptList]⟩
  | cons p rest ih =>
    intro acc hattrs htypes
    obtain ⟨m0, srcs⟩ := p
    have ha : (Rmap.find? attrs m0).isSome := hattrs (m0, srcs) (by simp)
    obtain ⟨ma, hma⟩ := Option.isSome_iff_exists.mp ha
    obtain ⟨m1, hm1, hchar1⟩ :=
      minMaxSources_spec types ma srcs acc
        (fun src hs => htypes (m0, srcs) (by simp) src hs)
    obtain ⟨m, hm, hchar⟩ :=
      ih m1 (fun q hq => hattrs q (by simp [hq]))
        (fun q hq => htypes q (by simp [hq]))
    refine ⟨m, ?_, ?_⟩
    · simp only [CharacterAssets.minMaxMutators, hma]
      rw [hm1]
      exact hm
    · intro a
      rw [hchar a, hchar1 a]
      rw [List.flatMap_cons, contribsFor_append, mergeOptList_append, hma]
      rfl

/-- C1.  For every resulting type, `get_min_max_attributes_by_resulting_type_id`
returns, per attribute id, exactly the coordinate-wise union of the per-pair
intervals `[min(lo*v, hi*v), max(lo*v, hi*v)]` over all `(source, mutator)`
pairs that the store's relation holds for that resulting type; attribute ids
without both a mutator range and a base value are absent.  The hypotheses
state the totality precondition on the store noted in C10. -/
theorem get_min_max_attributes_is_union (s : CharacterAssets) (r : TypeId)
    (hattrs : ∀ p ∈ (Rmap.find?
        s.mutaplasmid_effects.resulting_to_mutator_to_source r).getD [],
      (Rmap.find? s.mutaplasmid_effects.attributes p.1).isSome)
    (htypes : ∀ p ∈ (Rmap.find?
        s.mutaplasmid_effects.resulting_to_mutator_to_source r).getD [],
      ∀ src ∈ p.2, (Rmap.find? s.types src).isSome) :
    ∃ m, s.get_min_max_attributes_by_resulting_type_id r = some m ∧
      ∀ a, Rmap.find? m a = unionInterval (contribsFor (allContribs s r) a) := by
  obtain ⟨m, hm, hchar⟩ :=
    minMaxMutators_spec s.mutaplasmid_effects.attributes s.types
      ((Rmap.find? s.mutaplasmid_effects.resulting_to_mutator_to_source r).getD [])
      [] hattrs htypes
  refine ⟨m, hm, ?_⟩
  intro a
  rw [hchar a]
  have hnone : Rmap.find? ([] : List (DogmaAttributeId × AttributeRange)) a = none := rfl
  rw [hnone, mergeOptList_none_eq_union]
  rfl

/-- Totality of the `get_mutators_by_resulting_type_id` loop when every
mutator in the relation is in both the types and the attributes tables. -/
theorem getMutatorsLoop_total (types : List (TypeId × ItemType))
    (attrs : List (TypeId × List (DogmaAttributeId × AttributeRange))) :
    ∀ (rel : List (TypeId × List TypeId))
      (res : List ((TypeId × String) × List (DogmaAttributeId × AttributeRange))),
      (∀ p ∈ rel, (Rmap.find? types p.1).isSome ∧ (Rmap.find? attrs p.1).isSome) →
      (CharacterAssets.getMutatorsLoop types attrs rel res).isSome := by
  intro rel
  induction rel with
  | nil => intro res _; simp [CharacterAssets.getMutatorsLoop]
  | cons p rest ih =>
    intro res hall
    obtain ⟨m, srcs⟩ := p
    obtain ⟨h1, h2⟩ := hall (m, srcs) (by simp)
    obtain ⟨mt, hmt⟩ := Option.isSome_iff_exists.mp h1
    obtain ⟨a, ha⟩ := Option.isSome_iff_exists.mp h2
    simp only [CharacterAssets.getMutatorsLoop, hmt, ha]
    exact ih _ (fun q hq => hall q (by simp [hq]))

/-- A store reachable by a single `add_mutaplasmid_effects` call relating
mutator 10 and source 30 to resulting type 20, with no attribute ranges and
with the types table still empty. -/
def c10Store : CharacterAssets :=
  ((CharacterAssets.new []).add_mutaplasmid_effects 10 [] [(20, [30])]).1

/-- C10.  The store's mutator queries are partial: on a store reachable by a
single `add_mutaplasmid_effects` call whose mutator and source type ids were
never admitted to the types table, both `get_mutators_by_resulting_type_id`
and `get_min_max_attributes_by_resulting_type_id` hit a panicking `unwrap`
(modelled by `none`); and both are total whenever every type id appearing in
the relation for the queried resulting type is present in the types table
(with its attribute ranges recorded for mutators). -/
theorem mutator_queries_partial_unless_types_admitted :
    (c10Store.get_mutators_by_resulting_type_id 20 = none ∧
      c10Store.get_min_max_attributes_by_resulting_type_id 20 = none) ∧
    ∀ (s : CharacterAssets) (r : TypeId),
      (∀ p ∈ (Rmap.find?
          s.mutaplasmid_effects.resulting_to_mutator_to_source r).getD [],
        (Rmap.find? s.types p.1).isSome ∧
          (Rmap.find? s.mutaplasmid_effects.attributes p.1).isSome) →
      (∀ p ∈ (Rmap.find?
          s.mutaplasmid_effects.resulting_to_mutator_to_source r).getD [],
        ∀ src ∈ p.2, (Rmap.find? s.types src).isSome) →
      (s.get_mutators_by_resulting_type_id r).isSome ∧
        (s.get_min_max_attributes_by_resulting_type_id r).isSome := by
  refine ⟨⟨by decide, by decide⟩, ?_⟩
  intro s r hmut hsrc
  constructor
  · unfold CharacterAssets.get_mutators_by_resulting_type_id
    cases hrel : Rmap.find? s.mutaplasmid_effects.resulting_to_mutator_to_source r with
    | none => simp
    | some rel =>
      exact getMutatorsLoop_total s.types s.mutaplasmid_effects.attributes rel []
        (by intro p hp; exact hmut p (by simp [hrel, hp]))
  · obtain ⟨m, hm, _⟩ :=
      minMaxMutators_spec s.mutaplasmid_effects.attributes s.types
        ((Rmap.find? s.mutaplasmid_effects.resulting_to_mutator_to_source r).getD [])
        [] (fun p hp => (hmut p hp).2) hsrc
    unfold CharacterAssets.get_min_max_attributes_by_resulting_type_id
    simp [hm]

/-- A minimal `ItemType` used by concrete test stores. -/
def mkItemType (tid : TypeId) (mg : Option MarketGroupId)
    (das : List DogmaAttributeConcise) : ItemType :=
  { capacity := none, description := "", dogma_attributes := das,
    dogma_effects := [], graphic_id := none, group_id := 0, icon_id := none,
    market_group_id := mg, mass := none, name := "T" ++ toString tid,
    packaged_volume := none, portion_size := none, published := true,
    radius := none, type_id := tid, volume := none }

/-- Store of the specification's mutator-range scenario: source type 1 with
base attribute 10 valued 100, mutator 2 with range `[0.8, 1.2]` on
attribute 10, resulting type 3. -/
def c1Store : CharacterAssets :=
  let s0 := CharacterAssets.new []
  let s1 := (s0.add_mutaplasmid_effects 2 [(10, 4/5, 6/5)] [(3, [1])]).1
  (s1.add_type (mkItemType 1 none [⟨10, 100⟩])).1

/-- Witness for C1 at the specification's literal scenario; the union
interval for attribute 10 is `[80, 120]`. -/
theorem get_min_max_attributes_is_union_witness :
    (∃ m, c1Store.get_min_max_attributes_by_resulting_type_id 3 = some m ∧
      ∀ a, Rmap.find? m a = unionInterval (contribsFor (allContribs c1Store 3) a)) ∧
    unionInterval (contribsFor (allContribs c1Store 3) 10) =
      some { max := 120, min := 80 } :=
  ⟨get_min_max_attributes_is_union c1Store 3 (by decide) (by decide), by decide⟩

/-! ### Monotone facts established by `add_mutaplasmid_effects` (for C9) -/

/-- The relation facts recorded for one `(mutator, resulting, source)`
entry of the catalogue. -/
def EntryDone (eff : MutaplasmidEffects) (m r src : TypeId) : Prop :=
  (∃ inner, Rmap.find? eff.source_to_mutator_to_resulting src = some inner ∧
    Rmap.contains inner m = true) ∧
  (∃ app, Rmap.find? eff.resulting_to_applicable r = some app ∧ src ∈ app) ∧
  (∃ rms srcs, Rmap.find? eff.resulting_to_mutator_to_source r = some rms ∧
    Rmap.find? rms m = some srcs ∧ src ∈ srcs)

/-- The attribute-range fact recorded for one `(mutator, attribute)` pair. -/
def AttrDone (eff : MutaplasmidEffects) (m a : TypeId) : Prop :=
  ∃ inner, Rmap.find? eff.attributes m = some inner ∧
    Rmap.contains inner a = true

theorem addMutaEntry_snd (m : TypeId) (st : MutaplasmidEffects × List GetData)
    (r src : TypeId) :
    (CharacterAssets.addMutaEntry m st r src).2 =
      Rset.insert st.2 (GetData.type' src) := rfl

theorem addMutaEntry_attributes (m : TypeId)
    (st : MutaplasmidEffects × List GetData) (r src : TypeId) :
    (CharacterAssets.addMutaEntry m st r src).1.attributes =
      st.1.attributes := rfl

theorem addMutaEntry_s2m (m : TypeId)
    (st : MutaplasmidEffects × List GetData) (r src : TypeId) :
    (CharacterAssets.addMutaEntry m st r src).1.source_to_mutator_to_resulting =
      Rmap.insert st.1.source_to_mutator_to_resulting src
        (Rmap.insertIfAbsent
          ((Rmap.find? st.1.source_to_mutator_to_resulting src).getD []) m r) :=
  rfl

theorem addMutaEntry_r2a (m : TypeId)
    (st : MutaplasmidEffects × List GetData) (r src : TypeId) :
    (CharacterAssets.addMutaEntry m st r src).1.resulting_to_applicable =
      Rmap.insert st.1.resulting_to_applicable r
        (Rset.insert
          ((Rmap.find? st.1.resulting_to_applicable r).getD []) src) :=
  rfl

theorem addMutaEntry_r2ms (m : TypeId)
    (st : MutaplasmidEffects × List GetData) (r src : TypeId) :
    (CharacterAssets.addMutaEntry m st r src).1.resulting_to_mutator_to_source =
      Rmap.insert st.1.resulting_to_mutator_to_source r
        (Rmap.insert
          ((Rmap.find? st.1.resulting_to_mutator_to_source r).getD []) m
          (Rset.insert
            ((Rmap.find?
              ((Rmap.find? st.1.resulting_to_mutator_to_source r).getD []) m).getD
              []) src)) :=
  rfl

theorem addMutaEntry_establishes (m : TypeId)
    (st : MutaplasmidEffects × List GetData) (r src : TypeId) :
    EntryDone (CharacterAssets.addMutaEntry m st r src).1 m r src := by
  refine ⟨?_, ?_, ?_⟩
  · rw [addMutaEntry_s2m]
    exact ⟨_, Rmap.find?_insert _ _ _, Rmap.contains_insertIfAbsent_self _ _ _⟩
  · rw [addMutaEntry_r2a]
    exact ⟨_, Rmap.find?_insert _ _ _, Rset.mem_insert_self _ _⟩
  · rw [addMutaEntry_r2ms]
    exact ⟨_, _, Rmap.find?_insert _ _ _, Rmap.find?_insert _ _ _,
      Rset.mem_insert_self _ _⟩

theorem addMutaEntry_preserves (m : TypeId)
    (st : MutaplasmidEffects × List GetData) (r src : TypeId)
    {m' r' src' : TypeId} (h : EntryDone st.1 m' r' src') :
    EntryDone (CharacterAssets.addMutaEntry m st r src).1 m' r' src' := by
  obtain ⟨⟨inner, hinner, hcm⟩, ⟨app, happ, hsrc⟩,
    ⟨rms, srcs, hrms, hsrcs, hmem⟩⟩ := h
  refine ⟨?_, ?_, ?_⟩
  · rw [addMutaEntry_s2m]
    by_cases hs : src = src'
    · subst hs
      rw [Rmap.find?_insert, hinner, Option.getD_some]
      exact ⟨_, rfl, Rmap.contains_insertIfAbsent_of _ _ _ _ hcm⟩
    · rw [Rmap.find?_insert_ne _ _ _ _ hs]
      exact ⟨inner, hinner, hcm⟩
  · rw [addMutaEntry_r2a]
    by_cases hr : r = r'
    · subst hr
      rw [Rmap.find?_insert, happ, Option.getD_some]
      exact ⟨_, rfl, Rset.mem_insert_of_mem _ _ _ hsrc⟩
    · rw [Rmap.find?_insert_ne _ _ _ _ hr]
      exact ⟨app, happ, hsrc⟩
  · rw [addMutaEntry_r2ms]
    by_cases hr : r = r'
    · subst hr
      rw [Rmap.find?_insert, hrms, Option.getD_some]
      by_cases hm : m = m'
      · subst hm
        rw [hsrcs, Option.getD_some]
        exact ⟨_, _, rfl, Rmap.find?_insert _ _ _,
          Rset.mem_insert_of_mem _ _ _ hmem⟩
      · refine ⟨_, srcs, rfl, ?_, hmem⟩
        rw [Rmap.find?_insert_ne _ _ _ _ hm]
        exact hsrcs
    · rw [Rmap.find?_insert_ne _ _ _ _ hr]
      exact ⟨rms, srcs, hrms, hsrcs, hmem⟩

theorem addMutaEntry_noop (m : TypeId)
    (st : MutaplasmidEffects × List GetData) (r src : TypeId)
    (h : EntryDone st.1 m r src) :
    (CharacterAssets.addMutaEntry m st r src).1 = st.1 := by
  obtain ⟨⟨inner, hinner, hcm⟩, ⟨app, happ, hsrc⟩,
    ⟨rms, srcs, hrms, hsrcs, hmem⟩⟩ := h
  have h1 :
      (CharacterAssets.addMutaEntry m st r src).1.source_to_mutator_to_resulting =
        st.1.source_to_mutator_to_resulting := by
    rw [addMutaEntry_s2m, hinner, Option.getD_some,
      Rmap.insertIfAbsent_of_contains _ _ _ hcm,
      Rmap.insert_of_find?_eq _ _ _ hinner]
  have h2 :
      (CharacterAssets.addMutaEntry m st r src).1.resulting_to_applicable =
        st.1.resulting_to_applicable := by
    rw [addMutaEntry_r2a, happ, Option.getD_some,
      Rset.insert_of_mem _ _ hsrc, Rmap.insert_of_find?_eq _ _ _ happ]
  have h3 :
      (CharacterAssets.addMutaEntry m st r src).1.resulting_to_mutator_to_source =
        st.1.resulting_to_mutator_to_source := by
    rw [addMutaEntry_r2ms, hrms, Option.getD_some, hsrcs, Option.getD_some,
      Rset.insert_of_mem _ _ hmem, Rmap.insert_of_find?_eq _ _ _ hsrcs,
      Rmap.insert_of_find?_eq _ _ _ hrms]
  have h4 :
      (CharacterAssets.addMutaEntry m st r src).1.attributes =
        st.1.attributes := rfl
  cases hst : (CharacterAssets.addMutaEntry m st r src).1 with
  | mk a b c d =>
    cases hst1 : st.1 with
    | mk a' b' c' d' =>
      rw [hst, hst1] at h1 h2 h3 h4
      simp only at h1 h2 h3 h4
      rw [h1, h2, h3, h4]

theorem srcFold_preserves (m r : TypeId) (srcs : List TypeId)
    {m' r' s' : TypeId} :
    ∀ st : MutaplasmidEffects × List GetData, EntryDone st.1 m' r' s' →
      EntryDone (srcs.foldl
        (fun st src => CharacterAssets.addMutaEntry m st r src) st).1 m' r' s' := by
  induction srcs with
  | nil => intro st h; exact h
  | cons src rest ih =>
    intro st h
    rw [List.foldl_cons]
    exact ih _ (addMutaEntry_preserves m st r src h)

theorem srcFold_establishes (m r : TypeId) (srcs : List TypeId) :
    ∀ (st : MutaplasmidEffects × List GetData) (src : TypeId), src ∈ srcs →
      EntryDone (srcs.foldl
        (fun st src => CharacterAssets.addMutaEntry m st r src) st).1 m r src := by
  induction srcs with
  | nil => intro st src h; simp at h
  | cons src0 rest ih =>
    intro st src h
    rw [List.foldl_cons]
    rcases List.mem_cons.mp h with rfl | h'
    · exact srcFold_preserves m r rest _ (addMutaEntry_establishes m st r src)
    · exact ih _ src h'

theorem srcFold_noop (m r : TypeId) (srcs : List TypeId) :
    ∀ st : MutaplasmidEffects × List GetData,
      (∀ src ∈ srcs, EntryDone st.1 m r src) →
      (srcs.foldl
        (fun st src => CharacterAssets.addMutaEntry m st r src) st).1 = st.1 := by
  induction srcs with
  | nil => intro st _; rfl
  | cons src0 rest ih =>
    intro st hall
    rw [List.foldl_cons]
    have h0 : (CharacterAssets.addMutaEntry m st r src0).1 = st.1 :=
      addMutaEntry_noop m st r src0 (hall src0 (by simp))
    have hrest : ∀ src ∈ rest,
        EntryDone (CharacterAssets.addMutaEntry m st r src0).1 m r src := by
      intro src hs
      rw [h0]
      exact hall src (List.mem_cons_of_mem _ hs)
    rw [ih _ hrest, h0]

theorem srcFold_snd_congr (m r : TypeId) (srcs : List TypeId) :
    ∀ st st' : MutaplasmidEffects × List GetData, st.2 = st'.2 →
      (srcs.foldl
        (fun st src => CharacterAssets.addMutaEntry m st r src) st).2 =
      (srcs.foldl
        (fun st src => CharacterAssets.addMutaEntry m st r src) st').2 := by
  induction srcs with
  | nil => intro st st' h; exact h
  | cons src0 rest ih =>
    intro st st' h
    rw [List.foldl_cons, List.foldl_cons]
    exact ih _ _ (by rw [addMutaEntry_snd, addMutaEntry_snd, h])

theorem srcFold_attributes (m r : TypeId) (srcs : List TypeId) :
    ∀ st : MutaplasmidEffects × List GetData,
      (srcs.foldl
        (fun st src => CharacterAssets.addMutaEntry m st r src) st).1.attributes =
      st.1.attributes := by
  induction srcs with
  | nil => intro st; rfl
  | cons src0 rest ih =>
    intro st
    rw [List.foldl_cons, ih, addMutaEntry_attributes]

theorem ioFold_preserves (m : TypeId) (io : List (TypeId × List TypeId))
    {m' r' s' : TypeId} :
    ∀ st : MutaplasmidEffects × List GetData, EntryDone st.1 m' r' s' →
      EntryDone (CharacterAssets.ioFold m io st).1 m' r' s' := by
  induction io with
  | nil => intro st h; exact h
  | cons pair rest ih =>
    intro st h
    unfold CharacterAssets.ioFold at ih ⊢
    rw [List.foldl_cons]
    exact ih _ (srcFold_preserves m pair.1 pair.2 st h)

theorem ioFold_establishes (m : TypeId) (io : List (TypeId × List TypeId)) :
    ∀ st : MutaplasmidEffects × List GetData,
      ∀ pair ∈ io, ∀ src ∈ pair.2,
      EntryDone (CharacterAssets.ioFold m io st).1 m pair.1 src := by
  induction io with
  | nil => intro st pair h; simp at h
  | cons pair0 rest ih =>
    intro st pair h src hsrc
    unfold CharacterAssets.ioFold at ih ⊢
    rw [List.foldl_cons]
    rcases List.mem_cons.mp h with rfl | h'
    · exact ioFold_preserves m rest _
        (srcFold_establishes m pair.1 pair.2 st src hsrc)
    · exact ih _ pair h' src hsrc

theorem ioFold_noop (m : TypeId) (io : List (TypeId × List TypeId)) :
    ∀ st : MutaplasmidEffects × List GetData,
      (∀ pair ∈ io, ∀ src ∈ pair.2, EntryDone st.1 m pair.1 src) →
      (CharacterAssets.ioFold m io st).1 = st.1 := by
  induction io with
  | nil => intro st _; rfl
  | cons pair0 rest ih =>
    intro st hall
    unfold CharacterAssets.ioFold at ih ⊢
    rw [List.foldl_cons]
    have h0 : (CharacterAssets.ioStep m st pair0).1 = st.1 :=
      srcFold_noop m pair0.1 pair0.2 st
        (fun src hs => hall pair0 (by simp) src hs)
    have hrest : ∀ pair ∈ rest, ∀ src ∈ pair.2,
        EntryDone (CharacterAssets.ioStep m st pair0).1 m pair.1 src := by
      intro pair hp src hs
      rw [h0]
      exact hall pair (List.mem_cons_of_mem _ hp) src hs
    rw [ih _ hrest, h0]

theorem ioFold_snd_congr (m : TypeId) (io : List (TypeId × List TypeId)) :
    ∀ st st' : MutaplasmidEffects × List GetData, st.2 = st'.2 →
      (CharacterAssets.ioFold m io st).2 =
        (CharacterAssets.ioFold m io st').2 := by
  induction io with
  | nil => intro st st' h; exact h
  | cons pair0 rest ih =>
    intro st st' h
    unfold CharacterAssets.ioFold at ih ⊢
    rw [List.foldl_cons, List.foldl_cons]
    exact ih _ _ (srcFold_snd_congr m pair0.1 pair0.2 st st' h)

theorem ioFold_attributes (m : TypeId) (io : List (TypeId × List TypeId)) :
    ∀ st : MutaplasmidEffects × List GetData,
      (CharacterAssets.ioFold m io st).1.attributes = st.1.attributes := by
  induction io with
  | nil => intro st; rfl
  | cons pair0 rest ih =>
    intro st
    unfold CharacterAssets.ioFold at ih ⊢
    rw [List.foldl_cons, ih]
    exact srcFold_attributes m pair0.1 pair0.2 st

theorem attrStep_maps (m : TypeId) (eff : MutaplasmidEffects)
    (t : DogmaAttributeId × Rat × Rat) :
    (CharacterAssets.attrStep m eff t).source_to_mutator_to_resulting =
        eff.source_to_mutator_to_resulting ∧
      (CharacterAssets.attrStep m eff t).resulting_to_applicable =
        eff.resulting_to_applicable ∧
      (CharacterAssets.attrStep m eff t).resulting_to_mutator_to_source =
        eff.resulting_to_mutator_to_source :=
  ⟨rfl, rfl, rfl⟩

theorem attrStep_attributes (m : TypeId) (eff : MutaplasmidEffects)
    (t : DogmaAttributeId × Rat × Rat) :
    (CharacterAssets.attrStep m eff t).attributes =
      Rmap.insert eff.attributes m
        (Rmap.insertIfAbsent ((Rmap.find? eff.attributes m).getD [])
          t.1 ⟨t.2.2, t.2.1⟩) := rfl

theorem entryDone_of_maps_eq {eff eff' : MutaplasmidEffects}
    (h1 : eff'.source_to_mutator_to_resulting = eff.source_to_mutator_to_resulting)
    (h2 : eff'.resulting_to_applicable = eff.resulting_to_applicable)
    (h3 : eff'.resulting_to_mutator_to_source = eff.resulting_to_mutator_to_source)
    {m r src : TypeId} (h : EntryDone eff m r src) : EntryDone eff' m r src := by
  unfold EntryDone at h ⊢
  rw [h1, h2, h3]
  exact h

theorem attrDone_of_attributes_eq {eff eff' : MutaplasmidEffects}
    (h1 : eff'.attributes = eff.attributes) {m a : TypeId}
    (h : AttrDone eff m a) : AttrDone eff' m a := by
  unfold AttrDone at h ⊢
  rw [h1]
  exact h

theorem attrStep_attrDone_preserves (m : TypeId) (eff : MutaplasmidEffects)
    (t : DogmaAttributeId × Rat × Rat) {m' a : TypeId}
    (h : AttrDone eff m' a) : AttrDone (CharacterAssets.attrStep m eff t) m' a := by
  obtain ⟨inner, hinner, hc⟩ := h
  unfold AttrDone
  rw [attrStep_attributes]
  by_cases hm : m = m'
  · subst hm
    rw [Rmap.find?_insert, hinner, Option.getD_some]
    exact ⟨_, rfl, Rmap.contains_insertIfAbsent_of _ _ _ _ hc⟩
  · rw [Rmap.find?_insert_ne _ _ _ _ hm]
    exact ⟨inner, hinner, hc⟩

theorem attrFold_attrDone_preserves (m : TypeId)
    (attrs : List (DogmaAttributeId × Rat × Rat)) {m' a : TypeId} :
    ∀ eff : MutaplasmidEffects, AttrDone eff m' a →
      AttrDone (CharacterAssets.attrFold m attrs eff) m' a := by
  induction attrs with
  | nil => intro eff h; exact h
  | cons t rest ih =>
    intro eff h
    unfold CharacterAssets.attrFold at ih ⊢
    rw [List.foldl_cons]
    exact ih _ (attrStep_attrDone_preserves m eff t h)

theorem attrFold_establishes (m : TypeId)
    (attrs : List (DogmaAttributeId × Rat × Rat)) :
    ∀ (eff : MutaplasmidEffects) (t : DogmaAttributeId × Rat × Rat),
      t ∈ attrs → AttrDone (CharacterAssets.attrFold m attrs eff) m t.1 := by
  induction attrs with
  | nil => intro eff t h; simp at h
  | cons t0 rest ih =>
    intro eff t h
    unfold CharacterAssets.attrFold at ih ⊢
    rw [List.foldl_cons]
    rcases List.mem_cons.mp h with rfl | h'
    · refine attrFold_attrDone_preserves m rest _ ?_
      unfold AttrDone
      rw [attrStep_attributes, Rmap.find?_insert]
      exact ⟨_, rfl, Rmap.contains_insertIfAbsent_self _ _ _⟩
    · exact ih _ t h'

theorem attrFold_noop (m : TypeId)
    (attrs : List (DogmaAttributeId × Rat × Rat)) :
    ∀ eff : MutaplasmidEffects, (∀ t ∈ attrs, AttrDone eff m t.1) →
      CharacterAssets.attrFold m attrs eff = eff := by
  induction attrs with
  | nil => intro eff _; rfl
  | cons t0 rest ih =>
    intro eff hall
    obtain ⟨inner, hinner, hc⟩ := hall t0 (by simp)
    have hstep : CharacterAssets.attrStep m eff t0 = eff := by
      simp only [CharacterAssets.attrStep]
      rw [hinner, Option.getD_some,
        Rmap.insertIfAbsent_of_contains _ _ _ hc,
        Rmap.insert_of_find?_eq _ _ _ hinner]
    unfold CharacterAssets.attrFold at ih ⊢
    rw [List.foldl_cons, hstep]
    exact ih eff (fun t ht => hall t (by simp [ht]))

theorem attrFold_entryDone_preserves (m : TypeId)
    (attrs : List (DogmaAttributeId × Rat × Rat)) {m' r' s' : TypeId} :
    ∀ eff : MutaplasmidEffects, EntryDone eff m' r' s' →
      EntryDone (CharacterAssets.attrFold m attrs eff) m' r' s' := by
  induction attrs with
  | nil => intro eff h; exact h
  | cons t0 rest ih =>
    intro eff h
    unfold CharacterAssets.attrFold at ih ⊢
    rw [List.foldl_cons]
    exact ih _ (entryDone_of_maps_eq rfl rfl rfl h)

/-- Everything `add_mutaplasmid_effects` with these arguments records. -/
def MutaCallDone (eff : MutaplasmidEffects) (mid : TypeId)
    (attributes : List (DogmaAttributeId × Rat × Rat))
    (io : List (TypeId × List TypeId)) : Prop :=
  (∀ pair ∈ io, ∀ src ∈ pair.2, EntryDone eff mid pair.1 src) ∧
  (∀ t ∈ attributes, AttrDone eff mid t.1)

theorem add_mutaplasmid_fst (s : CharacterAssets) (mid : TypeId)
    (attributes : List (DogmaAttributeId × Rat × Rat))
    (io : List (TypeId × List TypeId)) :
    (CharacterAssets.add_mutaplasmid_effects s mid attributes io).1 =
      { s with
        mutaplasmid_effects :=
          CharacterAssets.attrFold mid attributes
            (CharacterAssets.ioFold mid io (s.mutaplasmid_effects, [])).1 } := rfl

theorem add_mutaplasmid_snd (s : CharacterAssets) (mid : TypeId)
    (attributes : List (DogmaAttributeId × Rat × Rat))
    (io : List (TypeId × List TypeId)) :
    (CharacterAssets.add_mutaplasmid_effects s mid attributes io).2 =
      (CharacterAssets.ioFold mid io (s.mutaplasmid_effects, [])).2 := rfl

theorem add_mutaplasmid_establishes (s : CharacterAssets) (mid : TypeId)
    (attributes : List (DogmaAttributeId × Rat × Rat))
    (io : List (TypeId × List TypeId)) :
    MutaCallDone
      (CharacterAssets.add_mutaplasmid_effects s mid attributes io).1.mutaplasmid_effects
      mid attributes io := by
  rw [add_mutaplasmid_fst]
  constructor
  · intro pair hp src hs
    exact attrFold_entryDone_preserves mid attributes _
      (ioFold_establishes mid io _ pair hp src hs)
  · intro t ht
    exact attrFold_establishes mid attributes _ t ht

theorem add_mutaplasmid_preserves (s : CharacterAssets) (mid : TypeId)
    (attributes : List (DogmaAttributeId × Rat × Rat))
    (io : List (TypeId × List TypeId)) {mid' : TypeId}
    {attributes' : List (DogmaAttributeId × Rat × Rat)}
    {io' : List (TypeId × List TypeId)}
    (h : MutaCallDone s.mutaplasmid_effects mid' attributes' io') :
    MutaCallDone
      (CharacterAssets.add_mutaplasmid_effects s mid attributes io).1.mutaplasmid_effects
      mid' attributes' io' := by
  rw [add_mutaplasmid_fst]
  obtain ⟨hentries, hattrs⟩ := h
  constructor
  · intro pair hp src hs
    exact attrFold_entryDone_preserves mid attributes _
      (ioFold_preserves mid io _ (hentries pair hp src hs))
  · intro t ht
    refine attrFold_attrDone_preserves mid attributes _ ?_
    exact attrDone_of_attributes_eq (ioFold_attributes mid io _) (hattrs t ht)

theorem add_mutaplasmid_noop (s : CharacterAssets) (mid : TypeId)
    (attributes : List (DogmaAttributeId × Rat × Rat))
    (io : List (TypeId × List TypeId))
    (h : MutaCallDone s.mutaplasmid_effects mid attributes io) :
    (CharacterAssets.add_mutaplasmid_effects s mid attributes io).1 = s := by
  rw [add_mutaplasmid_fst]
  obtain ⟨hentries, hattrs⟩ := h
  have h1 : (CharacterAssets.ioFold mid io (s.mutaplasmid_effects, [])).1 =
      s.mutaplasmid_effects :=
    ioFold_noop mid io _ hentries
  rw [h1, attrFold_noop mid attributes _ hattrs]

theorem add_mutaplasmid_snd_congr (s t : CharacterAssets) (mid : TypeId)
    (attributes : List (DogmaAttributeId × Rat × Rat))
    (io : List (TypeId × List TypeId)) :
    (CharacterAssets.add_mutaplasmid_effects s mid attributes io).2 =
      (CharacterAssets.add_mutaplasmid_effects t mid attributes io).2 := by
  rw [add_mutaplasmid_snd, add_mutaplasmid_snd]
  exact ioFold_snd_congr mid io _ _ rfl

/-- Every requirement an asset brings in is either already satisfied by the
tables `add_asset` consults or covered by one of its emitted keys. -/
theorem assetNewItems_covers (stations : List (StationId × Station))
    (dynamics : List (ItemId × DynamicItem)) (types : List (TypeId × ItemType))
    (abyssal : List TypeId) (a : AssetItem) :
    (CharacterAssets.is_on_station a = true →
      Rmap.contains stations (asStationId a.location_id) = true ∨
      GetData.station (asStationId a.location_id) ∈
        CharacterAssets.assetNewItems stations dynamics types abyssal a) ∧
    (a.type_id ∈ abyssal →
      Rmap.contains dynamics a.item_id = true ∨
      GetData.dynamic a.type_id a.item_id ∈
        CharacterAssets.assetNewItems stations dynamics types abyssal a) ∧
    (Rmap.contains types a.type_id = true ∨
      GetData.type' a.type_id ∈
        CharacterAssets.assetNewItems stations dynamics types abyssal a) := by
  refine ⟨?_, ?_, ?_⟩
  · intro hon
    by_cases hcs : Rmap.contains stations (asStationId a.location_id) = true
    · exact Or.inl hcs
    · right
      simp only [CharacterAssets.assetNewItems]
      split_ifs <;> simp_all
  · intro habs
    by_cases hcd : Rmap.contains dynamics a.item_id = true
    · exact Or.inl hcd
    · right
      simp only [CharacterAssets.assetNewItems]
      split_ifs <;> simp_all
  · by_cases hct : Rmap.contains types a.type_id = true
    · exact Or.inl hct
    · right
      simp only [CharacterAssets.assetNewItems]
      split_ifs <;> simp_all

theorem missingDynAttrs_covers (table : List (DogmaAttributeId × DogmaAttribute)) :
    ∀ das : List DogmaAttributeConcise, ∀ attr ∈ das,
      Rmap.contains table attr.attribute_id = true ∨
      GetData.dogmaAttribute attr.attribute_id ∈
        CharacterAssets.missingDynAttrs table das := by
  intro das
  induction das with
  | nil => intro attr h; simp at h
  | cons a0 rest ih =>
    intro attr h
    rcases List.mem_cons.mp h with rfl | h'
    · by_cases hc : Rmap.contains table attr.attribute_id = true
      · exact Or.inl hc
      · right
        simp only [CharacterAssets.missingDynAttrs]
        split_ifs <;> simp_all
    · rcases ih attr h' with hc | hm
      · exact Or.inl hc
      · right
        simp only [CharacterAssets.missingDynAttrs]
        split_ifs <;> simp_all

theorem dynamicNewItems_covers (dogma : List (DogmaAttributeId × DogmaAttribute))
    (types : List (TypeId × ItemType)) (d : DynamicItem) :
    (∀ attr ∈ d.dogma_attributes,
      Rmap.contains dogma attr.attribute_id = true ∨
      GetData.dogmaAttribute attr.attribute_id ∈
        CharacterAssets.dynamicNewItems dogma types d) ∧
    (Rmap.contains types d.source_type_id = true ∨
      GetData.type' d.source_type_id ∈
        CharacterAssets.dynamicNewItems dogma types d) ∧
    (Rmap.contains types d.mutator_type_id = true ∨
      GetData.type' d.mutator_type_id ∈
        CharacterAssets.dynamicNewItems dogma types d) := by
  refine ⟨?_, ?_, ?_⟩
  · intro attr hattr
    rcases missingDynAttrs_covers dogma d.dogma_attributes attr hattr with hc | hm
    · exact Or.inl hc
    · right
      simp only [CharacterAssets.dynamicNewItems]
      split_ifs <;> simp_all
  · by_cases hc : Rmap.contains types d.source_type_id = true
    · exact Or.inl hc
    · right
      simp only [CharacterAssets.dynamicNewItems]
      split_ifs <;> simp_all
  · by_cases hc : Rmap.contains types d.mutator_type_id = true
    · exact Or.inl hc
    · right
      simp only [CharacterAssets.dynamicNewItems]
      split_ifs <;> simp_all

theorem typeNewItems_covers (mgs : List (MarketGroupId × MarketGroup))
    (it : ItemType) :
    ∀ g, it.market_group_id = some g →
      Rmap.contains mgs g = true ∨
      GetData.marketGroup g ∈ CharacterAssets.typeNewItems mgs it := by
  intro g hg
  by_cases hc : Rmap.contains mgs g = true
  · exact Or.inl hc
  · right
    simp only [CharacterAssets.typeNewItems, hg]
    split_ifs <;> simp_all

end Db

/-! ## Hoboleaks client error kinds (src/eve/hoboleaks/mod.rs) -/

namespace Hob

/-- `hoboleaks::AttributeRange` (field order as in the source). -/
structure AttributeRange where
  max : Rat
  min : Rat
  deriving DecidableEq, Repr

structure InputOutputMapping where
  resulting_type : TypeId
  applicable_types : List TypeId
  deriving DecidableEq, Repr

structure MutaplasmidsEffects where
  input_output_mapping : List InputOutputMapping
  attribute_i_ds : List (DogmaAttributeId × AttributeRange)
  deriving DecidableEq, Repr

/-- `HoboleaksError`; the opaque `reqwest::Error` is modelled by the two
predicates `is_temporary` consults. -/
inductive HoboleaksError where
  | requestError (is_timeout : Bool) (is_connect : Bool)
  | apiError (status : Nat) (message : String)
  | authError (text : String)
  | parseError (text : String)
  | serverError (text : String)
  deriving DecidableEq, Repr

namespace HoboleaksError

/-- `HoboleaksError::from_response` on a non-success status code. -/
def from_response (status : Nat) (text : String) : HoboleaksError :=
  if status = 401 ∨ status = 403 then .authError text
  else if 500 ≤ status ∧ status ≤ 599 then .serverError text
  else .apiError status text

/-- `HoboleaksError::is_temporary`. -/
def is_temporary : HoboleaksError → Bool
  | .requestError t c => t || c
  | .serverError _ => true
  | .apiError status _ => status = 429 || status = 503 || status = 502
  | .authError _ => false
  | .parseError _ => false

end HoboleaksError

end Hob

/-! ## Generic saga engine (src/saga/framework.rs)

`WorkItem.created_at` (an `Instant`) plays no semantic role and is omitted;
channels and workers are abstracted into the `Reaches` transition relation
below, whose steps are exactly the engine's `get_work`,
`handle_work_completed` and `handle_work_failed`. -/

namespace SagaFw

/-- `framework::WorkItem` (minus `created_at`). -/
structure WorkItem (W K : Type) where
  work_type : W
  retry_count : Nat
  work_resolution_key : K
  deriving DecidableEq, Repr

/-- `WorkItem::new`. -/
def WorkItem.new (key_of : W → K) (w : W) : WorkItem W K :=
  ⟨w, 0, key_of w⟩

/-- `framework::MAX_RETRIES`. -/
def MAX_RETRIES : Nat := 3

/-- The engine-owned saga state (pending, in-flight, resolved,
max_retries). -/
structure Saga (W K : Type) where
  pending : List (WorkItem W K)
  in_flight_work : List (K × WorkItem W K)
  resolved : List K
  max_retries : Nat
  deriving DecidableEq, Repr

variable {W K E : Type}

/-- Model of `HashMap::remove` (drop the binding of a key). -/
def eraseKey [LinearOrder K] {V : Type} (m : List (K × V)) (k : K) :
    List (K × V) :=
  m.filter fun p => decide (p.1 ≠ k)

/-- `BTreeSet<WorkItem>::insert`: ordered insert by key, keeping the
existing element when an equal key is present. -/
def pendingInsert [LinearOrder K] :
    List (WorkItem W K) → WorkItem W K → List (WorkItem W K)
  | [], it => [it]
  | x :: rest, it =>
      if it.work_resolution_key < x.work_resolution_key then it :: x :: rest
      else if x.work_resolution_key < it.work_resolution_key then
        x :: pendingInsert rest it
      else x :: rest

/-- `Saga::is_resolved`. -/
def isResolved [LinearOrder K] (s : Saga W K) (key : K) : Bool :=
  Rmap.contains s.in_flight_work key || decide (key ∈ s.resolved)

/-- The `pop_first`-and-skip loop of `Saga::get_work` over the pending set. -/
def getWorkAux [LinearOrder K] (inf : List (K × WorkItem W K))
    (res : List K) : List (WorkItem W K) →
    Option (WorkItem W K) × List (WorkItem W K)
  | [] => (none, [])
  | it :: rest =>
      if Rmap.contains inf it.work_resolution_key ||
          decide (it.work_resolution_key ∈ res) ||
          Rmap.contains inf it.work_resolution_key then
        getWorkAux inf res rest
      else (some it, rest)

/-- `Saga::get_work`. -/
def getWork [LinearOrder K] (s : Saga W K) :
    Option (WorkItem W K) × Saga W K :=
  match getWorkAux s.in_flight_work s.resolved s.pending with
  | (none, rest) => (none, { s with pending := rest })
  | (some it, rest) =>
      (some it,
        { s with
            pending := rest,
            in_flight_work :=
              Rmap.insert s.in_flight_work it.work_resolution_key it })

/-- Loop body of `handle_work_completed`: insert a produced item into
pending unless its key is already resolved or in flight. -/
def enqueueNew [LinearOrder K] (s : Saga W K) (it : WorkItem W K) : Saga W K :=
  if !isResolved s it.work_resolution_key then
    { s with pending := pendingInsert s.pending it }
  else s

/-- `Saga::handle_work_completed`. -/
def handle_work_completed [LinearOrder K] (s : Saga W K) (key : K)
    (new_work_items : List (WorkItem W K)) : Saga W K :=
  match Rmap.find? s.in_flight_work key with
  | some work_item =>
      let s := { s with
        in_flight_work := eraseKey s.in_flight_work key,
        resolved := Rset.insert s.resolved work_item.work_resolution_key }
      new_work_items.foldl enqueueNew s
  | none => s

/-- `Saga::handle_work_failed`; `Except.error` is the saga-wide failure. -/
def handle_work_failed [LinearOrder K] (s : Saga W K) (key : K) (error : E) :
    Except E (Saga W K) :=
  match Rmap.find? s.in_flight_work key with
  | some work_item =>
      if work_item.retry_count + 1 < s.max_retries then
        .ok { s with
          in_flight_work := eraseKey s.in_flight_work key,
          pending := pendingInsert s.pending
            { work_item with retry_count := work_item.retry_count + 1 } }
      else .error error
  | none => .ok s

/-- The engine state after `start_with_event` has seeded the initial items. -/
def start [LinearOrder K] (items : List (WorkItem W K)) (max_retries : Nat) :
    Saga W K :=
  items.foldl (fun s it => { s with pending := pendingInsert s.pending it })
    ⟨[], [], [], max_retries⟩

/-- The observable engine events of one run. -/
inductive EngineEvent (W K E : Type) where
  | dispatch (it : WorkItem W K)
  | complete (key : K) (produced : List (WorkItem W K))
  | fail (key : K) (e : E)
  deriving Repr

/-- Reachability along engine steps; a `fail` step is recorded only for a
key actually in flight (the engine only ever receives one message per
dispatched item), and a failure that exhausts the retries ends the run, so
it heads no trace. -/
inductive Reaches [LinearOrder K] :
    Saga W K → List (EngineEvent W K E) → Saga W K → Prop where
  | refl (s : Saga W K) : Reaches s [] s
  | dispatch {s s' : Saga W K} {it : WorkItem W K}
      {evs : List (EngineEvent W K E)} {s'' : Saga W K} :
      getWork s = (some it, s') → Reaches s' evs s'' →
      Reaches s (.dispatch it :: evs) s''
  | dispatchNone {s s' : Saga W K} {evs : List (EngineEvent W K E)}
      {s'' : Saga W K} :
      getWork s = (none, s') → Reaches s' evs s'' → Reaches s evs s''
  | complete {s : Saga W K} {key : K} {produced : List (WorkItem W K)}
      {evs : List (EngineEvent W K E)} {s'' : Saga W K} :
      Reaches (handle_work_completed s key produced) evs s'' →
      Reaches s (.complete key produced :: evs) s''
  | fail {s s' : Saga W K} {key : K} {e : E}
      {evs : List (EngineEvent W K E)} {s'' : Saga W K} :
      Rmap.contains s.in_flight_work key = true →
      handle_work_failed s key e = .ok s' → Reaches s' evs s'' →
      Reaches s (.fail key e :: evs) s''

/-- Number of dispatches of a key in a trace. -/
def dispatchCount [LinearOrder K] (k : K) :
    List (EngineEvent W K E) → Nat
  | [] => 0
  | .dispatch it :: evs =>
      (if it.work_resolution_key = k then 1 else 0) + dispatchCount k evs
  | _ :: evs => dispatchCount k evs

/-- Number of retried failures of a key in a trace. -/
def retryCount [LinearOrder K] (k : K) :
    List (EngineEvent W K E) → Nat
  | [] => 0
  | .fail key _ :: evs => (if key = k then 1 else 0) + retryCount k evs
  | _ :: evs => retryCount k evs

/-- A key currently accounted for by the engine (in flight or resolved). -/
def inFlightOrResolved [LinearOrder K] (s : Saga W K) (k : K) : Bool :=
  Rmap.contains s.in_flight_work k || decide (k ∈ s.resolved)

/-- The pairwise-disjointness property of C3. -/
def DisjointSets [LinearOrder K] (s : Saga W K) : Prop :=
  (∀ it ∈ s.pending, Rmap.contains s.in_flight_work it.work_resolution_key = false) ∧
  (∀ it ∈ s.pending, it.work_resolution_key ∉ s.resolved) ∧
  (∀ p ∈ s.in_flight_work, p.1 ∉ s.resolved)

/-- The full internal invariant of the engine state. -/
def Inv [LinearOrder K] (s : Saga W K) : Prop :=
  List.Pairwise (fun a b : WorkItem W K =>
    a.work_resolution_key < b.work_resolution_key) s.pending ∧
  DisjointSets s ∧
  (∀ p ∈ s.in_flight_work, p.2.work_resolution_key = p.1)

section EngineLemmas

variable [LinearOrder K]

theorem find?_mem {V : Type} (m : List (K × V)) (k : K) (v : V)
    (h : Rmap.find? m k = some v) : (k, v) ∈ m := by
  induction m with
  | nil => simp [Rmap.find?] at h
  | cons hd tl ih =>
    obtain ⟨a, b⟩ := hd
    by_cases ha : a = k
    · subst ha
      simp [Rmap.find?] at h
      simp [h]
    · simp [Rmap.find?, ha] at h
      simp [ih h]

theorem mem_insert {V : Type} (m : List (K × V)) (k : K) (v : V)
    (p : K × V) (h : p ∈ Rmap.insert m k v) : p ∈ m ∨ p = (k, v) := by
  induction m with
  | nil => simp [Rmap.insert] at h; simp [h]
  | cons hd tl ih =>
    obtain ⟨a, b⟩ := hd
    by_cases ha : a = k
    · subst ha
      simp [Rmap.insert] at h
      rcases h with h | h
      · right; simp [h]
      · left; simp [h]
    · simp [Rmap.insert, ha] at h
      rcases h with h | h
      · left; simp [h]
      · rcases ih h with h' | h'
        · left; simp [h']
        · right; exact h'

theorem mem_eraseKey {V : Type} (m : List (K × V)) (k : K) (p : K × V)
    (h : p ∈ eraseKey m k) : p ∈ m ∧ p.1 ≠ k := by
  unfold eraseKey at h
  have := List.of_mem_filter h
  exact ⟨List.mem_of_mem_filter h, by simpa using this⟩

theorem find?_eraseKey_self {V : Type} (m : List (K × V)) (k : K) :
    Rmap.find? (eraseKey m k) k = none := by
  induction m with
  | nil => rfl
  | cons hd tl ih =>
    obtain ⟨a, b⟩ := hd
    by_cases ha : a = k
    · simpa [eraseKey, List.filter_cons, ha] using ih
    · simpa [eraseKey, List.filter_cons, ha, Rmap.find?] using ih

theorem find?_eraseKey_ne {V : Type} (m : List (K × V)) (k x : K) (h : x ≠ k) :
    Rmap.find? (eraseKey m k) x = Rmap.find? m x := by
  induction m with
  | nil => rfl
  | cons hd tl ih =>
    obtain ⟨a, b⟩ := hd
    by_cases ha : a = k
    · subst ha
      simpa [eraseKey, List.filter_cons, Rmap.find?, Ne.symm h] using ih
    · by_cases hx : a = x
      · subst hx
        simp [eraseKey, List.filter_cons, ha, Rmap.find?]
      · simpa [eraseKey, List.filter_cons, ha, hx, Rmap.find?] using ih

theorem contains_eraseKey_self {V : Type} (m : List (K × V)) (k : K) :
    Rmap.contains (eraseKey m k) k = false := by
  simp [Rmap.contains, find?_eraseKey_self]

theorem contains_eraseKey_ne {V : Type} (m : List (K × V)) (k x : K)
    (h : x ≠ k) : Rmap.contains (eraseKey m k) x = Rmap.contains m x := by
  simp [Rmap.contains, find?_eraseKey_ne m k x h]

theorem contains_insert_ne {V : Type} (m : List (K × V)) (k x : K) (v : V)
    (h : k ≠ x) : Rmap.contains (Rmap.insert m k v) x = Rmap.contains m x := by
  simp [Rmap.contains, Rmap.find?_insert_ne m k x v h]

/-- Keys of the ordered pending set. -/
def keyLt (a b : WorkItem W K) : Prop :=
  a.work_resolution_key < b.work_resolution_key

theorem mem_pendingInsert (l : List (WorkItem W K)) (it x : WorkItem W K)
    (h : x ∈ pendingInsert l it) : x = it ∨ x ∈ l := by
  induction l with
  | nil => simp [pendingInsert] at h; simp [h]
  | cons y rest ih =>
    by_cases h1 : it.work_resolution_key < y.work_resolution_key
    · simp [pendingInsert, h1] at h
      rcases h with h | h | h
      · simp [h]
      · simp [h]
      · simp [h]
    · by_cases h2 : y.work_resolution_key < it.work_resolution_key
      · simp [pendingInsert, h1, h2] at h
        rcases h with h | h
        · simp [h]
        · rcases ih h with h' | h'
          · simp [h']
          · simp [h']
      · simp [pendingInsert, h1, h2] at h
        rcases h with h | h
        · simp [h]
        · simp [h]

theorem pairwise_pendingInsert (l : List (WorkItem W K)) (it : WorkItem W K)
    (h : List.Pairwise (keyLt (K := K)) l) :
    List.Pairwise (keyLt (K := K)) (pendingInsert l it) := by
  induction l with
  | nil => simp [pendingInsert, List.pairwise_singleton]
  | cons y rest ih =>
    rw [List.pairwise_cons] at h
    obtain ⟨hy, hrest⟩ := h
    by_cases h1 : it.work_resolution_key < y.work_resolution_key
    · simp only [pendingInsert, h1, if_pos]
      rw [List.pairwise_cons]
      constructor
      · intro z hz
        rcases List.mem_cons.mp hz with hz' | hz'
        · subst hz'; exact h1
        · exact lt_trans h1 (hy z hz')
      · rw [List.pairwise_cons]
        exact ⟨hy, hrest⟩
    · by_cases h2 : y.work_resolution_key < it.work_resolution_key
      · simp only [pendingInsert, h1, h2, if_neg, if_pos, not_false_iff]
        rw [List.pairwise_cons]
        constructor
        · intro z hz
          rcases mem_pendingInsert rest it z hz with hz' | hz'
          · subst hz'; exact h2
          · exact hy z hz'
        · exact ih hrest
      · simp only [pendingInsert, h1, h2, if_neg, not_false_iff]
        rw [List.pairwise_cons]
        exact ⟨hy, hrest⟩

theorem getWorkAux_none (inf : List (K × WorkItem W K)) (res : List K)
    (l : List (WorkItem W K)) (rest : List (WorkItem W K))
    (h : getWorkAux inf res l = (none, rest)) : rest = [] := by
  induction l with
  | nil =>
    simp only [getWorkAux, Prod.mk.injEq] at h
    exact h.2.symm
  | cons it tl ih =>
    by_cases hc : (Rmap.contains inf it.work_resolution_key ||
        decide (it.work_resolution_key ∈ res) ||
        Rmap.contains inf it.work_resolution_key) = true
    · rw [getWorkAux, if_pos hc] at h
      exact ih h
    · rw [getWorkAux, if_neg hc] at h
      simp at h

theorem getWorkAux_some (inf : List (K × WorkItem W K)) (res : List K)
    (l : List (WorkItem W K)) (it : WorkItem W K)
    (rest : List (WorkItem W K)) (h : getWorkAux inf res l = (some it, rest)) :
    List.Sublist (it :: rest) l ∧
      Rmap.contains inf it.work_resolution_key = false ∧
      it.work_resolution_key ∉ res := by
  induction l with
  | nil => simp [getWorkAux] at h
  | cons x tl ih =>
    by_cases hc : (Rmap.contains inf x.work_resolution_key ||
        decide (x.work_resolution_key ∈ res) ||
        Rmap.contains inf x.work_resolution_key) = true
    · rw [getWorkAux, if_pos hc] at h
      obtain ⟨hsub, h2, h3⟩ := ih h
      exact ⟨hsub.cons x, h2, h3⟩
    · rw [getWorkAux, if_neg hc] at h
      simp only [Prod.mk.injEq, Option.some.injEq] at h
      obtain ⟨h1, h2⟩ := h
      subst h1
      subst h2
      simp only [Bool.or_eq_true, decide_eq_true_eq, not_or] at hc
      obtain ⟨⟨hc1, hc2⟩, _⟩ := hc
      exact ⟨List.Sublist.refl _, Bool.eq_false_iff.mpr hc1, hc2⟩

theorem contains_eraseKey_false_of {V : Type} (m : List (K × V)) (k x : K)
    (h : Rmap.contains m x = false) :
    Rmap.contains (eraseKey m k) x = false := by
  by_cases hx : x = k
  · rw [hx]; exact contains_eraseKey_self m k
  · rw [contains_eraseKey_ne m k x hx]; exact h

theorem isResolved_eq_of_fields {s t : Saga W K}
    (h1 : t.in_flight_work = s.in_flight_work) (h2 : t.resolved = s.resolved)
    (k : K) : isResolved t k = isResolved s k := by
  unfold isResolved
  rw [h1, h2]

theorem enqueueNew_in_flight (s : Saga W K) (it : WorkItem W K) :
    (enqueueNew s it).in_flight_work = s.in_flight_work := by
  unfold enqueueNew; split <;> rfl

theorem enqueueNew_resolved (s : Saga W K) (it : WorkItem W K) :
    (enqueueNew s it).resolved = s.resolved := by
  unfold enqueueNew; split <;> rfl

theorem foldl_enqueueNew_in_flight (l : List (WorkItem W K)) :
    ∀ s : Saga W K, (l.foldl enqueueNew s).in_flight_work = s.in_flight_work := by
  induction l with
  | nil => intro s; rfl
  | cons it rest ih =>
    intro s
    rw [List.foldl_cons, ih, enqueueNew_in_flight]

theorem foldl_enqueueNew_resolved (l : List (WorkItem W K)) :
    ∀ s : Saga W K, (l.foldl enqueueNew s).resolved = s.resolved := by
  induction l with
  | nil => intro s; rfl
  | cons it rest ih =>
    intro s
    rw [List.foldl_cons, ih, enqueueNew_resolved]

theorem foldl_enqueueNew_mem (l : List (WorkItem W K)) :
    ∀ (s : Saga W K) (x : WorkItem W K), x ∈ (l.foldl enqueueNew s).pending →
      x ∈ s.pending ∨ isResolved s x.work_resolution_key = false := by
  induction l with
  | nil => intro s x hx; exact Or.inl hx
  | cons it rest ih =>
    intro s x hx
    rw [List.foldl_cons] at hx
    rcases ih (enqueueNew s it) x hx with hmem | hres
    · unfold enqueueNew at hmem
      by_cases hg : !isResolved s it.work_resolution_key
      · rw [if_pos hg] at hmem
        simp only at hmem
        rcases mem_pendingInsert s.pending it x hmem with rfl | hmem'
        · right
          simpa using hg
        · exact Or.inl hmem'
      · rw [if_neg hg] at hmem
        exact Or.inl hmem
    · right
      rw [← isResolved_eq_of_fields (enqueueNew_in_flight s it)
        (enqueueNew_resolved s it) x.work_resolution_key]
      exact hres

theorem foldl_enqueueNew_pairwise (l : List (WorkItem W K)) :
    ∀ s : Saga W K, List.Pairwise (keyLt (K := K)) s.pending →
      List.Pairwise (keyLt (K := K)) (l.foldl enqueueNew s).pending := by
  induction l with
  | nil => intro s h; exact h
  | cons it rest ih =>
    intro s h
    rw [List.foldl_cons]
    apply ih
    unfold enqueueNew
    split
    · exact pairwise_pendingInsert s.pending it h
    · exact h

/-- Effect of a successful `get_work` dispatch on the invariant. -/
theorem inv_getWork_some {s s' : Saga W K} {it : WorkItem W K}
    (h : getWork s = (some it, s')) (hinv : Inv s) :
    Inv s' ∧
      Rmap.contains s.in_flight_work it.work_resolution_key = false ∧
      it.work_resolution_key ∉ s.resolved ∧
      s'.in_flight_work =
        Rmap.insert s.in_flight_work it.work_resolution_key it ∧
      s'.resolved = s.resolved := by
  obtain ⟨hpair, ⟨hpi, hpr, hir⟩, hik⟩ := hinv
  unfold getWork at h
  cases haux : getWorkAux s.in_flight_work s.resolved s.pending with
  | mk o rest =>
    rw [haux] at h
    cases o with
    | none => simp at h
    | some x =>
      simp only [Prod.mk.injEq, Option.some.injEq] at h
      obtain ⟨rfl, rfl⟩ := h
      obtain ⟨hsub, hcont, hres⟩ := getWorkAux_some _ _ _ _ _ haux
      have hpair' : List.Pairwise (keyLt (K := K)) (x :: rest) :=
        hpair.sublist hsub
      have hmemp : ∀ y ∈ x :: rest, y ∈ s.pending := fun y hy => hsub.subset hy
      refine ⟨⟨?_, ⟨?_, ?_, ?_⟩, ?_⟩, hcont, hres, rfl, rfl⟩
      · exact (List.pairwise_cons.mp hpair').2
      · intro y hy
        have hne : x.work_resolution_key ≠ y.work_resolution_key :=
          ne_of_lt ((List.pairwise_cons.mp hpair').1 y hy)
        rw [contains_insert_ne _ _ _ _ hne]
        exact hpi y (hmemp y (List.mem_cons_of_mem x hy))
      · intro y hy
        exact hpr y (hmemp y (List.mem_cons_of_mem x hy))
      · intro p hp
        rcases mem_insert _ _ _ _ hp with hp' | hp'
        · exact hir p hp'
        · subst hp'; exact hres
      · intro p hp
        rcases mem_insert _ _ _ _ hp with hp' | hp'
        · exact hik p hp'
        · subst hp'; rfl

/-- Effect of a `get_work` returning no item. -/
theorem inv_getWork_none {s s' : Saga W K}
    (h : getWork s = (none, s')) (hinv : Inv s) :
    Inv s' ∧ s'.in_flight_work = s.in_flight_work ∧
      s'.resolved = s.resolved := by
  unfold getWork at h
  cases haux : getWorkAux s.in_flight_work s.resolved s.pending with
  | mk o rest =>
    rw [haux] at h
    cases o with
    | some x => simp at h
    | none =>
      simp only [Prod.mk.injEq] at h
      obtain ⟨_, rfl⟩ := h
      have hrest : rest = [] := getWorkAux_none _ _ _ _ haux
      subst hrest
      exact ⟨⟨List.Pairwise.nil, ⟨by simp, by simp, hinv.2.1.2.2⟩, hinv.2.2⟩,
        rfl, rfl⟩

/-- Effect of `handle_work_completed` on the invariant and on the
in-flight-or-resolved indicator. -/
theorem inv_complete (s : Saga W K) (key : K)
    (produced : List (WorkItem W K)) (hinv : Inv s) :
    Inv (handle_work_completed s key produced) ∧
      ∀ k, inFlightOrResolved (handle_work_completed s key produced) k =
        inFlightOrResolved s k := by
  obtain ⟨hpair, ⟨hpi, hpr, hir⟩, hik⟩ := hinv
  unfold handle_work_completed
  cases hf : Rmap.find? s.in_flight_work key with
  | none => exact ⟨⟨hpair, ⟨hpi, hpr, hir⟩, hik⟩, fun k => rfl⟩
  | some item =>
    have hkey : item.work_resolution_key = key :=
      hik (key, item) (find?_mem _ _ _ hf)
    have hcontkey : Rmap.contains s.in_flight_work key = true := by
      simp [Rmap.contains, hf]
    set s1 : Saga W K :=
      { s with
        in_flight_work := eraseKey s.in_flight_work key,
        resolved := Rset.insert s.resolved item.work_resolution_key } with hs1
    have hs1inf : s1.in_flight_work = eraseKey s.in_flight_work key := rfl
    have hs1res : s1.resolved =
        Rset.insert s.resolved item.work_resolution_key := rfl
    have hinf2 : (produced.foldl enqueueNew s1).in_flight_work =
        eraseKey s.in_flight_work key := by
      rw [foldl_enqueueNew_in_flight, hs1inf]
    have hres2 : (produced.foldl enqueueNew s1).resolved =
        Rset.insert s.resolved item.work_resolution_key := by
      rw [foldl_enqueueNew_resolved, hs1res]
    constructor
    · refine ⟨?_, ⟨?_, ?_, ?_⟩, ?_⟩
      · exact foldl_enqueueNew_pairwise produced s1 hpair
      · intro y hy
        rw [hinf2]
        rcases foldl_enqueueNew_mem produced s1 y hy with hmem | hres
        · apply contains_eraseKey_false_of
          exact hpi y hmem
        · unfold isResolved at hres
          rw [hs1inf] at hres
          simp only [Bool.or_eq_false_iff] at hres
          exact hres.1
      · intro y hy
        rw [hres2, hkey]
        rcases foldl_enqueueNew_mem produced s1 y hy with hmem | hres
        · have h1 : y.work_resolution_key ∉ s.resolved := hpr y hmem
          have h2 : y.work_resolution_key ≠ key := by
            intro hcontra
            have := hpi y hmem
            rw [hcontra] at this
            rw [this] at hcontkey
            exact absurd hcontkey (by simp)
          intro hcontra
          rcases (Rset.mem_insert_iff _ _ _).mp hcontra with h | h
          · exact h2 h
          · exact h1 h
        · unfold isResolved at hres
          rw [hs1res] at hres
          simp only [Bool.or_eq_false_iff, decide_eq_false_iff_not] at hres
          rw [hkey] at hres
          exact hres.2
      · intro p hp
        rw [hinf2] at hp
        rw [hres2, hkey]
        obtain ⟨hmem, hne⟩ := mem_eraseKey _ _ _ hp
        intro hcontra
        rcases (Rset.mem_insert_iff _ _ _).mp hcontra with h | h
        · exact hne h
        · exact hir p hmem h
      · intro p hp
        rw [hinf2] at hp
        exact hik p (mem_eraseKey _ _ _ hp).1
    · intro k
      unfold inFlightOrResolved
      rw [hinf2, hres2, hkey]
      by_cases hk : k = key
      · subst hk
        rw [contains_eraseKey_self]
        simp [hcontkey, Rset.mem_insert_self]
      · rw [contains_eraseKey_ne _ _ _ hk]
        have hmemiff : (k ∈ Rset.insert s.resolved key) ↔ (k ∈ s.resolved) := by
          rw [Rset.mem_insert_iff]
          constructor
          · rintro (rfl | h)
            · exact absurd rfl hk
            · exact h
          · exact Or.inr
        rw [decide_eq_decide.mpr hmemiff]

/-- Effect of a retried `handle_work_failed` on the invariant and the
in-flight-or-resolved indicator. -/
theorem inv_fail {E : Type} {s s' : Saga W K} {key : K} {e : E}
    (hc : Rmap.contains s.in_flight_work key = true)
    (hok : handle_work_failed s key e = .ok s') (hinv : Inv s) :
    Inv s' ∧ inFlightOrResolved s' key = false ∧
      (∀ k, k ≠ key → inFlightOrResolved s' k = inFlightOrResolved s k) ∧
      inFlightOrResolved s key = true := by
  obtain ⟨hpair, ⟨hpi, hpr, hir⟩, hik⟩ := hinv
  unfold handle_work_failed at hok
  cases hf : Rmap.find? s.in_flight_work key with
  | none => rw [hf] at hok; simp [Rmap.contains, hf] at hc
  | some item =>
    rw [hf] at hok
    simp only at hok
    have hkey : item.work_resolution_key = key :=
      hik (key, item) (find?_mem _ _ _ hf)
    have hkeynotres : key ∉ s.resolved := hir (key, item) (find?_mem _ _ _ hf)
    by_cases hretry : item.retry_count + 1 < s.max_retries
    · rw [if_pos hretry] at hok
      simp only [Except.ok.injEq] at hok
      subst hok
      have hitem' :
          ({ item with retry_count := item.retry_count + 1 } :
            WorkItem W K).work_resolution_key = key := hkey
      refine ⟨⟨?_, ⟨?_, ?_, ?_⟩, ?_⟩, ?_, ?_, ?_⟩
      · exact pairwise_pendingInsert _ _ hpair
      · intro y hy
        rcases mem_pendingInsert _ _ _ hy with rfl | hmem
        · rw [hitem']
          exact contains_eraseKey_self _ _
        · exact contains_eraseKey_false_of _ _ _ (hpi y hmem)
      · intro y hy
        rcases mem_pendingInsert _ _ _ hy with rfl | hmem
        · rw [hitem']; exact hkeynotres
        · exact hpr y hmem
      · intro p hp
        exact hir p (mem_eraseKey _ _ _ hp).1
      · intro p hp
        exact hik p (mem_eraseKey _ _ _ hp).1
      · unfold inFlightOrResolved
        simp only [contains_eraseKey_self, Bool.false_or,
          decide_eq_false_iff_not]
        exact hkeynotres
      · intro k hk
        unfold inFlightOrResolved
        simp only
        rw [contains_eraseKey_ne _ _ _ hk]
      · unfold inFlightOrResolved
        simp [hc]
    · rw [if_neg hretry] at hok
      simp at hok

/-- The master induction: every engine step preserves the invariant, and
per key the dispatch count plus the initial in-flight-or-resolved indicator
equals the retry count plus the final indicator. -/
theorem reaches_inv_conservation {E : Type} {s sEnd : Saga W K}
    {evs : List (EngineEvent W K E)} (h : Reaches s evs sEnd) (hinv : Inv s) :
    Inv sEnd ∧ ∀ k,
      dispatchCount k evs + (inFlightOrResolved s k).toNat =
        retryCount k evs + (inFlightOrResolved sEnd k).toNat := by
  induction h with
  | refl s => exact ⟨hinv, fun k => rfl⟩
  | dispatch hgw hrest ih =>
    rename_i s s' it evs sEnd
    obtain ⟨hinv', hcont, hres, hinf', hres'⟩ := inv_getWork_some hgw hinv
    obtain ⟨hinvEnd, hcount⟩ := ih hinv'
    refine ⟨hinvEnd, fun k => ?_⟩
    have hev : dispatchCount k (EngineEvent.dispatch (E := E) it :: evs) =
        (if it.work_resolution_key = k then 1 else 0) + dispatchCount k evs := rfl
    have hev2 : retryCount k (EngineEvent.dispatch (E := E) it :: evs) =
        retryCount k evs := rfl
    rw [hev, hev2]
    by_cases hk : it.work_resolution_key = k
    · subst hk
      have h0 : inFlightOrResolved s it.work_resolution_key = false := by
        unfold inFlightOrResolved
        simp [hcont, hres]
      have h1 : inFlightOrResolved s' it.work_resolution_key = true := by
        unfold inFlightOrResolved
        rw [hinf']
        simp [Rmap.contains_insert]
      have := hcount it.work_resolution_key
      rw [h1] at this
      rw [h0]
      simp only [eq_self_iff_true, if_true, Bool.toNat_true,
        Bool.toNat_false] at this ⊢
      omega
    · have h1 : inFlightOrResolved s' k = inFlightOrResolved s k := by
        unfold inFlightOrResolved
        rw [hinf', hres', contains_insert_ne _ _ _ _ hk]
      have := hcount k
      rw [h1] at this
      simp only [if_neg hk]
      omega
  | dispatchNone hgw hrest ih =>
    rename_i s s' evs sEnd
    obtain ⟨hinv', hinf', hres'⟩ := inv_getWork_none hgw hinv
    obtain ⟨hinvEnd, hcount⟩ := ih hinv'
    refine ⟨hinvEnd, fun k => ?_⟩
    have h1 : inFlightOrResolved s' k = inFlightOrResolved s k := by
      unfold inFlightOrResolved
      rw [hinf', hres']
    have := hcount k
    rw [h1] at this
    exact this
  | complete hrest ih =>
    rename_i s key produced evs sEnd
    obtain ⟨hinv', hindic⟩ := inv_complete s key produced hinv
    obtain ⟨hinvEnd, hcount⟩ := ih hinv'
    refine ⟨hinvEnd, fun k => ?_⟩
    have hev : dispatchCount k
        (EngineEvent.complete (E := E) key produced :: evs) =
        dispatchCount k evs := rfl
    have hev2 : retryCount k
        (EngineEvent.complete (E := E) key produced :: evs) =
        retryCount k evs := rfl
    rw [hev, hev2]
    have := hcount k
    rw [hindic k] at this
    exact this
  | fail hc hok hrest ih =>
    rename_i s s' key e evs sEnd
    obtain ⟨hinv', hkf, hother, hkt⟩ := inv_fail hc hok hinv
    obtain ⟨hinvEnd, hcount⟩ := ih hinv'
    refine ⟨hinvEnd, fun k => ?_⟩
    have hev : dispatchCount k (EngineEvent.fail (E := E) key e :: evs) =
        dispatchCount k evs := rfl
    have hev2 : retryCount k (EngineEvent.fail (E := E) key e :: evs) =
        (if key = k then 1 else 0) + retryCount k evs := rfl
    rw [hev, hev2]
    by_cases hk : key = k
    · subst hk
      have := hcount key
      rw [hkf] at this
      rw [hkt]
      simp only [eq_self_iff_true, if_true, Bool.toNat_true,
        Bool.toNat_false] at this ⊢
      omega
    · have := hcount k
      rw [hother k (fun hcontra => hk hcontra.symm)] at this
      simp only [if_neg hk]
      omega

theorem start_in_flight (items : List (WorkItem W K)) (mr : Nat) :
    (start items mr).in_flight_work = [] := by
  unfold start
  generalize hbase : (⟨[], [], [], mr⟩ : Saga W K) = base
  have : base.in_flight_work = [] := by rw [← hbase]
  clear hbase
  induction items generalizing base with
  | nil => exact this
  | cons it rest ih =>
    rw [List.foldl_cons]
    exact ih _ this

theorem start_resolved (items : List (WorkItem W K)) (mr : Nat) :
    (start items mr).resolved = [] := by
  unfold start
  generalize hbase : (⟨[], [], [], mr⟩ : Saga W K) = base
  have : base.resolved = [] := by rw [← hbase]
  clear hbase
  induction items generalizing base with
  | nil => exact this
  | cons it rest ih =>
    rw [List.foldl_cons]
    exact ih _ this

theorem start_pairwise (items : List (WorkItem W K)) (mr : Nat) :
    List.Pairwise (keyLt (K := K)) (start items mr).pending := by
  unfold start
  generalize hbase : (⟨[], [], [], mr⟩ : Saga W K) = base
  have : List.Pairwise (keyLt (K := K)) base.pending := by
    rw [← hbase]; exact List.Pairwise.nil
  clear hbase
  induction items generalizing base with
  | nil => exact this
  | cons it rest ih =>
    rw [List.foldl_cons]
    exact ih _ (pairwise_pendingInsert _ _ this)

theorem inv_start (items : List (WorkItem W K)) (mr : Nat) :
    Inv (start items mr) := by
  refine ⟨start_pairwise items mr, ⟨?_, ?_, ?_⟩, ?_⟩
  · intro y _
    rw [start_in_flight]
    rfl
  · intro y _
    rw [start_resolved]
    simp
  · intro p hp
    rw [start_in_flight] at hp
    simp at hp
  · intro p hp
    rw [start_in_flight] at hp
    simp at hp

/-- C3.  In every reachable state of the saga engine the key sets of
pending, in-flight and resolved are pairwise disjoint, and each work key is
dispatched exactly retried-failures-many times plus one when the key ended
up in flight or resolved (produced items are enqueued only when their key
is in neither set, and `get_work` skips any popped item whose key is
resolved or in flight). -/
theorem saga_disjoint_and_dispatch_count {E : Type}
    (items : List (WorkItem W K)) (max_retries : Nat)
    (evs : List (EngineEvent W K E)) (sEnd : Saga W K)
    (h : Reaches (start items max_retries) evs sEnd) :
    DisjointSets sEnd ∧
    ∀ k, dispatchCount k evs =
      retryCount k evs + (inFlightOrResolved sEnd k).toNat := by
  obtain ⟨hinvEnd, hcount⟩ :=
    reaches_inv_conservation h (inv_start items max_retries)
  refine ⟨hinvEnd.2.1, fun k => ?_⟩
  have hk := hcount k
  have h0 : inFlightOrResolved (start items max_retries) k = false := by
    unfold inFlightOrResolved
    rw [start_in_flight, start_resolved]
    simp [Rmap.contains, Rmap.find?]
  rw [h0] at hk
  simpa using hk

end EngineLemmas

/-- The sole seeded work item of the C3 witness run. -/
def c3Item : WorkItem Int Int := ⟨5, 0, 5⟩

/-- Engine state after seeding. -/
def c3S0 : Saga Int Int := start [c3Item] 3

/-- Engine state after dispatching the item. -/
def c3S1 : Saga Int Int := (getWork c3S0).2

/-- Engine state after the item completes with no produced work. -/
def c3S2 : Saga Int Int := handle_work_completed c3S1 5 []

/-- The witness run's event trace. -/
def c3Evs : List (EngineEvent Int Int String) :=
  [.dispatch c3Item, .complete 5 []]

/-- Witness for C3: a concrete dispatch-then-complete run. -/
theorem saga_disjoint_and_dispatch_count_witness :
    DisjointSets c3S2 ∧
    ∀ k, dispatchCount k c3Evs =
      retryCount k c3Evs + (inFlightOrResolved c3S2 k).toNat :=
  saga_disjoint_and_dispatch_count [c3Item] 3 c3Evs c3S2
    (@Reaches.dispatch Int Int String _ c3S0 c3S1 c3Item _ c3S2
      (by decide)
      (Reaches.complete (Reaches.refl c3S2)))

/-- C4 (amended).  `is_temporary` covers exactly the transport
timeout/connect errors, 429, 502, 503 and all 5xx responses; but the saga's
failure handler never consults it: any error is retried while the item's
retry count stays below `max_retries` (default `MAX_RETRIES = 3` total
attempts per key), and the saga fails with the error exactly when the
count reaches `max_retries`, independently of the error's temporariness. -/
theorem retry_ignores_temporary_predicate :
    (∀ e : Hob.HoboleaksError, e.is_temporary = true ↔
      ((∃ t c, e = .requestError t c ∧ (t || c) = true) ∨
        (∃ txt, e = .serverError txt) ∨
        (∃ st msg, e = .apiError st msg ∧ (st = 429 ∨ st = 503 ∨ st = 502)))) ∧
    MAX_RETRIES = 3 ∧
    (∀ (W K E : Type) [LinearOrder K] (s : Saga W K) (key : K) (e : E)
      (item : WorkItem W K),
      Rmap.find? s.in_flight_work key = some item →
      (item.retry_count + 1 < s.max_retries →
        handle_work_failed s key e = .ok { s with
          in_flight_work := eraseKey s.in_flight_work key,
          pending := pendingInsert s.pending
            { item with retry_count := item.retry_count + 1 } }) ∧
      (¬ item.retry_count + 1 < s.max_retries →
        handle_work_failed s key e = .error e)) := by
  refine ⟨?_, rfl, ?_⟩
  · intro e
    cases e with
    | requestError t c =>
      simp only [Hob.HoboleaksError.is_temporary]
      constructor
      · intro h
        exact Or.inl ⟨t, c, rfl, h⟩
      · rintro (⟨t', c', heq, hb⟩ | ⟨txt, heq⟩ | ⟨st, msg, heq, _⟩)
        · injection heq with h1 h2
          subst h1
          subst h2
          exact hb
        · exact absurd heq (by simp)
        · exact absurd heq (by simp)
    | serverError txt =>
      simp only [Hob.HoboleaksError.is_temporary]
      constructor
      · intro _
        exact Or.inr (Or.inl ⟨txt, rfl⟩)
      · intro _
        trivial
    | apiError st msg =>
      simp only [Hob.HoboleaksError.is_temporary]
      constructor
      · intro h
        refine Or.inr (Or.inr ⟨st, msg, rfl, ?_⟩)
        simp only [Bool.or_eq_true, decide_eq_true_eq] at h
        tauto
      · rintro (⟨t', c', heq, _⟩ | ⟨txt, heq⟩ | ⟨st', msg', heq, hst⟩)
        · exact absurd heq (by simp)
        · exact absurd heq (by simp)
        · injection heq with h1 h2
          subst h1
          simp only [Bool.or_eq_true, decide_eq_true_eq]
          tauto
    | authError txt =>
      simp only [Hob.HoboleaksError.is_temporary]
      constructor
      · intro h
        exact absurd h (by simp)
      · rintro (⟨t', c', heq, _⟩ | ⟨txt', heq⟩ | ⟨st, msg, heq, _⟩) <;>
          exact absurd heq (by simp)
    | parseError txt =>
      simp only [Hob.HoboleaksError.is_temporary]
      constructor
      · intro h
        exact absurd h (by simp)
      · rintro (⟨t', c', heq, _⟩ | ⟨txt', heq⟩ | ⟨st, msg, heq, _⟩) <;>
          exact absurd heq (by simp)
  · intro W K E _ s key e item hf
    constructor
    · intro hlt
      unfold handle_work_failed
      rw [hf]
      simp only
      rw [if_pos hlt]
    · intro hge
      unfold handle_work_failed
      rw [hf]
      simp only
      rw [if_neg hge]

/-- A witness discharging the hypotheses of the amended C4 theorem's
retry clause at a concrete state: one item in flight with retry count 0. -/
def c4State : Saga Int Int :=
  { pending := [], in_flight_work := [(7, ⟨7, 0, 7⟩)], resolved := [],
    max_retries := 3 }

/-- The engine state after the permanent error is (wrongly, per the claim)
retried: the key is back in pending with retry count 1. -/
def c4Retried : Saga Int Int :=
  { pending := [⟨7, 1, 7⟩], in_flight_work := [], resolved := [],
    max_retries := 3 }

/-- Counterexample to C4 as stated: an `AuthError` is permanent
(`is_temporary` is `false`), yet `handle_work_failed` retries it, putting
its key back into pending instead of propagating the error. -/
theorem permanent_error_retried :
    Hob.HoboleaksError.is_temporary (.authError "forbidden") = false ∧
    handle_work_failed c4State 7 (Hob.HoboleaksError.authError "forbidden") =
      .ok c4Retried := by
  constructor
  · rfl
  · rfl

end SagaFw

/-! ## Assets saga processor (src/saga/assets.rs)

`process` performs the network fetches and is abstracted: a work result is
an arbitrary value of `AssetsWorkResult`.  `handle` below is the store-level
translation of `AssetsSagaProcessor::handle` (the only context state it
touches is `character_assets_db`). -/

namespace SagaAssets

open Db

/-- `AssetsWorkType`. -/
inductive AssetsWorkType where
  | getHoboleaksMutators
  | getAssetsPage (character_id : CharacterId) (page : Nat)
  | getAssetsNames (item_ids : List ItemId) (page : Nat)
      (character_id : CharacterId)
  | getDynamic (type_id : TypeId) (item_id : ItemId)
  | getType (type_id : TypeId)
  | getMarketGroup (market_group_id : MarketGroupId)
  | getStation (station_id : StationId)
  | getDogmaAttribute (dogma_attribute_id : DogmaAttributeId)
  deriving DecidableEq, Repr

/-- `AssetsWorkKey`. -/
inductive AssetsWorkKey where
  | hoboleaksMutators
  | assetsPage (character_id : CharacterId) (page : Nat)
  | assetsNames (character_id : CharacterId) (page : Nat)
  | dynamic (item_id : ItemId)
  | type' (type_id : TypeId)
  | marketGroup (market_group_id : MarketGroupId)
  | station (station_id : StationId)
  | dogmaAttribute (dogma_attribute_id : DogmaAttributeId)
  deriving DecidableEq, Repr

/-- `AssetsSagaProcessor::to_resolution_key`. -/
def to_resolution_key : AssetsWorkType → AssetsWorkKey
  | .getHoboleaksMutators => .hoboleaksMutators
  | .getAssetsPage character_id page => .assetsPage character_id page
  | .getAssetsNames _ page character_id => .assetsNames character_id page
  | .getDynamic _ item_id => .dynamic item_id
  | .getType type_id => .type' type_id
  | .getMarketGroup market_group_id => .marketGroup market_group_id
  | .getStation station_id => .station station_id
  | .getDogmaAttribute dogma_attribute_id => .dogmaAttribute dogma_attribute_id

/-- `AssetsWorkResult`; the hoboleaks catalogue's `HashMap` is modelled as
an association list. -/
inductive AssetsWorkResult where
  | hoboleaksMutators (data : List (TypeId × Hob.MutaplasmidsEffects))
  | assetsPage (character_id : CharacterId) (page : Nat) (total_pages : Nat)
      (assets : List AssetItem)
  | assetsNames (character_id : CharacterId) (page : Nat)
      (assets_names : List AssetName)
  | dynamic (type_id : TypeId) (item_id : ItemId) (dyn : DynamicItem)
  | itemType (type_id : TypeId) (item_type : ItemType)
  | marketGroup (market_group_id : MarketGroupId) (market_group : MarketGroup)
  | station (station_id : StationId) (station : Station)
  | dogmaAttribute (dogma_attribute_id : DogmaAttributeId)
      (dogma_attribute : DogmaAttribute)
  deriving DecidableEq, Repr

/-- `get_data_to_work_type`. -/
def get_data_to_work_type : GetData → AssetsWorkType
  | .dynamic type_id item_id => .getDynamic type_id item_id
  | .marketGroup market_group_id => .getMarketGroup market_group_id
  | .station station_id => .getStation station_id
  | .type' type_id => .getType type_id
  | .dogmaAttribute dogma_attribute_id => .getDogmaAttribute dogma_attribute_id

/-- `AssetsSagaProcessor::handle_initial_event`. -/
def handle_initial_event (character_id : CharacterId) : List AssetsWorkType :=
  [.getHoboleaksMutators, .getAssetsPage character_id 1]

/-- The `HoboleaksMutators` loop of `handle` over the catalogue entries. -/
def applyMutators (s : CharacterAssets) :
    List (TypeId × Hob.MutaplasmidsEffects) →
    CharacterAssets × List AssetsWorkType
  | [] => (s, [])
  | (mutator_type_id, mutator_data) :: rest =>
      let attributes := mutator_data.attribute_i_ds.map
        (fun p => (p.1, p.2.min, p.2.max))
      let input_output := mutator_data.input_output_mapping.map
        (fun i => (i.resulting_type, i.applicable_types))
      let step := s.add_mutaplasmid_effects mutator_type_id attributes input_output
      let tail := applyMutators step.1 rest
      (tail.1, step.2.map get_data_to_work_type ++ tail.2)

/-- The `AssetsPage` loop of `handle` over one page's assets. -/
def applyAssets (s : CharacterAssets) :
    List AssetItem → CharacterAssets × List AssetsWorkType
  | [] => (s, [])
  | asset :: rest =>
      let step := s.add_asset asset
      let tail := applyAssets step.1 rest
      (tail.1, step.2.map get_data_to_work_type ++ tail.2)

/-- The `AssetsNames` loop of `handle`. -/
def applyNames (s : CharacterAssets) : List AssetName → CharacterAssets
  | [] => s
  | n :: rest => applyNames (s.add_asset_name n.item_id n.name).1 rest

/-- `AssetsSagaProcessor::handle`, at the level of the store. -/
def handle (s : CharacterAssets) :
    AssetsWorkResult → CharacterAssets × List AssetsWorkType
  | .hoboleaksMutators data => applyMutators s data
  | .assetsPage character_id page total_pages assets =>
      let step := applyAssets s assets
      let new_items := step.2 ++
        (if page = 1 then
          (List.range' 2 (total_pages - 1)).map
            (fun p => AssetsWorkType.getAssetsPage character_id p)
        else []) ++
        [AssetsWorkType.getAssetsNames (assets.map (fun a => a.item_id))
          page character_id]
      (step.1, new_items)
  | .assetsNames _ _ assets_names => (applyNames s assets_names, [])
  | .dynamic type_id item_id dyn =>
      let step := s.add_dynamic type_id item_id dyn
      (step.1, step.2.map get_data_to_work_type)
  | .itemType _ item_type =>
      let step := s.add_type item_type
      (step.1, step.2.map get_data_to_work_type)
  | .marketGroup _ market_group =>
      let step := s.add_market_group market_group
      (step.1, step.2.map get_data_to_work_type)
  | .station station_id st =>
      let step := s.add_station station_id st
      (step.1, step.2.map get_data_to_work_type)
  | .dogmaAttribute _ dogma_attribute =>
      let step := s.add_dogma_attribute dogma_attribute
      (step.1, step.2.map get_data_to_work_type)

theorem applyMutators_preservesMCD
    (data : List (TypeId × Hob.MutaplasmidsEffects)) {mid : TypeId}
    {a : List (DogmaAttributeId × Rat × Rat)} {io : List (TypeId × List TypeId)} :
    ∀ s : CharacterAssets, MutaCallDone s.mutaplasmid_effects mid a io →
      MutaCallDone (applyMutators s data).1.mutaplasmid_effects mid a io := by
  induction data with
  | nil => intro s h; exact h
  | cons e0 rest ih =>
    intro s h
    obtain ⟨m0, md0⟩ := e0
    simp only [applyMutators]
    exact ih _ (add_mutaplasmid_preserves s m0 _ _ h)

theorem applyMutators_establishes
    (data : List (TypeId × Hob.MutaplasmidsEffects)) :
    ∀ s : CharacterAssets, ∀ e ∈ data,
      MutaCallDone (applyMutators s data).1.mutaplasmid_effects e.1
        (e.2.attribute_i_ds.map (fun p => (p.1, p.2.min, p.2.max)))
        (e.2.input_output_mapping.map
          (fun i => (i.resulting_type, i.applicable_types))) := by
  induction data with
  | nil => intro s e h; simp at h
  | cons e0 rest ih =>
    intro s e h
    obtain ⟨m0, md0⟩ := e0
    simp only [applyMutators]
    rcases List.mem_cons.mp h with rfl | h'
    · exact applyMutators_preservesMCD rest _
        (add_mutaplasmid_establishes s m0 _ _)
    · exact ih _ e h'

theorem applyMutators_noop (data : List (TypeId × Hob.MutaplasmidsEffects)) :
    ∀ s : CharacterAssets,
      (∀ e ∈ data, MutaCallDone s.mutaplasmid_effects e.1
        (e.2.attribute_i_ds.map (fun p => (p.1, p.2.min, p.2.max)))
        (e.2.input_output_mapping.map
          (fun i => (i.resulting_type, i.applicable_types)))) →
      (applyMutators s data).1 = s := by
  induction data with
  | nil => intro s _; rfl
  | cons e0 rest ih =>
    intro s hall
    obtain ⟨m0, md0⟩ := e0
    simp only [applyMutators]
    have h0 : (CharacterAssets.add_mutaplasmid_effects s m0
        (md0.attribute_i_ds.map (fun p => (p.1, p.2.min, p.2.max)))
        (md0.input_output_mapping.map
          (fun i => (i.resulting_type, i.applicable_types)))).1 = s :=
      add_mutaplasmid_noop s m0 _ _ (hall (m0, md0) (by simp))
    have hrest : ∀ e ∈ rest,
        MutaCallDone (CharacterAssets.add_mutaplasmid_effects s m0
          (md0.attribute_i_ds.map (fun p => (p.1, p.2.min, p.2.max)))
          (md0.input_output_mapping.map
            (fun i => (i.resulting_type, i.applicable_types)))).1.mutaplasmid_effects
          e.1
          (e.2.attribute_i_ds.map (fun p => (p.1, p.2.min, p.2.max)))
          (e.2.input_output_mapping.map
            (fun i => (i.resulting_type, i.applicable_types))) := by
      intro e he
      rw [h0]
      exact hall e (List.mem_cons_of_mem _ he)
    rw [ih _ hrest, h0]

theorem applyAssets_fst (l : List AssetItem) :
    ∀ s : CharacterAssets, (applyAssets s l).1 =
      { s with
        assets :=
          Rmap.insertList s.assets (l.map (fun a => (a.item_id, a))) } := by
  induction l with
  | nil => intro s; rfl
  | cons a rest ih =>
    intro s
    simp only [applyAssets]
    rw [ih]
    rfl

theorem applyNames_eq (l : List AssetName) :
    ∀ s : CharacterAssets, applyNames s l =
      { s with
        assets_names :=
          Rmap.insertList s.assets_names
            (l.map (fun n => (n.item_id, n.name))) } := by
  induction l with
  | nil => intro s; rfl
  | cons n rest ih =>
    intro s
    simp only [applyNames]
    rw [ih]
    rfl

/-- The store left by a saga run: every fetched result applied in order via
`handle` (src/saga/framework.rs drives `handle_work_completed` with each
processor result). -/
def runStore (s : CharacterAssets) : List AssetsWorkResult → CharacterAssets
  | [] => s
  | r :: rest => runStore (handle s r).1 rest

/-- All work types produced by the processor along the run. -/
def runEmitted (s : CharacterAssets) : List AssetsWorkResult → List AssetsWorkType
  | [] => []
  | r :: rest => (handle s r).2 ++ runEmitted (handle s r).1 rest

/-- The entity a work key asks for is present in the store. -/
def satisfiedW (s : CharacterAssets) : AssetsWorkType → Bool
  | .getStation sid => Rmap.contains s.stations sid
  | .getDynamic _ iid => Rmap.contains s.dynamics iid
  | .getType tid => Rmap.contains s.types tid
  | .getMarketGroup g => Rmap.contains s.market_groups g
  | .getDogmaAttribute a => Rmap.contains s.dogma_attributes a
  | _ => true

/-- The result that resolves a work key: its payload is stored under the key
the work item asked for (this is how the saga's fetchers answer work items). -/
def establishes : AssetsWorkResult → AssetsWorkType → Bool
  | .hoboleaksMutators _, .getHoboleaksMutators => true
  | .assetsPage cid p _ _, .getAssetsPage cid' p' => cid = cid' && p = p'
  | .assetsNames cid p _, .getAssetsNames _ p' cid' => cid = cid' && p = p'
  | .station sid _, .getStation sid' => sid = sid'
  | .dynamic _ iid _, .getDynamic _ iid' => iid = iid'
  | .itemType _ it, .getType tid' => it.type_id = tid'
  | .marketGroup _ mg, .getMarketGroup g => mg.market_group_id = g
  | .dogmaAttribute _ da, .getDogmaAttribute a' => da.attribute_id = a'
  | _, _ => false

/-- Requirements an asset row imposes, each either satisfied or emitted. -/
def AssetOk (stations : List (StationId × Station))
    (dynamics : List (ItemId × DynamicItem)) (types : List (TypeId × ItemType))
    (abyssal : List TypeId) (em : List AssetsWorkType) (a : AssetItem) : Prop :=
  (CharacterAssets.is_on_station a = true →
    Rmap.contains stations (asStationId a.location_id) = true ∨
    AssetsWorkType.getStation (asStationId a.location_id) ∈ em) ∧
  (a.type_id ∈ abyssal →
    Rmap.contains dynamics a.item_id = true ∨
    AssetsWorkType.getDynamic a.type_id a.item_id ∈ em) ∧
  (Rmap.contains types a.type_id = true ∨
    AssetsWorkType.getType a.type_id ∈ em)

/-- Requirements a dynamic row imposes. -/
def DynOk (types : List (TypeId × ItemType))
    (dogma : List (DogmaAttributeId × DogmaAttribute))
    (em : List AssetsWorkType) (d : DynamicItem) : Prop :=
  (∀ attr ∈ d.dogma_attributes,
    Rmap.contains dogma attr.attribute_id = true ∨
    AssetsWorkType.getDogmaAttribute attr.attribute_id ∈ em) ∧
  (Rmap.contains types d.source_type_id = true ∨
    AssetsWorkType.getType d.source_type_id ∈ em) ∧
  (Rmap.contains types d.mutator_type_id = true ∨
    AssetsWorkType.getType d.mutator_type_id ∈ em)

/-- Requirement a type row imposes: its market group is satisfied or emitted. -/
def TypeOk (mgs : List (MarketGroupId × MarketGroup))
    (em : List AssetsWorkType) (it : ItemType) : Prop :=
  ∀ g, it.market_group_id = some g →
    Rmap.contains mgs g = true ∨
    AssetsWorkType.getMarketGroup g ∈ em

/-- Every row of the store has its requirements satisfied or emitted. -/
def StoreInv (s : CharacterAssets) (em : List AssetsWorkType) : Prop :=
  (∀ p ∈ s.assets,
    AssetOk s.stations s.dynamics s.types s.abyssal_items em p.2) ∧
  (∀ p ∈ s.dynamics, DynOk s.types s.dogma_attributes em p.2) ∧
  (∀ p ∈ s.types, TypeOk s.market_groups em p.2)

/-- The five entity tables only grow along a run (nothing is ever removed),
and the abyssal set is fixed. -/
def Grows (s t : CharacterAssets) : Prop :=
  t.abyssal_items = s.abyssal_items ∧
  (∀ k, Rmap.contains s.stations k = true →
    Rmap.contains t.stations k = true) ∧
  (∀ k, Rmap.contains s.dynamics k = true →
    Rmap.contains t.dynamics k = true) ∧
  (∀ k, Rmap.contains s.types k = true → Rmap.contains t.types k = true) ∧
  (∀ k, Rmap.contains s.market_groups k = true →
    Rmap.contains t.market_groups k = true) ∧
  (∀ k, Rmap.contains s.dogma_attributes k = true →
    Rmap.contains t.dogma_attributes k = true)

theorem applyMutators_tables (data : List (TypeId × Hob.MutaplasmidsEffects)) :
    ∀ s : CharacterAssets,
      (applyMutators s data).1.assets = s.assets ∧
      (applyMutators s data).1.stations = s.stations ∧
      (applyMutators s data).1.dynamics = s.dynamics ∧
      (applyMutators s data).1.types = s.types ∧
      (applyMutators s data).1.market_groups = s.market_groups ∧
      (applyMutators s data).1.dogma_attributes = s.dogma_attributes ∧
      (applyMutators s data).1.abyssal_items = s.abyssal_items := by
  induction data with
  | nil => intro s; exact ⟨rfl, rfl, rfl, rfl, rfl, rfl, rfl⟩
  | cons e0 rest ih =>
    intro s
    obtain ⟨m0, md0⟩ := e0
    simp only [applyMutators]
    exact ih _

theorem grows_refl (s : CharacterAssets) : Grows s s :=
  ⟨rfl, fun _ h => h, fun _ h => h, fun _ h => h, fun _ h => h, fun _ h => h⟩

theorem grows_trans {s t u : CharacterAssets} (h1 : Grows s t)
    (h2 : Grows t u) : Grows s u :=
  ⟨h2.1.trans h1.1,
    fun k h => h2.2.1 k (h1.2.1 k h),
    fun k h => h2.2.2.1 k (h1.2.2.1 k h),
    fun k h => h2.2.2.2.1 k (h1.2.2.2.1 k h),
    fun k h => h2.2.2.2.2.1 k (h1.2.2.2.2.1 k h),
    fun k h => h2.2.2.2.2.2 k (h1.2.2.2.2.2 k h)⟩

theorem grows_handle (s : CharacterAssets) (r : AssetsWorkResult) :
    Grows s (handle s r).1 := by
  cases r with
  | hoboleaksMutators data =>
      obtain ⟨h1, h2, h3, h4, h5, h6, h7⟩ := applyMutators_tables data s
      simp only [handle]
      exact ⟨h7, fun k h => h2 ▸ h, fun k h => h3 ▸ h, fun k h => h4 ▸ h,
        fun k h => h5 ▸ h, fun k h => h6 ▸ h⟩
  | assetsPage character_id page total_pages assets =>
      simp only [handle]
      rw [applyAssets_fst]
      exact grows_refl _
  | assetsNames character_id page assets_names =>
      simp only [handle]
      rw [applyNames_eq]
      exact grows_refl _
  | dynamic type_id item_id dyn =>
      simp only [handle, CharacterAssets.add_dynamic]
      exact ⟨rfl, fun k h => h,
        fun k h => Rmap.contains_insert_of _ _ _ _ h,
        fun k h => h, fun k h => h, fun k h => h⟩
  | itemType type_id item_type =>
      simp only [handle, CharacterAssets.add_type]
      exact ⟨rfl, fun k h => h, fun k h => h,
        fun k h => Rmap.contains_insert_of _ _ _ _ h,
        fun k h => h, fun k h => h⟩
  | marketGroup market_group_id market_group =>
      simp only [handle, CharacterAssets.add_market_group]
      exact ⟨rfl, fun k h => h, fun k h => h, fun k h => h,
        fun k h => Rmap.contains_insert_of _ _ _ _ h, fun k h => h⟩
  | station station_id st =>
      simp only [handle, CharacterAssets.add_station]
      exact ⟨rfl, fun k h => Rmap.contains_insert_of _ _ _ _ h,
        fun k h => h, fun k h => h, fun k h => h, fun k h => h⟩
  | dogmaAttribute dogma_attribute_id dogma_attribute =>
      simp only [handle, CharacterAssets.add_dogma_attribute]
      exact ⟨rfl, fun k h => h, fun k h => h, fun k h => h, fun k h => h,
        fun k h => Rmap.contains_insert_of _ _ _ _ h⟩

theorem grows_run (rs : List AssetsWorkResult) :
    ∀ s : CharacterAssets, Grows s (runStore s rs) := by
  induction rs with
  | nil => intro s; exact grows_refl s
  | cons r rest ih =>
    intro s
    simp only [runStore]
    exact grows_trans (grows_handle s r) (ih _)

theorem satisfiedW_mono {s t : CharacterAssets} (hg : Grows s t)
    (w : AssetsWorkType) (h : satisfiedW s w = true) :
    satisfiedW t w = true := by
  cases w with
  | getStation sid => exact hg.2.1 sid h
  | getDynamic tid iid => exact hg.2.2.1 iid h
  | getType tid => exact hg.2.2.2.1 tid h
  | getMarketGroup g => exact hg.2.2.2.2.1 g h
  | getDogmaAttribute a => exact hg.2.2.2.2.2 a h
  | getHoboleaksMutators => rfl
  | getAssetsPage cid p => rfl
  | getAssetsNames ids p cid => rfl

theorem assetOk_mono {stations stations' : List (StationId × Station)}
    {dynamics dynamics' : List (ItemId × DynamicItem)}
    {types types' : List (TypeId × ItemType)} {abyssal : List TypeId}
    {em em' : List AssetsWorkType}
    (hs : ∀ k, Rmap.contains stations k = true →
      Rmap.contains stations' k = true)
    (hd : ∀ k, Rmap.contains dynamics k = true →
      Rmap.contains dynamics' k = true)
    (ht : ∀ k, Rmap.contains types k = true → Rmap.contains types' k = true)
    (he : ∀ x ∈ em, x ∈ em') {a : AssetItem}
    (h : AssetOk stations dynamics types abyssal em a) :
    AssetOk stations' dynamics' types' abyssal em' a := by
  obtain ⟨h1, h2, h3⟩ := h
  refine ⟨?_, ?_, ?_⟩
  · intro hon
    rcases h1 hon with hc | hm
    · exact Or.inl (hs _ hc)
    · exact Or.inr (he _ hm)
  · intro habs
    rcases h2 habs with hc | hm
    · exact Or.inl (hd _ hc)
    · exact Or.inr (he _ hm)
  · rcases h3 with hc | hm
    · exact Or.inl (ht _ hc)
    · exact Or.inr (he _ hm)

theorem dynOk_mono {types types' : List (TypeId × ItemType)}
    {dogma dogma' : List (DogmaAttributeId × DogmaAttribute)}
    {em em' : List AssetsWorkType}
    (ht : ∀ k, Rmap.contains types k = true → Rmap.contains types' k = true)
    (hg : ∀ k, Rmap.contains dogma k = true → Rmap.contains dogma' k = true)
    (he : ∀ x ∈ em, x ∈ em') {d : DynamicItem}
    (h : DynOk types dogma em d) : DynOk types' dogma' em' d := by
  obtain ⟨h1, h2, h3⟩ := h
  refine ⟨?_, ?_, ?_⟩
  · intro attr hattr
    rcases h1 attr hattr with hc | hm
    · exact Or.inl (hg _ hc)
    · exact Or.inr (he _ hm)
  · rcases h2 with hc | hm
    · exact Or.inl (ht _ hc)
    · exact Or.inr (he _ hm)
  · rcases h3 with hc | hm
    · exact Or.inl (ht _ hc)
    · exact Or.inr (he _ hm)

theorem typeOk_mono {mgs mgs' : List (MarketGroupId × MarketGroup)}
    {em em' : List AssetsWorkType}
    (hm : ∀ k, Rmap.contains mgs k = true → Rmap.contains mgs' k = true)
    (he : ∀ x ∈ em, x ∈ em') {it : ItemType}
    (h : TypeOk mgs em it) : TypeOk mgs' em' it := by
  intro g hg
  rcases h g hg with hc | hmem
  · exact Or.inl (hm _ hc)
  · exact Or.inr (he _ hmem)

theorem storeInv_mono_em {s : CharacterAssets} {em em' : List AssetsWorkType}
    (he : ∀ x ∈ em, x ∈ em') (h : StoreInv s em) : StoreInv s em' :=
  ⟨fun p hp => assetOk_mono (fun _ h => h) (fun _ h => h) (fun _ h => h) he
      (h.1 p hp),
    fun p hp => dynOk_mono (fun _ h => h) (fun _ h => h) he (h.2.1 p hp),
    fun p hp => typeOk_mono (fun _ h => h) he (h.2.2 p hp)⟩

theorem storeInv_tables_congr {s t : CharacterAssets}
    {em : List AssetsWorkType}
    (h1 : t.assets = s.assets) (h2 : t.stations = s.stations)
    (h3 : t.dynamics = s.dynamics) (h4 : t.types = s.types)
    (h5 : t.market_groups = s.market_groups)
    (h6 : t.dogma_attributes = s.dogma_attributes)
    (h7 : t.abyssal_items = s.abyssal_items)
    (h : StoreInv s em) : StoreInv t em := by
  unfold StoreInv
  rw [h1, h2, h3, h4, h5, h6, h7]
  exact h

theorem add_asset_inv {s : CharacterAssets} {em : List AssetsWorkType}
    (a : AssetItem) (h : StoreInv s em) :
    StoreInv (CharacterAssets.add_asset s a).1
      (em ++ ((CharacterAssets.add_asset s a).2.map get_data_to_work_type)) := by
  obtain ⟨hA, hD, hT⟩ := h
  refine ⟨?_, ?_, ?_⟩
  · intro p hp
    rcases Rmap.mem_of_insert s.assets a.item_id a p hp with rfl | hp'
    · obtain ⟨c1, c2, c3⟩ :=
        Db.assetNewItems_covers s.stations s.dynamics s.types s.abyssal_items a
      refine ⟨?_, ?_, ?_⟩
      · intro hon
        rcases c1 hon with hc | hm
        · exact Or.inl hc
        · exact Or.inr (List.mem_append_right _
            (List.mem_map_of_mem get_data_to_work_type hm))
      · intro habs
        rcases c2 habs with hc | hm
        · exact Or.inl hc
        · exact Or.inr (List.mem_append_right _
            (List.mem_map_of_mem get_data_to_work_type hm))
      · rcases c3 with hc | hm
        · exact Or.inl hc
        · exact Or.inr (List.mem_append_right _
            (List.mem_map_of_mem get_data_to_work_type hm))
    · exact assetOk_mono (fun _ h => h) (fun _ h => h) (fun _ h => h)
        (fun x hx => List.mem_append_left _ hx) (hA p hp')
  · intro p hp
    exact dynOk_mono (fun _ h => h) (fun _ h => h)
      (fun x hx => List.mem_append_left _ hx) (hD p hp)
  · intro p hp
    exact typeOk_mono (fun _ h => h)
      (fun x hx => List.mem_append_left _ hx) (hT p hp)

theorem add_dynamic_inv {s : CharacterAssets} {em : List AssetsWorkType}
    (t : TypeId) (i : ItemId) (d : DynamicItem) (h : StoreInv s em) :
    StoreInv (CharacterAssets.add_dynamic s t i d).1
      (em ++
        ((CharacterAssets.add_dynamic s t i d).2.map get_data_to_work_type)) := by
  obtain ⟨hA, hD, hT⟩ := h
  refine ⟨?_, ?_, ?_⟩
  · intro p hp
    exact assetOk_mono (fun _ h => h)
      (fun k hk => Rmap.contains_insert_of _ _ _ _ hk) (fun _ h => h)
      (fun x hx => List.mem_append_left _ hx) (hA p hp)
  · intro p hp
    rcases Rmap.mem_of_insert s.dynamics i d p hp with rfl | hp'
    · obtain ⟨c1, c2, c3⟩ :=
        Db.dynamicNewItems_covers s.dogma_attributes s.types d
      refine ⟨?_, ?_, ?_⟩
      · intro attr hattr
        rcases c1 attr hattr with hc | hm
        · exact Or.inl hc
        · exact Or.inr (List.mem_append_right _
            (List.mem_map_of_mem get_data_to_work_type hm))
      · rcases c2 with hc | hm
        · exact Or.inl hc
        · exact Or.inr (List.mem_append_right _
            (List.mem_map_of_mem get_data_to_work_type hm))
      · rcases c3 with hc | hm
        · exact Or.inl hc
        · exact Or.inr (List.mem_append_right _
            (List.mem_map_of_mem get_data_to_work_type hm))
    · exact dynOk_mono (fun _ h => h) (fun _ h => h)
        (fun x hx => List.mem_append_left _ hx) (hD p hp')
  · intro p hp
    exact typeOk_mono (fun _ h => h)
      (fun x hx => List.mem_append_left _ hx) (hT p hp)

theorem add_type_inv {s : CharacterAssets} {em : List AssetsWorkType}
    (it : ItemType) (h : StoreInv s em) :
    StoreInv (CharacterAssets.add_type s it).1
      (em ++ ((CharacterAssets.add_type s it).2.map get_data_to_work_type)) := by
  obtain ⟨hA, hD, hT⟩ := h
  refine ⟨?_, ?_, ?_⟩
  · intro p hp
    exact assetOk_mono (fun _ h => h) (fun _ h => h)
      (fun k hk => Rmap.contains_insert_of _ _ _ _ hk)
      (fun x hx => List.mem_append_left _ hx) (hA p hp)
  · intro p hp
    exact dynOk_mono (fun k hk => Rmap.contains_insert_of _ _ _ _ hk)
      (fun _ h => h) (fun x hx => List.mem_append_left _ hx) (hD p hp)
  · intro p hp
    rcases Rmap.mem_of_insert s.types it.type_id it p hp with rfl | hp'
    · intro g hg
      rcases Db.typeNewItems_covers s.market_groups it g hg with hc | hm
      · exact Or.inl hc
      · exact Or.inr (List.mem_append_right _
          (List.mem_map_of_mem get_data_to_work_type hm))
    · exact typeOk_mono (fun _ h => h)
        (fun x hx => List.mem_append_left _ hx) (hT p hp')

theorem add_market_group_inv {s : CharacterAssets} {em : List AssetsWorkType}
    (mg : MarketGroup) (h : StoreInv s em) :
    StoreInv (CharacterAssets.add_market_group s mg).1
      (em ++
        ((CharacterAssets.add_market_group s mg).2.map get_data_to_work_type)) := by
  obtain ⟨hA, hD, hT⟩ := h
  refine ⟨?_, ?_, ?_⟩
  · intro p hp
    exact assetOk_mono (fun _ h => h) (fun _ h => h) (fun _ h => h)
      (fun x hx => List.mem_append_left _ hx) (hA p hp)
  · intro p hp
    exact dynOk_mono (fun _ h => h) (fun _ h => h)
      (fun x hx => List.mem_append_left _ hx) (hD p hp)
  · intro p hp
    exact typeOk_mono (fun k hk => Rmap.contains_insert_of _ _ _ _ hk)
      (fun x hx => List.mem_append_left _ hx) (hT p hp)

theorem add_station_inv {s : CharacterAssets} {em : List AssetsWorkType}
    (sid : StationId) (st : Station) (h : StoreInv s em) :
    StoreInv (CharacterAssets.add_station s sid st).1
      (em ++
        ((CharacterAssets.add_station s sid st).2.map get_data_to_work_type)) := by
  obtain ⟨hA, hD, hT⟩ := h
  refine ⟨?_, ?_, ?_⟩
  · intro p hp
    exact assetOk_mono (fun k hk => Rmap.contains_insert_of _ _ _ _ hk)
      (fun _ h => h) (fun _ h => h)
      (fun x hx => List.mem_append_left _ hx) (hA p hp)
  · intro p hp
    exact dynOk_mono (fun _ h => h) (fun _ h => h)
      (fun x hx => List.mem_append_left _ hx) (hD p hp)
  · intro p hp
    exact typeOk_mono (fun _ h => h)
      (fun x hx => List.mem_append_left _ hx) (hT p hp)

theorem add_dogma_attribute_inv {s : CharacterAssets}
    {em : List AssetsWorkType} (da : DogmaAttribute) (h : StoreInv s em) :
    StoreInv (CharacterAssets.add_dogma_attribute s da).1
      (em ++
        ((CharacterAssets.add_dogma_attribute s da).2.map
          get_data_to_work_type)) := by
  obtain ⟨hA, hD, hT⟩ := h
  refine ⟨?_, ?_, ?_⟩
  · intro p hp
    exact assetOk_mono (fun _ h => h) (fun _ h => h) (fun _ h => h)
      (fun x hx => List.mem_append_left _ hx) (hA p hp)
  · intro p hp
    exact dynOk_mono (fun _ h => h)
      (fun k hk => Rmap.contains_insert_of _ _ _ _ hk)
      (fun x hx => List.mem_append_left _ hx) (hD p hp)
  · intro p hp
    exact typeOk_mono (fun _ h => h)
      (fun x hx => List.mem_append_left _ hx) (hT p hp)

theorem applyAssets_inv (l : List AssetItem) :
    ∀ (s : CharacterAssets) (em : List AssetsWorkType), StoreInv s em →
      StoreInv (applyAssets s l).1 (em ++ (applyAssets s l).2) := by
  induction l with
  | nil =>
    intro s em h
    simp only [applyAssets]
    rw [List.append_nil]
    exact h
  | cons a rest ih =>
    intro s em h
    simp only [applyAssets]
    have h2 := ih _ _ (add_asset_inv a h)
    refine storeInv_mono_em ?_ h2
    intro x hx
    rw [List.append_assoc] at hx
    exact hx

theorem handle_inv {s : CharacterAssets} {em : List AssetsWorkType}
    (r : AssetsWorkResult) (h : StoreInv s em) :
    StoreInv (handle s r).1 (em ++ (handle s r).2) := by
  cases r with
  | hoboleaksMutators data =>
      obtain ⟨h1, h2, h3, h4, h5, h6, h7⟩ := applyMutators_tables data s
      simp only [handle]
      exact storeInv_tables_congr h1 h2 h3 h4 h5 h6 h7
        (storeInv_mono_em (fun x hx => List.mem_append_left _ hx) h)
  | assetsPage character_id page total_pages assets =>
      simp only [handle]
      refine storeInv_mono_em ?_ (applyAssets_inv assets s em h)
      intro x hx
      rcases List.mem_append.mp hx with hx | hx
      · exact List.mem_append_left _ hx
      · exact List.mem_append_right _
          (List.mem_append_left _ (List.mem_append_left _ hx))
  | assetsNames character_id page assets_names =>
      simp only [handle]
      rw [applyNames_eq]
      exact storeInv_tables_congr rfl rfl rfl rfl rfl rfl rfl
        (storeInv_mono_em (fun x hx => List.mem_append_left _ hx) h)
  | dynamic type_id item_id dyn =>
      simp only [handle]
      exact add_dynamic_inv type_id item_id dyn h
  | itemType type_id item_type =>
      simp only [handle]
      exact add_type_inv item_type h
  | marketGroup market_group_id market_group =>
      simp only [handle]
      exact add_market_group_inv market_group h
  | station station_id st =>
      simp only [handle]
      exact add_station_inv station_id st h
  | dogmaAttribute dogma_attribute_id dogma_attribute =>
      simp only [handle]
      exact add_dogma_attribute_inv dogma_attribute h

theorem run_inv (rs : List AssetsWorkResult) :
    ∀ (s : CharacterAssets) (em : List AssetsWorkType), StoreInv s em →
      StoreInv (runStore s rs) (em ++ runEmitted s rs) := by
  induction rs with
  | nil =>
    intro s em h
    simp only [runStore, runEmitted]
    rw [List.append_nil]
    exact h
  | cons r rest ih =>
    intro s em h
    simp only [runStore, runEmitted]
    have h2 := ih _ _ (handle_inv r h)
    refine storeInv_mono_em ?_ h2
    intro x hx
    rw [List.append_assoc] at hx
    exact hx

theorem runStore_append (l1 : List AssetsWorkResult) :
    ∀ (s : CharacterAssets) (l2 : List AssetsWorkResult),
      runStore s (l1 ++ l2) = runStore (runStore s l1) l2 := by
  induction l1 with
  | nil => intro s l2; rfl
  | cons r rest ih =>
    intro s l2
    simp only [List.cons_append, runStore]
    exact ih _ _

theorem establishes_satisfied {r : AssetsWorkResult} {w : AssetsWorkType}
    (h : establishes r w = true) (s : CharacterAssets) :
    satisfiedW (handle s r).1 w = true := by
  cases r with
  | hoboleaksMutators data =>
      cases w <;> simp_all [establishes, satisfiedW]
  | assetsPage character_id page total_pages assets =>
      cases w <;> simp_all [establishes, satisfiedW]
  | assetsNames character_id page assets_names =>
      cases w <;> simp_all [establishes, satisfiedW]
  | dynamic type_id item_id dyn =>
      cases w <;> simp_all [establishes, satisfiedW, handle,
        CharacterAssets.add_dynamic, Rmap.contains_insert]
  | itemType type_id item_type =>
      cases w <;> simp_all [establishes, satisfiedW, handle,
        CharacterAssets.add_type, Rmap.contains_insert]
  | marketGroup market_group_id market_group =>
      cases w <;> simp_all [establishes, satisfiedW, handle,
        CharacterAssets.add_market_group, Rmap.contains_insert]
  | station station_id st =>
      cases w <;> simp_all [establishes, satisfiedW, handle,
        CharacterAssets.add_station, Rmap.contains_insert]
  | dogmaAttribute dogma_attribute_id dogma_attribute =>
      cases w <;> simp_all [establishes, satisfiedW, handle,
        CharacterAssets.add_dogma_attribute, Rmap.contains_insert]

theorem run_establishes_satisfied (rs : List AssetsWorkResult)
    (s : CharacterAssets) {w : AssetsWorkType} {r : AssetsWorkResult}
    (hr : r ∈ rs) (h : establishes r w = true) :
    satisfiedW (runStore s rs) w = true := by
  obtain ⟨l1, l2, rfl⟩ := List.append_of_mem hr
  rw [runStore_append]
  simp only [runStore]
  exact satisfiedW_mono (grows_run l2 _) w (establishes_satisfied h _)

theorem storeInv_harvest (f : CharacterAssets) (em : List AssetsWorkType)
    (hinv : StoreInv f em) (hsat : ∀ w ∈ em, satisfiedW f w = true) :
    CharacterAssets.all_items_resolved f = true := by
  obtain ⟨hA, hD, hT⟩ := hinv
  unfold CharacterAssets.all_items_resolved
  rw [Bool.and_eq_true, List.all_eq_true, List.all_eq_true]
  constructor
  · intro p hp
    obtain ⟨c1, c2, c3⟩ := hA p hp
    have hty : Rmap.contains f.types p.2.type_id = true := by
      rcases c3 with hc | hm
      · exact hc
      · exact hsat _ hm
    have hchain : ∀ tid, Rmap.contains f.types tid = true →
        (match Rmap.find? f.types tid with
          | none => false
          | some it =>
              match it.market_group_id with
              | some g => Rmap.contains f.market_groups g
              | none => true) = true := by
      intro tid hc
      obtain ⟨it, hit⟩ := Rmap.contains_ex f.types tid hc
      have hTit := hT (tid, it) (Rmap.find?_mem_of f.types tid it hit)
      simp only [hit]
      cases hmg : it.market_group_id with
      | none => simp [hmg]
      | some g =>
          simp only [hmg]
          rcases hTit g hmg with hcg | hmem
          · exact hcg
          · exact hsat _ hmem
    rw [Bool.and_eq_true]
    constructor
    · by_cases hon : CharacterAssets.is_on_station p.2 = true
      · rcases c1 hon with hc | hm
        · simp [hon, hc]
        · have hc := hsat _ hm
          simp only [satisfiedW] at hc
          simp [hon, hc]
      · simp [Bool.not_eq_true] at hon
        simp [hon]
    · by_cases habs : CharacterAssets.is_abyssal f p.2 = true
      · have habs' : p.2.type_id ∈ f.abyssal_items := by
          simpa [CharacterAssets.is_abyssal] using habs
        have hdc : Rmap.contains f.dynamics p.2.item_id = true := by
          rcases c2 habs' with hc | hm
          · exact hc
          · exact hsat _ hm
        obtain ⟨d, hd⟩ := Rmap.contains_ex f.dynamics p.2.item_id hdc
        have hDd := hD (p.2.item_id, d)
          (Rmap.find?_mem_of f.dynamics p.2.item_id d hd)
        have hsty : Rmap.contains f.types d.source_type_id = true := by
          rcases hDd.2.1 with hc | hm
          · exact hc
          · exact hsat _ hm
        have := hchain d.source_type_id hsty
        simp only [habs, if_pos, hd, Option.map_some]
        exact this
      · simp only [Bool.not_eq_true] at habs
        have := hchain p.2.type_id hty
        simp only [habs, Bool.false_eq_true, if_false]
        exact this
  · intro p hp
    rw [List.all_eq_true]
    intro attr hattr
    rcases (hD p hp).1 attr hattr with hc | hm
    · exact hc
    · exact hsat _ hm

/-- **C2.** For every finite, successfully terminating saga run — every
fetched result applied in order via the processor's `handle`, and every work
type the processor produced resolved by some result of the run whose payload
answers that key — the store predicate `all_items_resolved` holds at
termination. -/
theorem saga_closure_all_items_resolved
    (abyssal : List TypeId) (rs : List AssetsWorkResult)
    (hres : ∀ w ∈ runEmitted (CharacterAssets.new abyssal) rs,
      ∃ r ∈ rs, establishes r w = true) :
    CharacterAssets.all_items_resolved
      (runStore (CharacterAssets.new abyssal) rs) = true := by
  have hbase : StoreInv (CharacterAssets.new abyssal) [] := by
    refine ⟨?_, ?_, ?_⟩ <;> intro p hp <;> simp [CharacterAssets.new] at hp
  have hinv := run_inv rs _ _ hbase
  rw [List.nil_append] at hinv
  refine storeInv_harvest _ _ hinv ?_
  intro w hw
  obtain ⟨r, hr, hest⟩ := hres w hw
  exact run_establishes_satisfied rs _ hr hest

/-- A concrete terminating run (one empty assets page, then its names
result): the closure theorem applies and the final store is fully resolved. -/
theorem saga_closure_all_items_resolved_witness :
    CharacterAssets.all_items_resolved
      (runStore (CharacterAssets.new [])
        [AssetsWorkResult.assetsPage 7 1 1 [],
          AssetsWorkResult.assetsNames 7 1 []]) = true :=
  saga_closure_all_items_resolved []
    [AssetsWorkResult.assetsPage 7 1 1 [],
      AssetsWorkResult.assetsNames 7 1 []]
    (by decide)

/-- **C9 (amended).** Applying the same work result twice in succession via
`handle` yields the same store state as applying it once: every branch of
`handle` only overwrites map entries (`Rmap.insert` at the same key, the
`Rset`/`Rmap.insertIfAbsent` additions of `add_mutaplasmid_effects`), so a
second application is a no-op on the store.  (The second application's new
work list is NOT always empty — see the counterexample — so only the state
half of the original claim holds.) -/
theorem handle_state_idempotent (s : CharacterAssets) (r : AssetsWorkResult) :
    (handle (handle s r).1 r).1 = (handle s r).1 := by
  cases r with
  | hoboleaksMutators data =>
      simp only [handle]
      exact applyMutators_noop data _ (applyMutators_establishes data s)
  | assetsPage character_id page total_pages assets =>
      simp only [handle]
      rw [applyAssets_fst assets s, applyAssets_fst assets]
      show ({ s with
        assets :=
          Rmap.insertList
            (Rmap.insertList s.assets (assets.map (fun a => (a.item_id, a))))
            (assets.map (fun a => (a.item_id, a))) } : CharacterAssets) = _
      rw [Rmap.insertList_idem]
  | assetsNames character_id page assets_names =>
      simp only [handle]
      rw [applyNames_eq assets_names s, applyNames_eq assets_names]
      show ({ s with
        assets_names :=
          Rmap.insertList
            (Rmap.insertList s.assets_names
              (assets_names.map (fun n => (n.item_id, n.name))))
            (assets_names.map (fun n => (n.item_id, n.name))) } :
          CharacterAssets) = _
      rw [Rmap.insertList_idem]
  | dynamic type_id item_id dyn =>
      simp only [handle, CharacterAssets.add_dynamic]
      show ({ s with
        dynamics :=
          Rmap.insert (Rmap.insert s.dynamics item_id dyn) item_id dyn } :
          CharacterAssets) = _
      rw [Rmap.insert_insert_same_key]
  | itemType type_id item_type =>
      simp only [handle, CharacterAssets.add_type]
      show ({ s with
        types :=
          Rmap.insert (Rmap.insert s.types item_type.type_id item_type)
            item_type.type_id item_type } : CharacterAssets) = _
      rw [Rmap.insert_insert_same_key]
  | marketGroup market_group_id market_group =>
      simp only [handle, CharacterAssets.add_market_group]
      show ({ s with
        market_groups :=
          Rmap.insert
            (Rmap.insert s.market_groups market_group.market_group_id
              market_group)
            market_group.market_group_id market_group } : CharacterAssets) = _
      rw [Rmap.insert_insert_same_key]
  | station station_id st =>
      simp only [handle, CharacterAssets.add_station]
      show ({ s with
        stations :=
          Rmap.insert (Rmap.insert s.stations station_id st) station_id st } :
          CharacterAssets) = _
      rw [Rmap.insert_insert_same_key]
  | dogmaAttribute dogma_attribute_id dogma_attribute =>
      simp only [handle, CharacterAssets.add_dogma_attribute]
      show ({ s with
        dogma_attributes :=
          Rmap.insert
            (Rmap.insert s.dogma_attributes dogma_attribute.attribute_id
              dogma_attribute)
            dogma_attribute.attribute_id dogma_attribute,
        dogma_attributes_name_to_id :=
          Rmap.insert
            (Rmap.insert s.dogma_attributes_name_to_id
              (dogma_attribute.name.getD
                ("attribute_" ++ toString dogma_attribute.attribute_id))
              dogma_attribute.attribute_id)
            (dogma_attribute.name.getD
              ("attribute_" ++ toString dogma_attribute.attribute_id))
            dogma_attribute.attribute_id } : CharacterAssets) = _
      rw [Rmap.insert_insert_same_key, Rmap.insert_insert_same_key]

/-- The store the C9 counterexample starts from. -/
def c9Store : CharacterAssets := CharacterAssets.new []

/-- **C9 counterexample.** Applying the same `AssetsPage` result a second
time returns a NON-empty list of new work items: the branch unconditionally
re-emits the `GetAssetsNames` follow-up (and, for page 1, the other pages),
refuting "the second application returns an empty list of new work items". -/
theorem second_apply_emits_again :
    (handle (handle c9Store (.assetsPage 7 1 1 [])).1
        (.assetsPage 7 1 1 [])).2 =
      [AssetsWorkType.getAssetsNames [] 1 7] ∧
    (handle (handle c9Store (.assetsPage 7 1 1 [])).1
        (.assetsPage 7 1 1 [])).2 ≠ ([] : List AssetsWorkType) :=
  ⟨rfl, by decide⟩

end SagaAssets

/-! ## Rate limiting (src/ratelimit.rs, src/ringbuffer.rs)

Times and durations are nanosecond counts (`Nat`); the Rust `Duration`
arithmetic here (add, saturating-free sub on checked values, div by a `u32`,
`%`) is exact nanosecond arithmetic.  `slot_at` divides by `slot_size`, which
panics in Rust when `slot_size == 0` (i.e. `interval < 20`); the theorems
below hypothesise `0 < slot_size`.  `Vec::with_capacity` is modelled as a
buffer of exactly the requested capacity. -/

namespace Rl

/-- `ringbuffer::RingBuffer` (`data` plus the wrap index `end`). -/
structure RingBuffer (T : Type) where
  cap : Nat
  data : List T
  e : Nat
  deriving Repr

namespace RingBuffer

variable {T : Type}

def with_capacity (cap : Nat) : RingBuffer T :=
  ⟨cap, [], 0⟩

/-- `RingBuffer::push`. -/
def push (rb : RingBuffer T) (value : T) : RingBuffer T :=
  if rb.data.length = rb.cap then
    { rb with data := rb.data.set rb.e value, e := (rb.e + 1) % rb.cap }
  else
    { rb with data := rb.data ++ [value] }

/-- `RingBuffer::last_index`. -/
def last_index (rb : RingBuffer T) : Option Nat :=
  if 0 < rb.data.length then
    some ((rb.data.length + rb.e - 1) % rb.cap)
  else none

/-- `RingBuffer::last`. -/
def last (rb : RingBuffer T) : Option T :=
  (rb.last_index).bind (fun i => rb.data.get? i)

/-- `RingBuffer::set_last`. -/
def set_last (rb : RingBuffer T) (value : T) : RingBuffer T :=
  match rb.last_index with
  | some i => { rb with data := rb.data.set i value }
  | none => rb

/-- `RingBuffer::iter`: the two halves around `end`, each reversed —
newest element first. -/
def iter (rb : RingBuffer T) : List T :=
  (rb.data.take rb.e).reverse ++ (rb.data.drop rb.e).reverse

/-- Shape invariant of every buffer reachable from `with_capacity`. -/
def WF (rb : RingBuffer T) : Prop :=
  0 < rb.cap ∧ rb.data.length ≤ rb.cap ∧
    (rb.data.length < rb.cap → rb.e = 0) ∧
    (rb.data.length = rb.cap → rb.e < rb.cap)

end RingBuffer

/-- `ratelimit::CAP`. -/
def CAP : Nat := 20

/-- `ratelimit::Slot`. -/
structure Slot where
  from' : Nat
  hits : Nat
  deriving DecidableEq, Repr

/-- `ratelimit::Ratelimit`. -/
structure Ratelimit where
  data : RingBuffer Slot
  interval : Nat
  slot_size : Nat
  limit : Nat
  deriving Repr

namespace Ratelimit

/-- `Ratelimit::new`. -/
def new (interval limit : Nat) : Ratelimit :=
  { interval := interval
    slot_size := interval / CAP
    data := RingBuffer.with_capacity (CAP + 1)
    limit := limit }

/-- `Ratelimit::slot_at` (start of the bucket containing `t`). -/
def slot_at (r : Ratelimit) (t : Nat) : Nat :=
  t - t % r.slot_size

/-- The `for slot in self.data.iter()` loop of `can_hit_at`. -/
def canHitLoop (interval slot_size limit t slotAt : Nat) :
    List Slot → Nat → Option Nat
  | [], _ => none
  | slot :: rest, s =>
      if slot.from' + interval < slotAt then none
      else
        if limit ≤ s + slot.hits then
          some (slot.from' + interval + slot_size - t)
        else canHitLoop interval slot_size limit t slotAt rest (s + slot.hits)

/-- `Ratelimit::can_hit_at`. -/
def can_hit_at (r : Ratelimit) (t : Nat) : Option Nat :=
  canHitLoop r.interval r.slot_size r.limit t (r.slot_at t)
    (RingBuffer.iter r.data) 0

/-- `Ratelimit::hit_at`. -/
def hit_at (r : Ratelimit) (t : Nat) : Ratelimit :=
  let slot_from := r.slot_at t
  match RingBuffer.last r.data with
  | some v =>
      if v.from' = slot_from then
        { r with data := RingBuffer.set_last r.data ⟨slot_from, v.hits + 1⟩ }
      else { r with data := RingBuffer.push r.data ⟨slot_from, 1⟩ }
  | none => { r with data := RingBuffer.push r.data ⟨slot_from, 1⟩ }

end Ratelimit

/-- Rust `Option<Duration>` max: `None` is smaller than every `Some`. -/
def maxOpt : Option Nat → Option Nat → Option Nat
  | none, b => b
  | a, none => a
  | some a, some b => some (max a b)

/-- `Iterator::max` over the mapped options: `none` only for the empty list. -/
def listMaxOpt : List (Option Nat) → Option (Option Nat)
  | [] => none
  | x :: rest =>
      match listMaxOpt rest with
      | none => some x
      | some m => some (maxOpt x m)

/-- `ratelimit::RatelimitGroup`. -/
structure RatelimitGroup where
  ratelimits : List Ratelimit

/-- `RatelimitGroup::hit_at`: defer with the max wait if any window defers,
otherwise record the hit on every window. -/
def RatelimitGroup.hit_at (g : RatelimitGroup) (t : Nat) :
    RatelimitGroup × Option Nat :=
  match listMaxOpt (g.ratelimits.map (fun v => Ratelimit.can_hit_at v t)) with
  | none => (g, none)
  | some res =>
      if res = none then
        (⟨g.ratelimits.map (fun r => Ratelimit.hit_at r t)⟩, none)
      else (g, res)

theorem listMaxOpt_eq_none_iff (l : List (Option Nat)) :
    listMaxOpt l = none ↔ l = [] := by
  cases l with
  | nil => simp [listMaxOpt]
  | cons x rest =>
      simp only [listMaxOpt]
      cases listMaxOpt rest <;> simp

theorem maxOpt_none_left (b : Option Nat) : maxOpt none b = b := by
  cases b <;> rfl

theorem maxOpt_none_right (a : Option Nat) : maxOpt a none = a := by
  cases a <;> rfl

theorem maxOpt_eq_or (a b : Option Nat) : maxOpt a b = a ∨ maxOpt a b = b := by
  cases a with
  | none => exact Or.inr (maxOpt_none_left b)
  | some a' =>
      cases b with
      | none => exact Or.inl (maxOpt_none_right _)
      | some b' =>
          rcases max_choice a' b' with h | h
          · exact Or.inl (by simp [maxOpt, h])
          · exact Or.inr (by simp [maxOpt, h])

theorem listMaxOpt_mem (l : List (Option Nat)) :
    ∀ m : Option Nat, listMaxOpt l = some m → m ∈ l := by
  induction l with
  | nil => intro m h; simp [listMaxOpt] at h
  | cons x rest ih =>
    intro m h
    simp only [listMaxOpt] at h
    cases hr : listMaxOpt rest with
    | none =>
        rw [hr] at h
        simp at h
        simp [h]
    | some m' =>
        rw [hr] at h
        simp at h
        rcases maxOpt_eq_or x m' with he | he
        · rw [he] at h
          simp [← h]
        · rw [he] at h
          exact List.mem_cons_of_mem _ (h ▸ ih m' hr)

theorem listMaxOpt_none_all (l : List (Option Nat))
    (h : listMaxOpt l = some none) : ∀ x ∈ l, x = none := by
  induction l with
  | nil => intro x hx; simp at hx
  | cons y rest ih =>
    intro x hx
    simp only [listMaxOpt] at h
    cases hr : listMaxOpt rest with
    | none =>
        rw [hr] at h
        simp at h
        rw [listMaxOpt_eq_none_iff] at hr
        subst hr
        rcases List.mem_cons.mp hx with rfl | hx'
        · exact h
        · simp at hx'
    | some m' =>
        rw [hr] at h
        simp at h
        have hy : y = none ∧ m' = none := by
          cases y with
          | none =>
              cases m' with
              | none => exact ⟨rfl, rfl⟩
              | some b => rw [maxOpt_none_left] at h; exact absurd h (by simp)
          | some a =>
              cases m' with
              | none => rw [maxOpt_none_right] at h; exact absurd h (by simp)
              | some b => simp [maxOpt] at h
        rcases List.mem_cons.mp hx with rfl | hx'
        · exact hy.1
        · exact ih (by rw [hr, hy.2]) x hx'

theorem listMaxOpt_all_none (l : List (Option Nat)) (hne : l ≠ [])
    (h : ∀ x ∈ l, x = none) : listMaxOpt l = some none := by
  induction l with
  | nil => exact absurd rfl hne
  | cons y rest ih =>
    have hy : y = none := h y (List.mem_cons_self y rest)
    simp only [listMaxOpt]
    cases hr : listMaxOpt rest with
    | none => simp [hy]
    | some m' =>
        have hrest : rest ≠ [] := by
          intro hcon
          rw [hcon] at hr
          simp [listMaxOpt] at hr
        have := ih hrest (fun x hx => h x (List.mem_cons_of_mem _ hx))
        rw [hr] at this
        simp at this
        simp [hy, this, maxOpt_none_left]

theorem listMaxOpt_ub (l : List (Option Nat)) :
    ∀ m : Option Nat, listMaxOpt l = some m →
      ∀ x ∈ l, ∀ w', x = some w' → ∃ w, m = some w ∧ w' ≤ w := by
  induction l with
  | nil => intro m _ x hx; simp at hx
  | cons y rest ih =>
    intro m h x hx w' hw'
    simp only [listMaxOpt] at h
    cases hr : listMaxOpt rest with
    | none =>
        rw [hr] at h
        simp at h
        rw [listMaxOpt_eq_none_iff] at hr
        subst hr
        rcases List.mem_cons.mp hx with rfl | hx'
        · exact ⟨w', by rw [← h, hw'], le_refl w'⟩
        · simp at hx'
    | some m' =>
        rw [hr] at h
        simp at h
        rcases List.mem_cons.mp hx with rfl | hx'
        · subst hw'
          cases m' with
          | none =>
              exact ⟨w', by rw [← h, maxOpt_none_right], le_refl w'⟩
          | some b => exact ⟨max w' b, by rw [← h]; rfl, le_max_left w' b⟩
        · obtain ⟨w, hw, hle⟩ := ih m' hr x hx' w' hw'
          subst hw
          cases y with
          | none =>
              exact ⟨w, by rw [← h, maxOpt_none_left], hle⟩
          | some a =>
              exact ⟨max a w, by rw [← h]; rfl,
                le_trans hle (le_max_right a w)⟩

/-- **C7.** `RatelimitGroup::hit_at` admits exactly when every constituent
window admits; on admission every window records the hit (no partial
admission), and on deferral the group is unchanged and the returned wait is
the maximum of the constituent waits. -/
theorem group_admits_iff_all_admit (g : RatelimitGroup) (t : Nat) :
    ((g.hit_at t).2 = none ↔
      ∀ r ∈ g.ratelimits, r.can_hit_at t = none) ∧
    ((g.hit_at t).2 = none →
      (g.hit_at t).1.ratelimits =
        g.ratelimits.map (fun r => r.hit_at t)) ∧
    (∀ w, (g.hit_at t).2 = some w →
      (g.hit_at t).1 = g ∧
      (∃ r ∈ g.ratelimits, r.can_hit_at t = some w) ∧
      (∀ r ∈ g.ratelimits, ∀ w', r.can_hit_at t = some w' → w' ≤ w)) := by
  unfold RatelimitGroup.hit_at
  cases hmax : listMaxOpt (g.ratelimits.map (fun v => Ratelimit.can_hit_at v t)) with
  | none =>
      rw [listMaxOpt_eq_none_iff, List.map_eq_nil_iff] at hmax
      refine ⟨?_, ?_, ?_⟩
      · simp [hmax]
      · intro _
        simp [hmax]
      · intro w hw
        simp at hw
  | some res =>
      by_cases hres : res = none
      · subst hres
        simp only [if_pos rfl]
        refine ⟨?_, ?_, ?_⟩
        · constructor
          · intro _ r hr
            have := listMaxOpt_none_all _ hmax (r.can_hit_at t)
              (List.mem_map_of_mem _ hr)
            exact this
          · intro _
            rfl
        · intro _
          rfl
        · intro w hw
          simp at hw
      · simp only [if_neg hres]
        refine ⟨?_, ?_, ?_⟩
        · constructor
          · intro hcon
            exact absurd hcon hres
          · intro hall
            have hne : g.ratelimits.map (fun v => Ratelimit.can_hit_at v t) ≠ [] := by
              intro hcon
              rw [hcon] at hmax
              simp [listMaxOpt] at hmax
            have := listMaxOpt_all_none _ hne ?_
            · rw [this] at hmax
              simp at hmax
              exact absurd hmax.symm hres
            · intro x hx
              obtain ⟨r, hr, rfl⟩ := List.mem_map.mp hx
              exact hall r hr
        · intro hcon
          exact absurd hcon hres
        · intro w hw
          refine ⟨by trivial, ?_, ?_⟩
          · obtain ⟨r, hr, hre⟩ := List.mem_map.mp (listMaxOpt_mem _ _ hmax)
            exact ⟨r, hr, hre.trans hw⟩
          · intro r hr w' hw'
            obtain ⟨w0, hw0, hle⟩ := listMaxOpt_ub _ _ hmax (r.can_hit_at t)
              (List.mem_map_of_mem _ hr) w' hw'
            have h0 : some w0 = some w := hw0.symm.trans hw
            injection h0 with h0
            rw [← h0]
            exact hle

theorem WF_with_capacity {T : Type} (cap : Nat) (h : 0 < cap) :
    RingBuffer.WF (RingBuffer.with_capacity cap : RingBuffer T) := by
  refine ⟨h, ?_, ?_, ?_⟩ <;> simp [RingBuffer.with_capacity] <;> omega

theorem WF_e_le {T : Type} {rb : RingBuffer T} (h : RingBuffer.WF rb) :
    rb.e ≤ rb.data.length := by
  obtain ⟨hcap, hlen, hlt, heq⟩ := h
  rcases Nat.lt_or_ge rb.data.length rb.cap with h' | h'
  · rw [hlt h']
    omega
  · have := heq (le_antisymm hlen h')
    omega

theorem WF_push {T : Type} {rb : RingBuffer T} (h : RingBuffer.WF rb) (v : T) :
    RingBuffer.WF (rb.push v) := by
  obtain ⟨hcap, hlen, hlt, heq⟩ := h
  unfold RingBuffer.push
  by_cases hc : rb.data.length = rb.cap
  · rw [if_pos hc]
    refine ⟨hcap, ?_, ?_, ?_⟩
    · simp [hc]
    · intro hlt'
      simp [hc] at hlt'
    · intro _
      exact Nat.mod_lt _ hcap
  · rw [if_neg hc]
    have hlt' : rb.data.length < rb.cap := lt_of_le_of_ne hlen hc
    have he := hlt hlt'
    refine ⟨hcap, ?_, fun _ => he, fun _ => ?_⟩
    · simpa using hlt'
    · rw [he]
      exact hcap

theorem WF_set_last {T : Type} {rb : RingBuffer T} (h : RingBuffer.WF rb)
    (v : T) : RingBuffer.WF (rb.set_last v) := by
  obtain ⟨hcap, hlen, hlt, heq⟩ := h
  unfold RingBuffer.set_last
  cases hidx : rb.last_index with
  | none => exact ⟨hcap, hlen, hlt, heq⟩
  | some i => exact ⟨hcap, by simpa using hlen, by simpa using hlt,
      by simpa using heq⟩

theorem iter_push {T : Type} {rb : RingBuffer T} (h : RingBuffer.WF rb)
    (hlen : rb.data.length < rb.cap) (v : T) :
    RingBuffer.iter (rb.push v) = v :: RingBuffer.iter rb := by
  have he := h.2.2.1 hlen
  unfold RingBuffer.push RingBuffer.iter
  rw [if_neg (Nat.ne_of_lt hlen)]
  simp [he, List.reverse_append]

theorem iter_push_full {T : Type} {rb : RingBuffer T} (h : RingBuffer.WF rb)
    (hlen : rb.data.length = rb.cap) (v : T) :
    RingBuffer.iter (rb.push v) = v :: (RingBuffer.iter rb).dropLast := by
  obtain ⟨hcap, hle, hlt, heq⟩ := h
  have he : rb.e < rb.data.length := hlen ▸ heq hlen
  unfold RingBuffer.push RingBuffer.iter
  rw [if_pos hlen]
  have hset : rb.data.set rb.e v =
      rb.data.take rb.e ++ v :: rb.data.drop (rb.e + 1) :=
    List.set_eq_take_cons_drop v he
  have hdrop : rb.data.drop rb.e =
      rb.data.get ⟨rb.e, he⟩ :: rb.data.drop (rb.e + 1) := by
    simpa using List.drop_eq_getElem_cons he
  have hAlen : (rb.data.take rb.e).length = rb.e := by
    simp [Nat.le_of_lt he]
  have hrhs : (rb.data.take rb.e).reverse ++ (rb.data.drop rb.e).reverse =
      ((rb.data.take rb.e).reverse ++ (rb.data.drop (rb.e + 1)).reverse) ++
        [rb.data.get ⟨rb.e, he⟩] := by
    rw [hdrop]
    simp
  by_cases hc : rb.e + 1 < rb.cap
  · have hmod : (rb.e + 1) % rb.cap = rb.e + 1 := Nat.mod_eq_of_lt hc
    simp only [hmod, hset]
    have htake : (rb.data.take rb.e ++ v :: rb.data.drop (rb.e + 1)).take
        (rb.e + 1) = rb.data.take rb.e ++ [v] := by
      rw [show rb.e + 1 = (rb.data.take rb.e).length + 1 by rw [hAlen]]
      rw [List.take_append]
      rfl
    have hdrop2 : (rb.data.take rb.e ++ v :: rb.data.drop (rb.e + 1)).drop
        (rb.e + 1) = rb.data.drop (rb.e + 1) := by
      rw [show rb.e + 1 = (rb.data.take rb.e).length + 1 by rw [hAlen]]
      rw [List.drop_append]
      rfl
    rw [htake, hdrop2, hrhs, List.dropLast_concat, List.reverse_concat']
    simp
  · have hc' : rb.e + 1 = rb.cap := by omega
    have hmod : (rb.e + 1) % rb.cap = 0 := by
      rw [hc']
      exact Nat.mod_self _
    have hB : rb.data.drop (rb.e + 1) = [] := by
      rw [hc', ← hlen]
      exact List.drop_length rb.data
    simp only [hmod, hset, hB, List.take_zero, List.reverse_nil,
      List.nil_append, List.drop_zero]
    rw [hrhs, List.dropLast_concat, List.reverse_concat', hB]
    simp

theorem last_eq_head_iter {T : Type} {rb : RingBuffer T}
    (h : RingBuffer.WF rb) :
    RingBuffer.last rb = (RingBuffer.iter rb).head? := by
  obtain ⟨hcap, hle, hlt, heq⟩ := h
  by_cases hlen0 : 0 < rb.data.length
  · have hlast : RingBuffer.last rb =
        rb.data.get? ((rb.data.length + rb.e - 1) % rb.cap) := by
      unfold RingBuffer.last RingBuffer.last_index
      rw [if_pos hlen0]
      rfl
    by_cases he0 : rb.e = 0
    · have hidx : (rb.data.length + rb.e - 1) % rb.cap = rb.data.length - 1 := by
        rw [he0]
        exact Nat.mod_eq_of_lt (by omega)
      rw [hlast, hidx]
      unfold RingBuffer.iter
      rw [he0]
      simp only [List.take_zero, List.reverse_nil, List.nil_append,
        List.drop_zero]
      rw [List.get?_eq_getElem?, List.head?_reverse, List.getLast?_eq_getElem?]
    · have hfull : rb.data.length = rb.cap := by
        by_contra hc
        exact he0 (hlt (lt_of_le_of_ne hle hc))
      have hecap := heq hfull
      have hidx : (rb.data.length + rb.e - 1) % rb.cap = rb.e - 1 := by
        rw [hfull]
        have h2 : rb.cap + rb.e - 1 = rb.cap + (rb.e - 1) := by omega
        rw [h2, Nat.add_mod_left]
        exact Nat.mod_eq_of_lt (by omega)
      rw [hlast, hidx]
      unfold RingBuffer.iter
      rw [List.head?_append]
      have he_le : rb.e ≤ rb.data.length := by omega
      have hhead : (rb.data.take rb.e).reverse.head? = rb.data[rb.e - 1]? := by
        rw [List.head?_reverse, List.getLast?_eq_getElem?]
        have h3 : (rb.data.take rb.e).length - 1 = rb.e - 1 := by
          simp [he_le]
        rw [h3]
        exact List.getElem?_take_of_lt (by omega)
      rw [hhead, List.get?_eq_getElem?]
      cases hx : rb.data[rb.e - 1]? with
      | none =>
          have h4 : rb.e - 1 < rb.data.length := by omega
          rw [List.getElem?_eq_getElem h4] at hx
          simp at hx
      | some x => simp
  · unfold RingBuffer.last RingBuffer.last_index RingBuffer.iter
    rw [if_neg hlen0]
    have hnil : rb.data = [] := List.length_eq_zero.mp (by omega)
    simp [hnil]

theorem iter_set_last {T : Type} {rb : RingBuffer T} (h : RingBuffer.WF rb)
    (s0 : T) (rest : List T) (hiter : RingBuffer.iter rb = s0 :: rest)
    (v : T) : RingBuffer.iter (rb.set_last v) = v :: rest := by
  obtain ⟨hcap, hle, hlt, heq⟩ := h
  have hlen0 : 0 < rb.data.length := by
    by_contra hc
    have hnil : rb.data = [] := List.length_eq_zero.mp (by omega)
    rw [RingBuffer.iter, hnil] at hiter
    simp at hiter
  unfold RingBuffer.set_last RingBuffer.last_index
  rw [if_pos hlen0]
  by_cases he0 : rb.e = 0
  · have hidx : (rb.data.length + rb.e - 1) % rb.cap = rb.data.length - 1 := by
      rw [he0]
      exact Nat.mod_eq_of_lt (by omega)
    simp only [hidx]
    have hiterr : rb.data.reverse = s0 :: rest := by
      rw [RingBuffer.iter, he0] at hiter
      simpa using hiter
    have hdata : rb.data = rest.reverse ++ [s0] := by
      have h5 := congrArg List.reverse hiterr
      simpa using h5
    have hlenr : rb.data.length - 1 = rest.reverse.length := by
      rw [hdata]
      simp
    rw [RingBuffer.iter]
    simp only [he0, List.take_zero, List.reverse_nil, List.nil_append,
      List.drop_zero]
    rw [hlenr, hdata]
    rw [List.set_eq_take_cons_drop v (by simp)]
    rw [List.take_left]
    have hdropnil : (rest.reverse ++ [s0]).drop (rest.reverse.length + 1) = []
        := by
      apply List.drop_eq_nil_of_le
      simp
    rw [hdropnil]
    simp
  · have hfull : rb.data.length = rb.cap := by
      by_contra hc
      exact he0 (hlt (lt_of_le_of_ne hle hc))
    have hecap := heq hfull
    obtain ⟨n, hn⟩ : ∃ n, rb.e = n + 1 := ⟨rb.e - 1, by omega⟩
    have heel : n < rb.data.length := by omega
    have hidx : (rb.data.length + rb.e - 1) % rb.cap = n := by
      rw [hfull, hn]
      have h2 : rb.cap + (n + 1) - 1 = rb.cap + n := by omega
      rw [h2, Nat.add_mod_left]
      exact Nat.mod_eq_of_lt (by omega)
    simp only [hidx]
    set A := rb.data.take n with hA
    have hlent : A.length = n := by
      rw [hA]
      simp [Nat.le_of_lt heel]
    have heA : rb.e = A.length + 1 := by omega
    have hC : rb.data.take rb.e = A ++ [rb.data.get ⟨n, heel⟩] := by
      rw [hn, List.take_succ, List.getElem?_eq_getElem heel]
      rfl
    have hset : rb.data.set n v = A ++ v :: rb.data.drop rb.e := by
      rw [List.set_eq_take_cons_drop v heel, ← hn, hA]
    have htake : (A ++ v :: rb.data.drop rb.e).take rb.e = A ++ [v] := by
      rw [heA, List.take_append]
      rfl
    have hdropg : (A ++ v :: rb.data.drop rb.e).drop rb.e =
        rb.data.drop rb.e := by
      conv in (A ++ v :: rb.data.drop rb.e).drop rb.e =>
        rw [heA]
      rw [List.drop_append]
      rw [← heA]
      rfl
    rw [RingBuffer.iter] at hiter ⊢
    rw [hC, List.reverse_concat'] at hiter
    rw [List.cons_append] at hiter
    have hs0 : rb.data.get ⟨n, heel⟩ = s0 := by
      injection hiter
    have hrest : A.reverse ++ (rb.data.drop rb.e).reverse = rest := by
      injection hiter
    rw [hset, htake, hdropg, List.reverse_concat', List.cons_append, hrest]

/-- The admitted request times of a run: a hit is recorded exactly when
`can_hit_at` returns `None` (the saga calls `hit_at` only then). -/
def admitted (r : Ratelimit) : List Nat → List Nat
  | [] => []
  | t :: ts =>
      match r.can_hit_at t with
      | none => t :: admitted (r.hit_at t) ts
      | some _ => admitted r ts

/-- The limiter state after a run. -/
def runRL (r : Ratelimit) : List Nat → Ratelimit
  | [] => r
  | t :: ts =>
      match r.can_hit_at t with
      | none => runRL (r.hit_at t) ts
      | some _ => runRL r ts

/-- Bucket start of a time, as a plain function of the slot size. -/
def slAt (ss u : Nat) : Nat := u - u % ss

/-- Number of recorded hits falling in the bucket starting at `f`. -/
def slotCount (ss : Nat) (H : List Nat) (f : Nat) : Nat :=
  (H.filter (fun u => decide (slAt ss u = f))).length

theorem slAt_eq_mul (ss u : Nat) : slAt ss u = ss * (u / ss) := by
  have := Nat.div_add_mod u ss
  unfold slAt
  omega

theorem slAt_le (ss u : Nat) : slAt ss u ≤ u := Nat.sub_le _ _

theorem lt_slAt_add (ss u : Nat) (h : 0 < ss) : u < slAt ss u + ss := by
  have := Nat.mod_lt u h
  unfold slAt
  omega

theorem slAt_mono (ss : Nat) {u v : Nat} (h : u ≤ v) :
    slAt ss u ≤ slAt ss v := by
  rw [slAt_eq_mul, slAt_eq_mul]
  exact Nat.mul_le_mul_left ss (Nat.div_le_div_right h)

theorem dvd_slAt (ss u : Nat) : ss ∣ slAt ss u := by
  rw [slAt_eq_mul]
  exact Dvd.intro _ rfl

theorem grid_step {ss a b : Nat} (ha : ss ∣ a) (hb : ss ∣ b) (h : a < b) :
    a + ss ≤ b := by
  obtain ⟨x, rfl⟩ := ha
  obtain ⟨y, rfl⟩ := hb
  have hxy : x < y := by
    by_contra hc
    push_neg at hc
    exact absurd (Nat.mul_le_mul_left ss hc) (by omega)
  calc ss * x + ss = ss * (x + 1) := by ring
  _ ≤ ss * y := Nat.mul_le_mul_left ss (by omega)

theorem length_filter_mono {H : List Nat} {p q : Nat → Bool}
    (h : ∀ u ∈ H, p u = true → q u = true) :
    (H.filter p).length ≤ (H.filter q).length := by
  induction H with
  | nil => simp
  | cons u H' ih =>
    have ih' := ih (fun v hv => h v (List.mem_cons_of_mem _ hv))
    by_cases hp : p u = true
    · have hq := h u (List.mem_cons_self u H') hp
      simp [List.filter_cons, hp, hq]
      omega
    · simp only [List.filter_cons]
      rw [Bool.not_eq_true] at hp
      rw [hp]
      cases hq : q u <;> simp <;> omega

theorem length_filter_or_le (H : List Nat) (p q : Nat → Bool) :
    (H.filter (fun u => p u || q u)).length ≤
      (H.filter p).length + (H.filter q).length := by
  induction H with
  | nil => simp
  | cons u H' ih =>
    simp only [List.filter_cons]
    cases hp : p u <;> cases hq : q u <;> simp <;> omega

theorem length_filter_or_disjoint (H : List Nat) (p q : Nat → Bool)
    (hd : ∀ u, ¬(p u = true ∧ q u = true)) :
    (H.filter (fun u => p u || q u)).length =
      (H.filter p).length + (H.filter q).length := by
  induction H with
  | nil => simp
  | cons u H' ih =>
    simp only [List.filter_cons]
    cases hp : p u <;> cases hq : q u <;> simp [ih] <;>
      first
        | omega
        | exact absurd ⟨hp, hq⟩ (hd u)

theorem count_le_sum (ss : Nat) (H : List Nat) (p : Nat → Bool) :
    ∀ froms : List Nat, (∀ u ∈ H, p u = true → slAt ss u ∈ froms) →
      (H.filter p).length ≤ (froms.map (slotCount ss H)).sum := by
  intro froms hcov
  have h1 : (H.filter p).length ≤
      (H.filter (fun u => decide (slAt ss u ∈ froms))).length := by
    refine length_filter_mono ?_
    intro u hu hp
    exact decide_eq_true (hcov u hu hp)
  refine le_trans h1 ?_
  clear h1 hcov p
  induction froms with
  | nil => simp
  | cons f fs ih =>
    have hsplit : (H.filter (fun u => decide (slAt ss u ∈ f :: fs))).length ≤
        (H.filter (fun u => decide (slAt ss u = f))).length +
          (H.filter (fun u => decide (slAt ss u ∈ fs))).length := by
      refine le_trans (le_of_eq ?_) (length_filter_or_le H _ _)
      congr 1
      refine List.filter_congr ?_
      intro u _
      simp [List.mem_cons]
    simp only [List.map_cons, List.sum_cons]
    calc (H.filter (fun u => decide (slAt ss u ∈ f :: fs))).length
        ≤ (H.filter (fun u => decide (slAt ss u = f))).length +
          (H.filter (fun u => decide (slAt ss u ∈ fs))).length := hsplit
    _ ≤ slotCount ss H f + (fs.map (slotCount ss H)).sum :=
        Nat.add_le_add (le_of_eq rfl) ih

theorem sum_le_count (ss : Nat) (H : List Nat) (q : Nat → Bool) :
    ∀ froms : List Nat, froms.Nodup →
      (∀ f ∈ froms, ∀ u ∈ H, slAt ss u = f → q u = true) →
      (froms.map (slotCount ss H)).sum ≤ (H.filter q).length := by
  intro froms hnd hq
  have key : (froms.map (slotCount ss H)).sum ≤
      (H.filter (fun u => decide (slAt ss u ∈ froms))).length := by
    clear hq
    induction froms with
    | nil => simp
    | cons f fs ih =>
      have hf : f ∉ fs := (List.nodup_cons.mp hnd).1
      have hnd' : fs.Nodup := (List.nodup_cons.mp hnd).2
      have hdisj : ∀ u, ¬(decide (slAt ss u = f) = true ∧
          decide (slAt ss u ∈ fs) = true) := by
        intro u hcon
        obtain ⟨h1, h2⟩ := hcon
        rw [decide_eq_true_eq] at h1 h2
        exact hf (h1 ▸ h2)
      have heq := length_filter_or_disjoint H
        (fun u => decide (slAt ss u = f)) (fun u => decide (slAt ss u ∈ fs))
        hdisj
      have hcong : (H.filter (fun u => decide (slAt ss u ∈ f :: fs))).length =
          (H.filter (fun u => decide (slAt ss u = f) ||
            decide (slAt ss u ∈ fs))).length := by
        congr 1
        refine List.filter_congr ?_
        intro u _
        simp [List.mem_cons]
      rw [hcong, heq]
      simp only [List.map_cons, List.sum_cons]
      exact Nat.add_le_add (le_of_eq rfl) (ih hnd')
  refine le_trans key (length_filter_mono ?_)
  intro u hu hmem
  rw [decide_eq_true_eq] at hmem
  exact hq _ hmem u hu rfl

theorem cap_push {T : Type} (rb : RingBuffer T) (v : T) :
    (rb.push v).cap = rb.cap := by
  unfold RingBuffer.push
  split <;> rfl

theorem cap_set_last {T : Type} (rb : RingBuffer T) (v : T) :
    (rb.set_last v).cap = rb.cap := by
  unfold RingBuffer.set_last
  split <;> rfl

theorem length_iter {T : Type} {rb : RingBuffer T} (h : RingBuffer.WF rb) :
    (RingBuffer.iter rb).length = rb.data.length := by
  have := WF_e_le h
  unfold RingBuffer.iter
  simp
  omega

/-- Prefix of the buffer the `can_hit_at` loop actually reads (the loop
breaks at the first slot older than the window). -/
def inWindow (N sa : Nat) (S : List Slot) : List Slot :=
  S.takeWhile (fun slot => decide (sa ≤ slot.from' + N))

theorem canHitLoop_none (N ss L t sa : Nat) :
    ∀ (S : List Slot) (s : Nat), s < L →
      Ratelimit.canHitLoop N ss L t sa S s = none →
      s + ((inWindow N sa S).map Slot.hits).sum < L := by
  intro S
  induction S with
  | nil =>
    intro s hs _
    simpa [inWindow] using hs
  | cons slot rest ih =>
    intro s hs hloop
    simp only [Ratelimit.canHitLoop] at hloop
    by_cases hbreak : slot.from' + N < sa
    · have hpred : (decide (sa ≤ slot.from' + N)) = false := by
        simp
        omega
      simp [inWindow, List.takeWhile_cons, hpred]
      omega
    · rw [if_neg hbreak] at hloop
      by_cases hthr : L ≤ s + slot.hits
      · rw [if_pos hthr] at hloop
        simp at hloop
      · rw [if_neg hthr] at hloop
        have hpred : (decide (sa ≤ slot.from' + N)) = true := by
          simp
          omega
        have hrec := ih (s + slot.hits) (by omega) hloop
        simp only [inWindow] at hrec ⊢
        simp [List.takeWhile_cons, hpred]
        omega

theorem canHitLoop_some (N ss L t sa : Nat) :
    ∀ (S : List Slot) (s w : Nat),
      Ratelimit.canHitLoop N ss L t sa S s = some w →
      ∃ P slot rest', S = P ++ slot :: rest' ∧
        (∀ x ∈ P ++ [slot], sa ≤ x.from' + N) ∧
        L ≤ s + (P.map Slot.hits).sum + slot.hits ∧
        w = slot.from' + N + ss - t := by
  intro S
  induction S with
  | nil =>
    intro s w h
    simp [Ratelimit.canHitLoop] at h
  | cons slot rest ih =>
    intro s w h
    simp only [Ratelimit.canHitLoop] at h
    by_cases hbreak : slot.from' + N < sa
    · rw [if_pos hbreak] at h
      simp at h
    · rw [if_neg hbreak] at h
      by_cases hthr : L ≤ s + slot.hits
      · rw [if_pos hthr] at h
        simp at h
        refine ⟨[], slot, rest, rfl, ?_, by simpa using hthr, h.symm⟩
        intro x hx
        simp at hx
        subst hx
        omega
      · rw [if_neg hthr] at h
        obtain ⟨P, slot', rest', hS, hpred, hsum, hw⟩ := ih (s + slot.hits) w h
        refine ⟨slot :: P, slot', rest', ?_, ?_, ?_, hw⟩
        · rw [List.cons_append, hS]
        · intro x hx
          rcases List.mem_cons.mp hx with rfl | hx'
          · omega
          · exact hpred x hx'
        · simp only [List.map_cons, List.sum_cons]
          omega

theorem slotCount_append (ss : Nat) (H : List Nat) (t f : Nat) :
    slotCount ss (H ++ [t]) f =
      slotCount ss H f + (if slAt ss t = f then 1 else 0) := by
  unfold slotCount
  rw [List.filter_append]
  by_cases h : slAt ss t = f <;> simp [h]

theorem slotCount_eq_zero (ss : Nat) (H : List Nat) (f : Nat)
    (h : ∀ u ∈ H, slAt ss u ≠ f) : slotCount ss H f = 0 := by
  unfold slotCount
  rw [List.length_eq_zero, List.filter_eq_nil_iff]
  intro u hu
  simp [h u hu]

/-- Invariant of the slot list in `iter` order (newest first) with respect to
the recorded-hit history `H` and the last request time `tp`. -/
def SInv (N ss : Nat) (S : List Slot) (H : List Nat) (tp : Nat) : Prop :=
  List.Chain' (fun a b => b.from' + ss ≤ a.from') S ∧
  (∀ slot ∈ S, ss ∣ slot.from') ∧
  (∀ slot ∈ S, slot.from' ≤ slAt ss tp) ∧
  (∀ slot ∈ S, slot.hits = slotCount ss H slot.from') ∧
  (∀ u ∈ H, slAt ss u ∈ S.map Slot.from' ∨ slAt ss u + N < slAt ss tp) ∧
  (∀ u ∈ H, u ≤ tp)

/-- Full invariant of a limiter reachable from `Ratelimit.new`. -/
def RInv (N ss L : Nat) (r : Ratelimit) (H : List Nat) (tp : Nat) : Prop :=
  r.interval = N ∧ r.slot_size = ss ∧ r.limit = L ∧
  r.data.cap = CAP + 1 ∧ RingBuffer.WF r.data ∧
  SInv N ss (RingBuffer.iter r.data) H tp

theorem chain_head_ge (ss : Nat) (s0 : Slot) (rest : List Slot)
    (hc : List.Chain' (fun a b => b.from' + ss ≤ a.from') (s0 :: rest)) :
    ∀ x ∈ rest, x.from' + ss ≤ s0.from' := by
  induction rest generalizing s0 with
  | nil => intro x hx; simp at hx
  | cons s1 rest' ih =>
    intro x hx
    obtain ⟨h01, hc1⟩ := List.chain'_cons.mp hc
    rcases List.mem_cons.mp hx with rfl | hx'
    · exact h01
    · have := ih s1 hc1 x hx'
      omega

theorem chain_getLast_bound (ss : Nat) :
    ∀ (rest : List Slot) (s0 : Slot),
      List.Chain' (fun a b => b.from' + ss ≤ a.from') (s0 :: rest) →
      ((s0 :: rest).getLast (by simp)).from' + ss * rest.length ≤ s0.from' := by
  intro rest
  induction rest with
  | nil =>
    intro s0 _
    simp [List.getLast]
  | cons s1 rest' ih =>
    intro s0 hc
    obtain ⟨h01, hc1⟩ := List.chain'_cons.mp hc
    rw [List.getLast_cons (by simp)]
    have := ih s1 hc1
    rw [List.length_cons, Nat.mul_succ]
    omega

theorem defer_preserves {N ss L : Nat} {r : Ratelimit} {H : List Nat}
    {tp t : Nat} (hinv : RInv N ss L r H tp) (ht : tp ≤ t) :
    RInv N ss L r H t := by
  obtain ⟨hi, hs, hl, hcap, hwf, hchain, hdvd, hbound, hcounts, hcov, hleH⟩ :=
    hinv
  have hslmono : slAt ss tp ≤ slAt ss t := slAt_mono ss ht
  exact ⟨hi, hs, hl, hcap, hwf, hchain, hdvd,
    fun slot hslot => le_trans (hbound slot hslot) hslmono, hcounts,
    fun u hu => (hcov u hu).imp id (fun h => lt_of_lt_of_le h hslmono),
    fun u hu => le_trans (hleH u hu) ht⟩

theorem hit_preserves {N ss L : Nat} (hss : 0 < ss) (hN : N = CAP * ss)
    {r : Ratelimit} {H : List Nat} {tp t : Nat}
    (hinv : RInv N ss L r H tp) (ht : tp ≤ t) :
    RInv N ss L (r.hit_at t) (H ++ [t]) t := by
  obtain ⟨hi, hs, hl, hcap, hwf, hchain, hdvd, hbound, hcounts, hcov, hleH⟩ :=
    hinv
  have hNpos : 0 < N := by
    rw [hN]
    exact Nat.mul_pos (by decide) hss
  have hsl : r.slot_at t = slAt ss t := by
    unfold Ratelimit.slot_at slAt
    rw [hs]
  have hslmono : slAt ss tp ≤ slAt ss t := slAt_mono ss ht
  cases hlast : RingBuffer.last r.data with
  | none =>
    have hSnil : RingBuffer.iter r.data = [] := by
      have hh := last_eq_head_iter hwf
      rw [hlast] at hh
      exact List.head?_eq_none_iff.mp hh.symm
    have hlen0 : r.data.data.length = 0 := by
      have hli := length_iter hwf
      rw [hSnil] at hli
      simpa using hli.symm
    have hltcap : r.data.data.length < r.data.cap := by
      rw [hlen0, hcap]
      simp [CAP]
    have hr' : r.hit_at t = { r with data := r.data.push ⟨slAt ss t, 1⟩ } := by
      unfold Ratelimit.hit_at
      rw [hsl, hlast]
    rw [hr']
    have hiter' : RingBuffer.iter (r.data.push ⟨slAt ss t, 1⟩) =
        [⟨slAt ss t, 1⟩] := by
      rw [iter_push hwf hltcap, hSnil]
    refine ⟨hi, hs, hl, ?_, WF_push hwf _, ?_⟩
    · rw [cap_push]
      exact hcap
    · rw [hiter']
      refine ⟨by simp, ?_, ?_, ?_, ?_, ?_⟩
      · intro slot hslot
        simp at hslot
        subst hslot
        exact dvd_slAt ss t
      · intro slot hslot
        simp at hslot
        subst hslot
        exact le_refl _
      · intro slot hslot
        simp at hslot
        subst hslot
        have h0 : slotCount ss H (slAt ss t) = 0 := by
          refine slotCount_eq_zero ss H _ ?_
          intro u hu
          rcases hcov u hu with hl' | hr'
          · rw [hSnil] at hl'
            simp at hl'
          · omega
        rw [slotCount_append, if_pos rfl, h0]
      · intro u hu
        rcases List.mem_append.mp hu with hu' | hu'
        · rcases hcov u hu' with hl' | hr'
          · rw [hSnil] at hl'
            simp at hl'
          · right
            omega
        · left
          simp at hu'
          subst hu'
          simp
      · intro u hu
        rcases List.mem_append.mp hu with hu' | hu'
        · exact le_trans (hleH u hu') ht
        · simp at hu'
          omega
  | some v =>
    have hhead : (RingBuffer.iter r.data).head? = some v := by
      have hh := last_eq_head_iter hwf
      rw [hlast] at hh
      exact hh.symm
    obtain ⟨rest, hS⟩ : ∃ rest, RingBuffer.iter r.data = v :: rest := by
      cases hS : RingBuffer.iter r.data with
      | nil =>
          rw [hS] at hhead
          simp at hhead
      | cons v' rest =>
          rw [hS] at hhead
          simp at hhead
          exact ⟨rest, by rw [hhead]⟩
    rw [hS] at hchain hdvd hbound hcounts hcov
    have hvbound : v.from' ≤ slAt ss tp :=
      hbound v (List.mem_cons_self v rest)
    by_cases hfrom : v.from' = slAt ss t
    · have hr' : r.hit_at t =
          { r with data := r.data.set_last ⟨slAt ss t, v.hits + 1⟩ } := by
        unfold Ratelimit.hit_at
        rw [hsl, hlast]
        show (if v.from' = slAt ss t then
            { r with data := r.data.set_last ⟨slAt ss t, v.hits + 1⟩ }
          else { r with data := r.data.push ⟨slAt ss t, 1⟩ }) = _
        rw [if_pos hfrom]
      rw [hr']
      have hiter' := iter_set_last hwf v rest hS (⟨slAt ss t, v.hits + 1⟩ : Slot)
      refine ⟨hi, hs, hl, ?_, WF_set_last hwf _, ?_⟩
      · rw [cap_set_last]
        exact hcap
      · rw [hiter']
        refine ⟨?_, ?_, ?_, ?_, ?_, ?_⟩
        · refine List.chain'_cons'.mpr ⟨?_, (List.chain'_cons'.mp hchain).2⟩
          intro b hb
          have hrelb := (List.chain'_cons'.mp hchain).1 b hb
          show b.from' + ss ≤ slAt ss t
          omega
        · intro slot hslot
          rcases List.mem_cons.mp hslot with rfl | hslot'
          · exact dvd_slAt ss t
          · exact hdvd slot (List.mem_cons_of_mem _ hslot')
        · intro slot hslot
          rcases List.mem_cons.mp hslot with rfl | hslot'
          · exact le_refl _
          · exact le_trans (hbound slot (List.mem_cons_of_mem _ hslot'))
              hslmono
        · intro slot hslot
          rcases List.mem_cons.mp hslot with rfl | hslot'
          · rw [slotCount_append, if_pos rfl]
            have hv := hcounts v (List.mem_cons_self _ _)
            show v.hits + 1 = slotCount ss H (slAt ss t) + 1
            rw [hv, hfrom]
          · have hne : ¬ slAt ss t = slot.from' := by
              have := chain_head_ge ss v rest hchain slot hslot'
              omega
            rw [slotCount_append, if_neg hne, Nat.add_zero]
            exact hcounts slot (List.mem_cons_of_mem _ hslot')
        · intro u hu
          rcases List.mem_append.mp hu with hu' | hu'
          · rcases hcov u hu' with hl' | hr'
            · left
              simp only [List.map_cons] at hl' ⊢
              rcases List.mem_cons.mp hl' with he | he
              · exact List.mem_cons.mpr (Or.inl (by rw [he, hfrom]))
              · exact List.mem_cons.mpr (Or.inr he)
            · right
              omega
          · left
            simp at hu'
            subst hu'
            simp
        · intro u hu
          rcases List.mem_append.mp hu with hu' | hu'
          · exact le_trans (hleH u hu') ht
          · simp at hu'
            omega
    · have hfromlt : v.from' < slAt ss t :=
        lt_of_le_of_ne (le_trans hvbound hslmono) hfrom
      have hrel : v.from' + ss ≤ slAt ss t :=
        grid_step (hdvd v (List.mem_cons_self v rest)) (dvd_slAt ss t) hfromlt
      have hr' : r.hit_at t =
          { r with data := r.data.push ⟨slAt ss t, 1⟩ } := by
        unfold Ratelimit.hit_at
        rw [hsl, hlast]
        show (if v.from' = slAt ss t then
            { r with data := r.data.set_last ⟨slAt ss t, v.hits + 1⟩ }
          else { r with data := r.data.push ⟨slAt ss t, 1⟩ }) = _
        rw [if_neg hfrom]
      rw [hr']
      have hnotin : ∀ slot ∈ v :: rest, ¬ slAt ss t = slot.from' := by
        intro slot hslot
        rcases List.mem_cons.mp hslot with rfl | hslot'
        · omega
        · have := chain_head_ge ss v rest hchain slot hslot'
          omega
      have hcount0 : slotCount ss H (slAt ss t) = 0 := by
        refine slotCount_eq_zero ss H _ ?_
        intro u hu
        rcases hcov u hu with hl' | hr'
        · intro hequ
          obtain ⟨slot, hslot, hfs⟩ := List.mem_map.mp hl'
          exact hnotin slot hslot (hfs.trans hequ).symm
        · intro hequ
          omega
      by_cases hfull : r.data.data.length = r.data.cap
      · have hiter' := iter_push_full hwf hfull (⟨slAt ss t, 1⟩ : Slot)
        have hSlen : (v :: rest).length = CAP + 1 := by
          rw [← hS, length_iter hwf, hfull, hcap]
        have hrestlen : rest.length = CAP := by
          simp at hSlen
          omega
        have hrestne : rest ≠ [] := by
          intro hc
          rw [hc] at hrestlen
          simp [CAP] at hrestlen
        have hlastb := chain_getLast_bound ss rest v hchain
        have hlastw : ((v :: rest).getLast (by simp)).from' + N < slAt ss t := by
          rw [hrestlen] at hlastb
          have hssC : ss * CAP = N := by
            rw [hN]
            ring
          omega
        have hdecomp : (v :: rest).dropLast ++
            [(v :: rest).getLast (by simp)] = v :: rest :=
          List.dropLast_append_getLast (by simp)
        have hdl : (v :: rest).dropLast = v :: rest.dropLast := by
          cases rest with
          | nil => exact absurd rfl hrestne
          | cons r1 rest2 => rfl
        have hsubset : ∀ x ∈ (v :: rest).dropLast, x ∈ v :: rest :=
          fun x hx => (List.dropLast_sublist (v :: rest)).subset hx
        have hchain' : List.Chain' (fun a b => b.from' + ss ≤ a.from')
            ((v :: rest).dropLast) := hchain.prefix (List.dropLast_prefix _)
        refine ⟨hi, hs, hl, ?_, WF_push hwf _, ?_⟩
        · rw [cap_push]
          exact hcap
        · rw [hiter', hS]
          refine ⟨?_, ?_, ?_, ?_, ?_, ?_⟩
          · refine List.chain'_cons'.mpr ⟨?_, hchain'⟩
            intro b hb
            rw [hdl] at hb
            simp at hb
            subst hb
            show v.from' + ss ≤ slAt ss t
            exact hrel
          · intro slot hslot
            rcases List.mem_cons.mp hslot with rfl | hslot'
            · exact dvd_slAt ss t
            · exact hdvd slot (hsubset slot hslot')
          · intro slot hslot
            rcases List.mem_cons.mp hslot with rfl | hslot'
            · exact le_refl _
            · exact le_trans (hbound slot (hsubset slot hslot')) hslmono
          · intro slot hslot
            rcases List.mem_cons.mp hslot with rfl | hslot'
            · rw [slotCount_append, if_pos rfl, hcount0]
            · have hne := hnotin slot (hsubset slot hslot')
              rw [slotCount_append, if_neg hne, Nat.add_zero]
              exact hcounts slot (hsubset slot hslot')
          · intro u hu
            rcases List.mem_append.mp hu with hu' | hu'
            · rcases hcov u hu' with hl' | hr'
              · have hmap : ((v :: rest).dropLast).map Slot.from' ++
                    [((v :: rest).getLast (by simp)).from'] =
                    (v :: rest).map Slot.from' := by
                  conv_rhs => rw [← hdecomp]
                  rw [List.map_append]
                  rfl
                rw [← hmap] at hl'
                rcases List.mem_append.mp hl' with hmm | hmm
                · left
                  simp only [List.map_cons]
                  exact List.mem_cons_of_mem _ hmm
                · right
                  simp at hmm
                  rw [hmm]
                  omega
              · right
                omega
            · left
              simp at hu'
              subst hu'
              simp
          · intro u hu
            rcases List.mem_append.mp hu with hu' | hu'
            · exact le_trans (hleH u hu') ht
            · simp at hu'
              omega
      · have hlt : r.data.data.length < r.data.cap :=
          lt_of_le_of_ne hwf.2.1 hfull
        have hiter' := iter_push hwf hlt (⟨slAt ss t, 1⟩ : Slot)
        refine ⟨hi, hs, hl, ?_, WF_push hwf _, ?_⟩
        · rw [cap_push]
          exact hcap
        · rw [hiter', hS]
          refine ⟨?_, ?_, ?_, ?_, ?_, ?_⟩
          · refine List.chain'_cons'.mpr ⟨?_, hchain⟩
            intro b hb
            simp at hb
            subst hb
            show v.from' + ss ≤ slAt ss t
            exact hrel
          · intro slot hslot
            rcases List.mem_cons.mp hslot with rfl | hslot'
            · exact dvd_slAt ss t
            · exact hdvd slot hslot'
          · intro slot hslot
            rcases List.mem_cons.mp hslot with rfl | hslot'
            · exact le_refl _
            · exact le_trans (hbound slot hslot') hslmono
          · intro slot hslot
            rcases List.mem_cons.mp hslot with rfl | hslot'
            · rw [slotCount_append, if_pos rfl, hcount0]
            · have hne := hnotin slot hslot'
              rw [slotCount_append, if_neg hne, Nat.add_zero]
              exact hcounts slot hslot'
          · intro u hu
            rcases List.mem_append.mp hu with hu' | hu'
            · rcases hcov u hu' with hl' | hr'
              · left
                simp only [List.map_cons] at hl' ⊢
                exact List.mem_cons_of_mem _ hl'
              · right
                omega
            · left
              simp at hu'
              subst hu'
              simp
          · intro u hu
            rcases List.mem_append.mp hu with hu' | hu'
            · exact le_trans (hleH u hu') ht
            · simp at hu'
              omega

theorem chain_nodup_froms (ss : Nat) (hss : 0 < ss) :
    ∀ S : List Slot, List.Chain' (fun a b => b.from' + ss ≤ a.from') S →
      (S.map Slot.from').Nodup := by
  intro S
  induction S with
  | nil => simp
  | cons s0 rest ih =>
    intro hc
    simp only [List.map_cons, List.nodup_cons]
    refine ⟨?_, ih hc.tail⟩
    intro hmem
    obtain ⟨x, hx, hfx⟩ := List.mem_map.mp hmem
    have := chain_head_ge ss s0 rest hc x hx
    omega

theorem mem_inWindow_of_chain (N ss sa : Nat) :
    ∀ S : List Slot, List.Chain' (fun a b => b.from' + ss ≤ a.from') S →
      ∀ slot ∈ S, sa ≤ slot.from' + N → slot ∈ inWindow N sa S := by
  intro S
  induction S with
  | nil =>
    intro _ slot h
    simp at h
  | cons s0 rest ih =>
    intro hc slot hslot hpred
    have hpred0 : sa ≤ s0.from' + N := by
      rcases List.mem_cons.mp hslot with rfl | hslot'
      · exact hpred
      · have := chain_head_ge ss s0 rest hc slot hslot'
        omega
    have hp0 : (decide (sa ≤ s0.from' + N)) = true := decide_eq_true hpred0
    simp only [inWindow, List.takeWhile_cons, hp0, if_true]
    rcases List.mem_cons.mp hslot with rfl | hslot'
    · exact List.mem_cons_self _ _
    · exact List.mem_cons_of_mem _ (ih hc.tail slot hslot' hpred)

theorem can_hit_none_bound {N ss L : Nat} (hss : 0 < ss) (hN : N = CAP * ss)
    (hL : 0 < L) {r : Ratelimit} {H : List Nat} {tp t : Nat}
    (hinv : RInv N ss L r H tp) (ht : tp ≤ t)
    (hcan : r.can_hit_at t = none) :
    (H.filter (fun u => decide (t < u + N))).length < L := by
  obtain ⟨hi, hs, hl, hcap, hwf, hchain, hdvd, hbound, hcounts, hcov, hleH⟩ :=
    hinv
  have hsl : r.slot_at t = slAt ss t := by
    unfold Ratelimit.slot_at slAt
    rw [hs]
  have hNdvd : ss ∣ N := by
    rw [hN]
    exact dvd_mul_left ss CAP
  unfold Ratelimit.can_hit_at at hcan
  rw [hi, hs, hl, hsl] at hcan
  have hloop := canHitLoop_none N ss L t (slAt ss t)
    (RingBuffer.iter r.data) 0 hL hcan
  simp only [Nat.zero_add] at hloop
  have hkey : ∀ u ∈ H, (fun u => decide (t < u + N)) u = true →
      slAt ss u ∈ ((inWindow N (slAt ss t) (RingBuffer.iter r.data)).map
        Slot.from') := by
    intro u hu hp
    rw [decide_eq_true_eq] at hp
    have hmem : slAt ss u ∈ (RingBuffer.iter r.data).map Slot.from' := by
      rcases hcov u hu with hl' | hr'
      · exact hl'
      · exfalso
        have h1 : slAt ss u + N + ss ≤ slAt ss t :=
          grid_step (dvd_add (dvd_slAt ss u) hNdvd) (dvd_slAt ss t)
            (lt_of_lt_of_le hr' (slAt_mono ss ht))
        have h2 : u < slAt ss u + ss := lt_slAt_add ss u hss
        have h3 : slAt ss t ≤ t := slAt_le ss t
        omega
    obtain ⟨slot, hslot, hfs⟩ := List.mem_map.mp hmem
    have hpred : slAt ss t ≤ slot.from' + N := by
      by_contra hc
      push_neg at hc
      have h1 : slot.from' + N + ss ≤ slAt ss t :=
        grid_step (dvd_add (hdvd slot hslot) hNdvd) (dvd_slAt ss t) hc
      have h2 : u < slAt ss u + ss := lt_slAt_add ss u hss
      have h3 : slAt ss t ≤ t := slAt_le ss t
      omega
    exact List.mem_map.mpr
      ⟨slot, mem_inWindow_of_chain N ss _ _ hchain slot hslot hpred, hfs⟩
  have hsum := count_le_sum ss H (fun u => decide (t < u + N))
    ((inWindow N (slAt ss t) (RingBuffer.iter r.data)).map Slot.from') hkey
  have hmapeq : (((inWindow N (slAt ss t) (RingBuffer.iter r.data)).map
      Slot.from').map (slotCount ss H)).sum =
      ((inWindow N (slAt ss t) (RingBuffer.iter r.data)).map Slot.hits).sum := by
    rw [List.map_map]
    refine congrArg List.sum ?_
    refine List.map_congr_left ?_
    intro slot hslot
    have hmemS : slot ∈ RingBuffer.iter r.data :=
      (List.takeWhile_sublist _).subset hslot
    exact (hcounts slot hmemS).symm
  rw [hmapeq] at hsum
  omega

theorem can_hit_some_bound {N ss L : Nat} (hss : 0 < ss) (hN : N = CAP * ss)
    {r : Ratelimit} {H : List Nat} {tp t w : Nat}
    (hinv : RInv N ss L r H tp) (ht : tp ≤ t)
    (hcan : r.can_hit_at t = some w) :
    L ≤ (H.filter (fun u => decide (t < u + N + ss))).length ∧ w ≤ N + ss := by
  obtain ⟨hi, hs, hl, hcap, hwf, hchain, hdvd, hbound, hcounts, hcov, hleH⟩ :=
    hinv
  have hsl : r.slot_at t = slAt ss t := by
    unfold Ratelimit.slot_at slAt
    rw [hs]
  unfold Ratelimit.can_hit_at at hcan
  rw [hi, hs, hl, hsl] at hcan
  obtain ⟨P, slot, rest', hS, hpred, hsum, hw⟩ :=
    canHitLoop_some N ss L t (slAt ss t) (RingBuffer.iter r.data) 0 w hcan
  simp only [Nat.zero_add] at hsum
  have hPs : List.Sublist (P ++ [slot]) (RingBuffer.iter r.data) := by
    rw [hS, show P ++ slot :: rest' = (P ++ [slot]) ++ rest' by simp]
    exact List.sublist_append_left _ _
  have hsubS : ∀ x ∈ P ++ [slot], x ∈ RingBuffer.iter r.data :=
    fun x hx => hPs.subset hx
  have hslotmem : slot ∈ RingBuffer.iter r.data :=
    hsubS slot (List.mem_append_right _ (by simp))
  constructor
  · have hnd : ((P ++ [slot]).map Slot.from').Nodup :=
      (chain_nodup_froms ss hss _ hchain).sublist (hPs.map Slot.from')
    have hq : ∀ f ∈ (P ++ [slot]).map Slot.from', ∀ u ∈ H, slAt ss u = f →
        (fun u => decide (t < u + N + ss)) u = true := by
      intro f hf u hu hslu
      obtain ⟨x, hx, hfx⟩ := List.mem_map.mp hf
      have hpx : slAt ss t ≤ x.from' + N := hpred x hx
      have h2 : t < slAt ss t + ss := lt_slAt_add ss t hss
      have h3 : slAt ss u ≤ u := slAt_le ss u
      rw [decide_eq_true_eq]
      omega
    have hsc := sum_le_count ss H (fun u => decide (t < u + N + ss))
      ((P ++ [slot]).map Slot.from') hnd hq
    have hmapeq : (((P ++ [slot]).map Slot.from').map (slotCount ss H)).sum =
        ((P ++ [slot]).map Slot.hits).sum := by
      rw [List.map_map]
      refine congrArg List.sum ?_
      refine List.map_congr_left ?_
      intro x hx
      exact (hcounts x (hsubS x hx)).symm
    rw [hmapeq] at hsc
    have hsum2 : (P.map Slot.hits).sum + slot.hits =
        ((P ++ [slot]).map Slot.hits).sum := by
      simp
    omega
  · have hb : slot.from' ≤ slAt ss tp := hbound slot hslotmem
    have h3 : slAt ss tp ≤ slAt ss t := slAt_mono ss ht
    have h4 : slAt ss t ≤ t := slAt_le ss t
    omega

/-- Sliding-window bound for a hit history: at most `L` hits in every
half-open window `(a, a + N]`. -/
def WinB (N L : Nat) (H : List Nat) : Prop :=
  ∀ a, (H.filter (fun u => decide (a < u) && decide (u ≤ a + N))).length ≤ L

theorem winb_extend {N L : Nat} {H : List Nat} {t : Nat}
    (hw : WinB N L H)
    (hb : (H.filter (fun u => decide (t < u + N))).length < L) :
    WinB N L (H ++ [t]) := by
  intro a
  rw [List.filter_append, List.length_append, List.filter_singleton]
  by_cases hwp : (decide (a < t) && decide (t ≤ a + N)) = true
  · have h1 : (H.filter
        (fun u => decide (a < u) && decide (u ≤ a + N))).length ≤
        (H.filter (fun u => decide (t < u + N))).length := by
      refine length_filter_mono ?_
      intro u hu hp
      simp only [Bool.and_eq_true, decide_eq_true_eq] at hp hwp
      rw [decide_eq_true_eq]
      omega
    simp only [hwp, cond_true, List.length_cons, List.length_nil]
    omega
  · rw [Bool.not_eq_true] at hwp
    simp only [hwp, cond_false, List.length_nil]
    have := hw a
    omega

theorem run_winb {N ss L : Nat} (hss : 0 < ss) (hN : N = CAP * ss)
    (hL : 0 < L) :
    ∀ (ts : List Nat) (r : Ratelimit) (H : List Nat) (tp : Nat),
      RInv N ss L r H tp → WinB N L H →
      List.Chain' (· ≤ ·) (tp :: ts) →
      WinB N L (H ++ admitted r ts) := by
  intro ts
  induction ts with
  | nil =>
    intro r H tp hinv hw _
    simpa [admitted] using hw
  | cons t ts' ih =>
    intro r H tp hinv hw hchain
    obtain ⟨hle, hchain'⟩ := List.chain'_cons.mp hchain
    cases hcan : r.can_hit_at t with
    | none =>
      have hb := can_hit_none_bound hss hN hL hinv hle hcan
      have hinv' := hit_preserves hss hN hinv hle
      have hw' := winb_extend hw hb
      have hrun := ih (r.hit_at t) (H ++ [t]) t hinv' hw' hchain'
      simp only [admitted, hcan]
      have hasc : H ++ t :: admitted (r.hit_at t) ts' =
          (H ++ [t]) ++ admitted (r.hit_at t) ts' := by simp
      rw [hasc]
      exact hrun
    | some w =>
      have hinv' := defer_preserves hinv hle
      simp only [admitted, hcan]
      exact ih r H t hinv' hw hchain'

theorem run_slack {N ss L : Nat} (hss : 0 < ss) (hN : N = CAP * ss) :
    ∀ (l1 : List Nat) (r : Ratelimit) (H : List Nat) (tp t w : Nat),
      RInv N ss L r H tp → List.Chain' (· ≤ ·) (tp :: (l1 ++ [t])) →
      (runRL r l1).can_hit_at t = some w →
      L ≤ ((H ++ admitted r l1).filter
          (fun u => decide (t < u + N + ss))).length ∧ w ≤ N + ss := by
  intro l1
  induction l1 with
  | nil =>
    intro r H tp t w hinv hchain hcan
    simp only [List.nil_append] at hchain
    obtain ⟨hle, _⟩ := List.chain'_cons.mp hchain
    simp only [admitted, List.append_nil]
    exact can_hit_some_bound hss hN hinv hle hcan
  | cons x l1' ih =>
    intro r H tp t w hinv hchain hcan
    simp only [List.cons_append] at hchain
    obtain ⟨hle, hchain'⟩ := List.chain'_cons.mp hchain
    cases hcanx : r.can_hit_at x with
    | none =>
      have hinv' := hit_preserves hss hN hinv hle
      simp only [runRL, hcanx] at hcan
      simp only [admitted, hcanx]
      have hrec := ih (r.hit_at x) (H ++ [x]) x t w hinv' hchain' hcan
      have hasc : H ++ x :: admitted (r.hit_at x) l1' =
          (H ++ [x]) ++ admitted (r.hit_at x) l1' := by simp
      rw [hasc]
      exact hrec
    | some w' =>
      have hinv' := defer_preserves hinv hle
      simp only [runRL, hcanx] at hcan
      simp only [admitted, hcanx]
      exact ih r H x t w hinv' hchain' hcan

theorem rinv_new (interval limit : Nat) :
    RInv interval (interval / CAP) limit (Ratelimit.new interval limit)
      [] 0 := by
  refine ⟨rfl, rfl, rfl, rfl, WF_with_capacity _ (by simp), ?_⟩
  have hit : RingBuffer.iter
      (RingBuffer.with_capacity (CAP + 1) : RingBuffer Slot) = [] := rfl
  refine ⟨?_, ?_, ?_, ?_, ?_, ?_⟩ <;>
    simp [Ratelimit.new, hit]

/-- **C6 (amended).** When `CAP = 20` divides the interval and the limit is
positive, the limiter keeps every sliding window of length `interval` at or
under `limit` admitted hits; and whenever it defers a request, at least
`limit` hits already fall within the widened window of length
`interval + interval/CAP` ending at the request (so an ideal limiter over
that widened window would defer too), and the returned wait never exceeds
`interval + interval/CAP`.  (Without the divisibility or positivity
hypotheses the per-window bound is false — see the counterexample.) -/
theorem ratelimit_window_bound_and_slack (interval limit : Nat)
    (hdvd : 20 ∣ interval) (hpos : 0 < interval) (hlim : 0 < limit)
    (ts : List Nat) (hts : List.Chain' (· ≤ ·) ts) :
    (∀ a, ((admitted (Ratelimit.new interval limit) ts).filter
        (fun u => decide (a < u) && decide (u ≤ a + interval))).length ≤
      limit) ∧
    (∀ l1 t l2 w, ts = l1 ++ t :: l2 →
      (runRL (Ratelimit.new interval limit) l1).can_hit_at t = some w →
      limit ≤ ((admitted (Ratelimit.new interval limit) l1).filter
          (fun u => decide (t < u + interval + interval / CAP))).length ∧
      w ≤ interval + interval / CAP) := by
  have hc20 : CAP = 20 := rfl
  have hN : interval = CAP * (interval / CAP) :=
    (Nat.mul_div_cancel' hdvd).symm
  obtain ⟨k, hk⟩ := hdvd
  have hss : 0 < interval / CAP := by
    rw [hc20]
    refine Nat.div_pos ?_ (by decide)
    omega
  have hbase := rinv_new interval limit
  have hwb : WinB interval limit [] := by
    intro a
    simp
  constructor
  · have hchain0 : List.Chain' (· ≤ ·) (0 :: ts) :=
      List.chain'_cons'.mpr ⟨fun y _ => Nat.zero_le y, hts⟩
    have hres := run_winb hss hN hlim ts (Ratelimit.new interval limit)
      [] 0 hbase hwb hchain0
    rw [List.nil_append] at hres
    exact hres
  · intro l1 t l2 w hts_eq hcan
    have hsub : List.Chain' (· ≤ ·) (l1 ++ [t]) := by
      rw [hts_eq] at hts
      exact hts.prefix ⟨l2, by simp⟩
    have hchain0 : List.Chain' (· ≤ ·) (0 :: (l1 ++ [t])) :=
      List.chain'_cons'.mpr ⟨fun y _ => Nat.zero_le y, hsub⟩
    have hres := run_slack hss hN l1 (Ratelimit.new interval limit)
      [] 0 t w hbase hchain0 hcan
    rw [List.nil_append] at hres
    exact hres

/-- **C6 counterexample.** With interval 102 ns (CAP = 20 does not divide
it; `slot_size` truncates to 5) and limit 1, requests at 4 and 105 are both
admitted, yet both lie in the window `(3, 105]` of length 102: the claimed
"never exceeds limit per sliding window of length interval" is false for
the code as written. -/
theorem window_bound_violated_unaligned :
    admitted (Ratelimit.new 102 1) [4, 105] = [4, 105] ∧
    ((admitted (Ratelimit.new 102 1) [4, 105]).filter
      (fun u => decide (3 < u) && decide (u ≤ 3 + 102))).length = 2 ∧
    (Ratelimit.new 102 1).limit = 1 := by
  refine ⟨by decide, by decide, rfl⟩

/-- A concrete aligned run (interval 100, limit 1, requests at 4, 50 and
105; the one at 50 is deferred) at which the amended C6 theorem applies. -/
theorem ratelimit_window_bound_and_slack_witness :
    (∀ a, ((admitted (Ratelimit.new 100 1) [4, 50, 105]).filter
        (fun u => decide (a < u) && decide (u ≤ a + 100))).length ≤ 1) ∧
    (∀ l1 t l2 w, ([4, 50, 105] : List Nat) = l1 ++ t :: l2 →
      (runRL (Ratelimit.new 100 1) l1).can_hit_at t = some w →
      1 ≤ ((admitted (Ratelimit.new 100 1) l1).filter
          (fun u => decide (t < u + 100 + 100 / CAP))).length ∧
      w ≤ 100 + 100 / CAP) :=
  ratelimit_window_bound_and_slack 100 1 (by decide) (by decide) (by decide)
    [4, 50, 105] (by norm_num [List.chain'_cons])

end Rl

/-! ## Location chains (src/db/mod.rs, `build_location_chain`) -/

namespace Db

/-- Fallback label for an unnamed container. -/
def mkContainerName (item_id : ItemId) : String :=
  "Container_" ++ toString item_id

/-- The parent-walk loop of `build_location_chain` (fuel = remaining depth
out of `MAX_DEPTH`); returns the collected chain in push order, the station
name and the final location type. -/
def chainLoop (assets : List (ItemId × AssetItem))
    (assets_names : List (ItemId × String))
    (stations : List (StationId × Station)) :
    Nat → Int → String → List String → String →
    List String × String × String
  | 0, _, current_type, chain, station_name =>
      (chain, station_name, current_type)
  | fuel + 1, current_id, current_type, chain, station_name =>
      match Rmap.find? assets current_id with
      | some parent =>
          let name := (Rmap.find? assets_names parent.item_id).getD
            (mkContainerName parent.item_id)
          if parent.location_type = "station" then
            let station_name' :=
              match Rmap.find? stations (asStationId parent.location_id) with
              | some st => st.name
              | none => station_name
            (chain ++ [name], station_name', parent.location_type)
          else
            chainLoop assets assets_names stations fuel parent.location_id
              parent.location_type (chain ++ [name]) station_name
      | none =>
          let station_name' :=
            if current_type = "station" then
              match Rmap.find? stations (asStationId current_id) with
              | some st => st.name
              | none => station_name
            else station_name
          (chain, station_name', current_type)

/-- `CharacterAssetsDb::build_location_chain` (stats and timings dropped;
the memo cache is passed and returned explicitly). -/
def build_location_chain (asset : AssetItem)
    (assets : List (ItemId × AssetItem))
    (assets_names : List (ItemId × String))
    (stations : List (StationId × Station))
    (cache : List (Int × (String × String × String))) :
    (String × String × String) × List (Int × (String × String × String)) :=
  match Rmap.find? cache asset.location_id with
  | some cached => (cached, cache)
  | none =>
      if asset.location_type = "station" then
        let station_name :=
          match Rmap.find? stations (asStationId asset.location_id) with
          | some st => st.name
          | none => "Unknown"
        let result := (station_name, asset.location_type, "Direct")
        (result, Rmap.insert cache asset.location_id result)
      else
        let step := chainLoop assets assets_names stations 10
          asset.location_id asset.location_type [] "Unknown"
        let location_name :=
          if step.1 = [] then "Direct"
          else String.intercalate " -> " step.1.reverse
        let result := (step.2.1, step.2.2, location_name)
        (result, Rmap.insert cache asset.location_id result)

theorem chainLoop_length (assets : List (ItemId × AssetItem))
    (assets_names : List (ItemId × String))
    (stations : List (StationId × Station)) :
    ∀ (fuel : Nat) (current_id : Int) (current_type : String)
      (chain : List String) (station_name : String),
      (chainLoop assets assets_names stations fuel current_id current_type
        chain station_name).1.length ≤ chain.length + fuel := by
  intro fuel
  induction fuel with
  | zero =>
    intro _ _ _ _
    simp [chainLoop]
  | succ fuel ih =>
    intro current_id current_type chain station_name
    simp only [chainLoop]
    cases hp : Rmap.find? assets current_id with
    | none => simp
    | some parent =>
        by_cases hst : parent.location_type = "station"
        · simp [hst] <;> omega
        · simp only [hst, if_false]
          have := ih parent.location_id parent.location_type
            (chain ++ [(Rmap.find? assets_names parent.item_id).getD
              (mkContainerName parent.item_id)]) station_name
          simp at this
          omega

/-- The specification's scenario: asset `X` sits in container `Y` (named
"Can"), which sits on station `Z` (named "Jita"). -/
def c8X : AssetItem := ⟨1, 5, 100, "item", 1, "Hangar", true, none⟩

def c8Y : AssetItem := ⟨100, 6, 200, "station", 1, "Hangar", true, none⟩

def c8Station : Station :=
  ⟨0, "Jita", 0, none, ⟨0, 0, 0⟩, none, 0, 0, [], 200, 0, 0⟩

def c8Assets : List (ItemId × AssetItem) := [(100, c8Y)]

def c8Names : List (ItemId × String) := [(100, "Can")]

def c8Stations : List (StationId × Station) := [(200, c8Station)]

/-- **C8.** `build_location_chain`: an on-station asset (not in the memo
cache) resolves directly to (station name, "station", "Direct"); the parent
walk collects at most 10 container names (MAX_DEPTH cuts cycles); and on the
specification's scenario — `X.location = Y`, `Y.location = Z.station`, name
`Y = "Can"`, station `Z = "Jita"` — the result is ("Jita", "station",
"Can"). -/
theorem location_chain_spec :
    (∀ (asset : AssetItem) (assets : List (ItemId × AssetItem))
      (assets_names : List (ItemId × String))
      (stations : List (StationId × Station))
      (cache : List (Int × (String × String × String))) (st : Station),
      Rmap.find? cache asset.location_id = none →
      asset.location_type = "station" →
      Rmap.find? stations (asStationId asset.location_id) = some st →
      (build_location_chain asset assets assets_names stations cache).1 =
        (st.name, "station", "Direct")) ∧
    (build_location_chain c8X c8Assets c8Names c8Stations []).1 =
      ("Jita", "station", "Can") ∧
    (∀ (assets : List (ItemId × AssetItem))
      (assets_names : List (ItemId × String))
      (stations : List (StationId × Station)) (current_id : Int)
      (current_type : String),
      (chainLoop assets assets_names stations 10 current_id current_type
        [] "Unknown").1.length ≤ 10) := by
  refine ⟨?_, ?_, ?_⟩
  · intro asset assets assets_names stations cache st hnc hon hst
    simp [build_location_chain, hnc, hon, hst]
  · decide
  · intro assets assets_names stations current_id current_type
    have := chainLoop_length assets assets_names stations 10 current_id
      current_type [] "Unknown"
    simpa using this

end Db

/-! ## Dynamics report (src/handlers/dynamics/mod.rs and
src/handlers/dynamics/virtual_attributes.rs) -/

namespace Dyn

/-- Report-side `AttributeValue` (f64 modelled as `Rat`). -/
structure AttributeValue where
  id : DogmaAttributeId
  value : Rat
  deriving DecidableEq, Repr

/-- Report-side `AttributeRange` (field order `id`, `min`, `max` as in the
source). -/
structure AttributeRange where
  id : DogmaAttributeId
  min : Rat
  max : Rat
  deriving DecidableEq, Repr

/-- Report-side `VaryingAttribute`. -/
structure VaryingAttribute where
  id : DogmaAttributeId
  name : String
  high_is_good : Option Bool
  deriving DecidableEq, Repr

/-- Report-side `MutatorConcise`. -/
structure MutatorConcise where
  id : TypeId
  name : String
  attributes : List AttributeRange
  deriving DecidableEq, Repr

/-- Report-side `BaseItemType`. -/
structure BaseItemType where
  id : TypeId
  name : String
  attributes : List AttributeValue
  deriving DecidableEq, Repr

/-- Report-side `DynamicItemData` (the `Arc<str>` fields are plain
strings). -/
structure DynamicItemData where
  item_id : ItemId
  station_name : String
  location_type : String
  location_name : String
  attributes : List AttributeValue
  deriving DecidableEq, Repr

/-- Report-side `SourceMutatorGroup`. -/
structure SourceMutatorGroup where
  source_type_id : TypeId
  mutator_type_id : TypeId
  attributes : List AttributeRange
  dynamics : List DynamicItemData
  deriving DecidableEq, Repr

/-- Report-side `ResultingGroup`. -/
structure ResultingGroup where
  source_mutator_groups : List SourceMutatorGroup
  base_types : List BaseItemType
  mutators : List MutatorConcise
  varying_attributes : List VaryingAttribute
  min_max_attributes : List AttributeRange
  deriving DecidableEq, Repr

/-- `DynamicsReport` (the `generated_at` timestamp is dropped; the
name-keyed `BTreeMap` is an association list, later same-name groups
overwriting earlier ones as in the map). -/
structure DynamicsReport where
  data : List (String × ResultingGroup)
  deriving DecidableEq, Repr

/-- `DynamicsError` (payloads kept; the `Display` strings are not
modelled). -/
inductive DynamicsError where
  | duplicateAttributes (item_group : String) (attributes : List DogmaAttributeId)
  | notFoundSourceType (item_group : String) (type_id : TypeId)
  | duplicateBaseTypes (item_group : String) (type_ids : List TypeId)
  | notFoundMutatorType (item_group : String) (type_id : TypeId)
  | duplicateMutatorTypes (item_group : String) (type_ids : List TypeId)
  | mismatchedAttributes (item_group : String)
      (a_minus_b b_minus_a : List DogmaAttributeId) (place : String)
  | databaseError (msg : String)
  deriving DecidableEq, Repr

instance {ε α : Type} [DecidableEq ε] [DecidableEq α] :
    DecidableEq (Except ε α)
  | Except.error e1, Except.error e2 =>
      if h : e1 = e2 then isTrue (by rw [h])
      else isFalse (by intro hc; cases hc; exact h rfl)
  | Except.error _, Except.ok _ => isFalse (fun hc => Except.noConfusion hc)
  | Except.ok _, Except.error _ => isFalse (fun hc => Except.noConfusion hc)
  | Except.ok a1, Except.ok a2 =>
      if h : a1 = a2 then isTrue (by rw [h])
      else isFalse (by intro hc; cases hc; exact h rfl)

/-- `duplicates`: the elements occurring more than once (the Rust
`HashMap` iteration order is arbitrary; here first-occurrence order —
only emptiness is ever consumed). -/
def duplicates {α : Type} [DecidableEq α] (v : List α) : List α :=
  v.eraseDups.filter (fun e => 1 < v.count e)

/-- A Rust `BTreeSet<DogmaAttributeId>` collected from an id list. -/
def idSet (ids : List Int) : Finset Int := ids.toFinset

/-- `BTreeSet::difference`, iterated in ascending order. -/
def sortedDiff (a b : Finset Int) : List Int := (a \ b).sort (· ≤ ·)

/-- Compile-time `VirtualAttributeFormula` table entry. -/
structure VirtualAttributeFormula where
  virtual_id : DogmaAttributeId
  name : String
  high_is_good : Option Bool
  numerator_attr_names : List String
  denominator_attr_names : List String
  deriving DecidableEq, Repr

/-- `VIRTUAL_FORMULAS` from virtual_attributes.rs (ids -1 .. -7). -/
def VIRTUAL_FORMULAS : List VirtualAttributeFormula :=
  [⟨-1, "Armor Repair Efficiency", some true,
    ["Armor Hitpoints Repaired"], ["Activation Cost"]⟩,
   ⟨-2, "Armor Repair Speed", some true,
    ["Armor Hitpoints Repaired"], ["Activation time / duration"]⟩,
   ⟨-3, "Shield Repair Efficiency", some true,
    ["Shield Bonus"], ["Activation Cost"]⟩,
   ⟨-4, "Shield Repair Speed", some true,
    ["Shield Bonus"], ["Activation time / duration"]⟩,
   ⟨-5, "DPS Modifier", some true,
    ["Damage Modifier"], ["rate of fire bonus"]⟩,
   ⟨-6, "Missile DPS Modifier", some true,
    ["Missile Damage Bonus"], ["rate of fire bonus"]⟩,
   ⟨-7, "Neutralization Efficiency", some true,
    ["Neutralization Amount"], ["Activation Cost"]⟩]

/-- `ResolvedVirtualAttributeFormula`. -/
structure ResolvedVirtualAttributeFormula where
  virtual_id : DogmaAttributeId
  name : String
  high_is_good : Option Bool
  numerator_attr_ids : List DogmaAttributeId
  denominator_attr_ids : List DogmaAttributeId
  deriving DecidableEq, Repr

/-- Rust `initialize_virtual_attributes`: resolve every formula name via
the store resolver; `none` models the resolver's panic on an unknown
attribute name. -/
def resolve_virtual_attributes
    (resolver : String → Option DogmaAttributeId) :
    Option (List ResolvedVirtualAttributeFormula) :=
  VIRTUAL_FORMULAS.mapM (fun formula =>
    (formula.numerator_attr_names.mapM resolver).bind (fun nums =>
      (formula.denominator_attr_names.mapM resolver).map (fun dens =>
        ⟨formula.virtual_id, formula.name, formula.high_is_good, nums, dens⟩)))

/-- First attribute with the given id, if any (the inner `break` loop of
the `append_*` helpers). -/
def findAttrValue (attributes : List AttributeValue)
    (i : DogmaAttributeId) : Option Rat :=
  (attributes.find? (fun attr => attr.id == i)).map (fun attr => attr.value)

/-- One formula step of `append_attribute_values`: if no numerator or
denominator id is missing and the denominator product is nonzero, push the
virtual value. -/
def appendOneValue (attributes : List AttributeValue)
    (formula : ResolvedVirtualAttributeFormula) : List AttributeValue :=
  match formula.numerator_attr_ids.mapM (findAttrValue attributes),
      formula.denominator_attr_ids.mapM (findAttrValue attributes) with
  | some nums, some dens =>
      let numerator_product := nums.foldl (fun acc v => acc * v) 1
      let denominator_product := dens.foldl (fun acc v => acc * v) 1
      if denominator_product ≠ 0 then
        attributes ++
          [⟨formula.virtual_id, numerator_product / denominator_product⟩]
      else attributes
  | _, _ => attributes

/-- `append_attribute_values` over the resolved formulas. -/
def append_attribute_values
    (formulas : List ResolvedVirtualAttributeFormula)
    (attributes : List AttributeValue) : List AttributeValue :=
  formulas.foldl appendOneValue attributes

/-- First attribute range with the given id, if any. -/
def findAttrRange (attributes : List AttributeRange)
    (i : DogmaAttributeId) : Option (Rat × Rat) :=
  (attributes.find? (fun attr => attr.id == i)).map
    (fun attr => (attr.min, attr.max))

/-- One formula step of `append_min_max_attribute_values`. -/
def appendOneRange (attributes : List AttributeRange)
    (formula : ResolvedVirtualAttributeFormula) : List AttributeRange :=
  match formula.numerator_attr_ids.mapM (findAttrRange attributes),
      formula.denominator_attr_ids.mapM (findAttrRange attributes) with
  | some nums, some dens =>
      let min_numerator_product := nums.foldl (fun acc p => acc * p.1) (1 : Rat)
      let max_numerator_product := nums.foldl (fun acc p => acc * p.2) (1 : Rat)
      let min_denominator_product := dens.foldl (fun acc p => acc * p.1) (1 : Rat)
      let max_denominator_product := dens.foldl (fun acc p => acc * p.2) (1 : Rat)
      if min_denominator_product ≠ 0 ∧ max_denominator_product ≠ 0 then
        let v1 := min_numerator_product / max_denominator_product
        let v2 := max_numerator_product / min_denominator_product
        attributes ++ [⟨formula.virtual_id, min v1 v2, max v1 v2⟩]
      else attributes
  | _, _ => attributes

/-- `append_min_max_attribute_values` over the resolved formulas. -/
def append_min_max_attribute_values
    (formulas : List ResolvedVirtualAttributeFormula)
    (attributes : List AttributeRange) : List AttributeRange :=
  formulas.foldl appendOneRange attributes

/-- One formula step of `append_varying_attributes`: push the virtual
varying attribute when every numerator and denominator id is present. -/
def appendOneVarying (attributes : List VaryingAttribute)
    (formula : ResolvedVirtualAttributeFormula) : List VaryingAttribute :=
  if formula.numerator_attr_ids.all
        (fun i => attributes.any (fun attr => attr.id == i)) &&
      formula.denominator_attr_ids.all
        (fun i => attributes.any (fun attr => attr.id == i)) then
    attributes ++ [⟨formula.virtual_id, formula.name, formula.high_is_good⟩]
  else attributes

/-- `append_varying_attributes` over the resolved formulas. -/
def append_varying_attributes
    (formulas : List ResolvedVirtualAttributeFormula)
    (attributes : List VaryingAttribute) : List VaryingAttribute :=
  formulas.foldl appendOneVarying attributes

/-- The `AttributeValue` list collected from a dynamic item's dogma
attributes. -/
def dynamicAttrValues (dynamic : DynamicItem) : List AttributeValue :=
  dynamic.dogma_attributes.map (fun attr => ⟨attr.attribute_id, attr.value⟩)

/-- `map.entry(k).or_default().push(v)` on an association list of
lists. -/
def pushEntry {α β : Type} [DecidableEq α]
    (m : List (α × List β)) (k : α) (v : β) : List (α × List β) :=
  Rmap.insert m k ((Rmap.find? m k).getD [] ++ [v])

/-- The per-dynamic loop of `DynamicsReport::new` building
`dynamics_by_source_mutator` (timings and progress printing dropped; the
location cache is threaded explicitly; `none` models the panicking
`assets.get(item_id).unwrap()`). -/
def collectDynamics (s : Db.CharacterAssets) :
    List (ItemId × DynamicItem) →
    List (Int × (String × String × String)) →
    List ((TypeId × TypeId) × List DynamicItemData) →
    Option (List ((TypeId × TypeId) × List DynamicItemData))
  | [], _, acc => some acc
  | (item_id, dynamic) :: rest, cache, acc =>
      match Rmap.find? s.assets item_id with
      | none => none
      | some asset =>
          let step := Db.build_location_chain asset s.assets s.assets_names
            s.stations cache
          let item : DynamicItemData :=
            ⟨item_id, step.1.1, step.1.2.1, step.1.2.2,
              dynamicAttrValues dynamic⟩
          collectDynamics s rest step.2
            (pushEntry acc (dynamic.source_type_id, dynamic.mutator_type_id)
              item)

/-- The loop of `DynamicsReport::new` building
`resulting_to_source_mutator`; `none` models the propagated database
error of `get_resulting_type_by_source_mutator`. -/
def groupByResulting (s : Db.CharacterAssets) :
    List (TypeId × TypeId) → List (TypeId × List (TypeId × TypeId)) →
    Option (List (TypeId × List (TypeId × TypeId)))
  | [], acc => some acc
  | (source_type_id, mutator_type_id) :: rest, acc =>
      match Db.CharacterAssets.get_resulting_type_by_source_mutator s
          source_type_id mutator_type_id with
      | none => none
      | some resulting_type_id =>
          groupByResulting s rest
            (pushEntry acc resulting_type_id (source_type_id, mutator_type_id))

/-- The `intersected_attributes` fold: starting from the first mutator's
id set, retain only the ids every other mutator also has; `none` models
the `first().unwrap()` panic on an empty list (the `all_same` flag feeds
only a log line and is dropped). -/
def intersectLists :
    List (List DogmaAttributeId) → Option (List DogmaAttributeId)
  | [] => none
  | first :: rest =>
      some (rest.foldl
        (fun acc set => acc.filter (fun x => set.contains x)) first)

/-- The `varying_attributes` collection loop; `none` models the
`dogma_attributes.get(&attr_id).unwrap()` panic. -/
def mkVarying (s : Db.CharacterAssets) :
    List DogmaAttributeId → Option (List VaryingAttribute)
  | [] => some []
  | attr_id :: rest =>
      match Rmap.find? s.dogma_attributes attr_id with
      | none => none
      | some da =>
          (mkVarying s rest).map (fun tail =>
            ⟨da.attribute_id,
              da.name.getD ("attribute_" ++ toString da.attribute_id),
              da.high_is_good⟩ :: tail)

/-- The `base_types` filter-map: types-table hits keep their dogma
attributes restricted to the varying ids (then the virtual values are
appended); misses are skipped with only a log line. -/
def mkBaseTypes (types : List (TypeId × ItemType))
    (formulas : List ResolvedVirtualAttributeFormula)
    (varying_attribute_ids : List DogmaAttributeId) :
    List TypeId → List BaseItemType
  | [] => []
  | type_id :: rest =>
      match Rmap.find? types type_id with
      | some item_type =>
          ⟨type_id, item_type.name,
            append_attribute_values formulas
              ((item_type.dogma_attributes.filter
                (fun a => varying_attribute_ids.contains a.attribute_id)).map
                (fun a => ⟨a.attribute_id, a.value⟩))⟩ ::
            mkBaseTypes types formulas varying_attribute_ids rest
      | none => mkBaseTypes types formulas varying_attribute_ids rest

/-- The `source_mutator_groups` loop of `DynamicsReport::new`: per
`(source, mutator)` pair the group's dynamics keep only varying ids (plus
appended virtuals) and the pair's ranges come from the source type's
dogma values scaled by the mutator's ranges; `none` models the `unwrap`s
on the dynamics map and types table and the propagated database error of
`get_attributes_by_mutator_type_id`. -/
def mkSmgs (s : Db.CharacterAssets)
    (formulas : List ResolvedVirtualAttributeFormula)
    (varying_attribute_ids : List DogmaAttributeId)
    (dynamics_by_source_mutator :
      List ((TypeId × TypeId) × List DynamicItemData)) :
    List (TypeId × TypeId) → Option (List SourceMutatorGroup)
  | [] => some []
  | (source_type_id, mutator_type_id) :: rest =>
      match Rmap.find? dynamics_by_source_mutator
          (source_type_id, mutator_type_id) with
      | none => none
      | some dyns =>
          let dynamics := dyns.map (fun dynamic =>
            { dynamic with
              attributes :=
                append_attribute_values formulas
                  (dynamic.attributes.filter
                    (fun attr => varying_attribute_ids.contains attr.id)) })
          match Rmap.find? s.types source_type_id with
          | none => none
          | some source_type =>
              match Db.CharacterAssets.get_attributes_by_mutator_type_id s
                  mutator_type_id with
              | none => none
              | some attributes_map =>
                  let attributes :=
                    source_type.dogma_attributes.filterMap (fun attr =>
                      (Rmap.find? attributes_map attr.attribute_id).map
                        (fun attr_range =>
                          let v1 := attr.value * attr_range.min
                          let v2 := attr.value * attr_range.max
                          if v1 < v2 then
                            (⟨attr.attribute_id, v1, v2⟩ : AttributeRange)
                          else ⟨attr.attribute_id, v2, v1⟩))
                  match mkSmgs s formulas varying_attribute_ids
                      dynamics_by_source_mutator rest with
                  | none => none
                  | some tail =>
                      some (⟨source_type_id, mutator_type_id,
                        append_min_max_attribute_values formulas attributes,
                        dynamics⟩ :: tail)

/-- One resulting group of the report, exactly as assembled by the body
of the outer loop of `DynamicsReport::new` (returns the group keyed by
the resulting type's name). -/
def mkGroup (s : Db.CharacterAssets)
    (formulas : List ResolvedVirtualAttributeFormula)
    (dynamics_by_source_mutator :
      List ((TypeId × TypeId) × List DynamicItemData))
    (resulting_type_id : TypeId)
    (source_mutators : List (TypeId × TypeId)) :
    Option (String × ResultingGroup) :=
  match Rmap.find? s.types resulting_type_id with
  | none => none
  | some resulting_type =>
      match source_mutators.mapM (fun p =>
          Db.CharacterAssets.get_attribute_ids_by_mutator s p.2) with
      | none => none
      | some possible_attributes =>
          match intersectLists possible_attributes with
          | none => none
          | some intersected_attributes =>
              match mkVarying s intersected_attributes with
              | none => none
              | some collected =>
                  let varying_attributes :=
                    append_varying_attributes formulas collected
                  let varying_attribute_ids :=
                    varying_attributes.map (fun a => a.id)
                  match Db.CharacterAssets.get_applicable_types_by_resulting_type
                      s resulting_type_id with
                  | none => none
                  | some applicable =>
                      match Db.CharacterAssets.get_mutators_by_resulting_type_id
                          s resulting_type_id with
                      | none => none
                      | some raw_mutators =>
                          match Db.CharacterAssets.get_min_max_attributes_by_resulting_type_id
                              s resulting_type_id with
                          | none => none
                          | some raw_min_max =>
                              match mkSmgs s formulas varying_attribute_ids
                                  dynamics_by_source_mutator source_mutators with
                              | none => none
                              | some source_mutator_groups =>
                                  some (resulting_type.name,
                                    ⟨source_mutator_groups,
                                      mkBaseTypes s.types formulas
                                        varying_attribute_ids applicable,
                                      raw_mutators.map (fun e =>
                                        ⟨e.1.1, e.1.2,
                                          append_min_max_attribute_values formulas
                                            (e.2.map (fun p =>
                                              ⟨p.1, p.2.min, p.2.max⟩))⟩),
                                      varying_attributes,
                                      append_min_max_attribute_values formulas
                                        (raw_min_max.map (fun p =>
                                          ⟨p.1, p.2.min, p.2.max⟩))⟩)

/-- The outer report loop, inserting each resulting group under its
name. -/
def buildReportLoop (s : Db.CharacterAssets)
    (formulas : List ResolvedVirtualAttributeFormula)
    (dynamics_by_source_mutator :
      List ((TypeId × TypeId) × List DynamicItemData)) :
    List (TypeId × List (TypeId × TypeId)) →
    List (String × ResultingGroup) →
    Option (List (String × ResultingGroup))
  | [], report => some report
  | (resulting_type_id, source_mutators) :: rest, report =>
      match mkGroup s formulas dynamics_by_source_mutator resulting_type_id
          source_mutators with
      | none => none
      | some entry =>
          buildReportLoop s formulas dynamics_by_source_mutator rest
            (Rmap.insert report entry.1 entry.2)

/-- `DynamicsReport::new` over a store snapshot: resolve the virtual
formulas, group the dynamics, group the pairs by resulting type and build
every group. The integrity check's outcome is only printed by the source,
so it does not influence the result; `none` collects every panicking
`unwrap` and propagated database error. -/
def DynamicsReport.new (s : Db.CharacterAssets) : Option DynamicsReport :=
  match resolve_virtual_attributes
      (fun name => Db.CharacterAssets.get_attribute_id_by_name s name) with
  | none => none
  | some formulas =>
      match collectDynamics s s.dynamics [] [] with
      | none => none
      | some dynamics_by_source_mutator =>
          match groupByResulting s
              (dynamics_by_source_mutator.map (fun e => e.1)) [] with
          | none => none
          | some resulting_to_source_mutator =>
              (buildReportLoop s formulas dynamics_by_source_mutator
                  resulting_to_source_mutator []).map
                (fun data => ⟨data⟩)

/-- The shared id-set comparison of `check_integrity`: the list's id set
must equal `varying_attribute_ids`, otherwise a `MismatchedAttributes`
error with both sorted differences. -/
def checkSetEq (item_group : String) (place : String)
    (varying_attribute_ids : Finset Int) (ids : List Int) :
    Except DynamicsError Unit :=
  if idSet ids = varying_attribute_ids then Except.ok ()
  else Except.error (.mismatchedAttributes item_group
    (sortedDiff varying_attribute_ids (idSet ids))
    (sortedDiff (idSet ids) varying_attribute_ids) place)

/-- The per-dynamic loop of `check_integrity` inside one source-mutator
group. -/
def checkDynamics (item_group : String)
    (varying_attribute_ids : Finset Int) :
    List DynamicItemData → Except DynamicsError Unit
  | [] => Except.ok ()
  | dynamic :: rest =>
      match checkSetEq item_group
          ("dynamic[" ++ toString dynamic.item_id ++ "]")
          varying_attribute_ids (dynamic.attributes.map (fun a => a.id)) with
      | Except.error e => Except.error e
      | Except.ok _ => checkDynamics item_group varying_attribute_ids rest

/-- The per-base-type loop of `check_integrity`. -/
def checkBaseTypes (item_group : String)
    (varying_attribute_ids : Finset Int) :
    List BaseItemType → Except DynamicsError Unit
  | [] => Except.ok ()
  | base_type :: rest =>
      match checkSetEq item_group
          ("base_type[" ++ toString base_type.id ++ "]")
          varying_attribute_ids (base_type.attributes.map (fun a => a.id)) with
      | Except.error e => Except.error e
      | Except.ok _ => checkBaseTypes item_group varying_attribute_ids rest

/-- The per-mutator loop of `check_integrity`. -/
def checkMutators (item_group : String)
    (varying_attribute_ids : Finset Int) :
    List MutatorConcise → Except DynamicsError Unit
  | [] => Except.ok ()
  | mutator :: rest =>
      match checkSetEq item_group ("mutator[" ++ toString mutator.id ++ "]")
          varying_attribute_ids (mutator.attributes.map (fun a => a.id)) with
      | Except.error e => Except.error e
      | Except.ok _ => checkMutators item_group varying_attribute_ids rest

/-- The per-source-mutator-group loop of `check_integrity`: source and
mutator types must appear (without duplicates) in the group's base-type
and mutator lists, and the pair's ranges and each dynamic's values must
cover exactly the varying ids. -/
def checkSmgs (item_group : String) (base_types : List BaseItemType)
    (mutators : List MutatorConcise) (varying_attribute_ids : Finset Int) :
    List SourceMutatorGroup → Except DynamicsError Unit
  | [] => Except.ok ()
  | smg :: rest =>
      if (base_types.any (fun t => t.id == smg.source_type_id)) = false then
        Except.error (.notFoundSourceType item_group smg.source_type_id)
      else if duplicates (base_types.map (fun t => t.id)) ≠ [] then
        Except.error (.duplicateBaseTypes item_group
          (duplicates (base_types.map (fun t => t.id))))
      else if (mutators.any (fun t => t.id == smg.mutator_type_id)) = false then
        Except.error (.notFoundMutatorType item_group smg.mutator_type_id)
      else if duplicates (mutators.map (fun t => t.id)) ≠ [] then
        Except.error (.duplicateMutatorTypes item_group
          (duplicates (mutators.map (fun t => t.id))))
      else
        match checkSetEq item_group "attributes" varying_attribute_ids
            (smg.attributes.map (fun a => a.id)) with
        | Except.error e => Except.error e
        | Except.ok _ =>
            match checkDynamics item_group varying_attribute_ids
                smg.dynamics with
            | Except.error e => Except.error e
            | Except.ok _ =>
                checkSmgs item_group base_types mutators
                  varying_attribute_ids rest

/-- The per-group body of `check_integrity`. -/
def checkGroup (item_group_name : String) (item_group : ResultingGroup) :
    Except DynamicsError Unit :=
  if duplicates (item_group.varying_attributes.map (fun a => a.id)) ≠ [] then
    Except.error (.duplicateAttributes item_group_name
      (duplicates (item_group.varying_attributes.map (fun a => a.id))))
  else
    match checkSmgs item_group_name item_group.base_types item_group.mutators
        (idSet (item_group.varying_attributes.map (fun a => a.id)))
        item_group.source_mutator_groups with
    | Except.error e => Except.error e
    | Except.ok _ =>
        match checkBaseTypes item_group_name
            (idSet (item_group.varying_attributes.map (fun a => a.id)))
            item_group.base_types with
        | Except.error e => Except.error e
        | Except.ok _ =>
            match checkMutators item_group_name
                (idSet (item_group.varying_attributes.map (fun a => a.id)))
                item_group.mutators with
            | Except.error e => Except.error e
            | Except.ok _ =>
                checkSetEq item_group_name "min_max_attributes"
                  (idSet (item_group.varying_attributes.map (fun a => a.id)))
                  (item_group.min_max_attributes.map (fun a => a.id))

/-- `DynamicsReport::check_integrity` over the report's group list. -/
def check_integrity :
    List (String × ResultingGroup) → Except DynamicsError Unit
  | [] => Except.ok ()
  | (item_group_name, item_group) :: rest =>
      match checkGroup item_group_name item_group with
      | Except.error e => Except.error e
      | Except.ok _ => check_integrity rest

/-- A published dogma attribute carrying only an id and a name. -/
def c5Attr (i : Int) (nm : String) : DogmaAttribute :=
  ⟨i, none, none, none, none, none, some nm, none, none, none⟩

/-- An item type carrying only an id, a name and dogma values. -/
def c5Type (i : Int) (nm : String) (attrs : List DogmaAttributeConcise) :
    ItemType :=
  ⟨none, "", attrs, [], none, 0, none, none, none, nm, none, none, true,
    none, i, none⟩

/-- A store with one resulting type (2000) reachable through two mutators
whose attribute sets differ: mutator 1000 mutates id 50 only, mutator
1001 mutates ids 50 and 60. The eight attribute names referenced by the
virtual formulas are present so the formula resolution succeeds. -/
def c5Store : Db.CharacterAssets :=
  { assets := [(500, ⟨500, 2000, 0, "other", 1, "Hangar", true, none⟩),
               (501, ⟨501, 2000, 0, "other", 1, "Hangar", true, none⟩)],
    assets_names := [],
    stations := [],
    dynamics := [(500, ⟨0, [⟨50, 3⟩], [], 1000, 100⟩),
                 (501, ⟨0, [⟨50, 4⟩], [], 1001, 100⟩)],
    dogma_attributes :=
      [(1, c5Attr 1 "Armor Hitpoints Repaired"),
       (2, c5Attr 2 "Activation Cost"),
       (3, c5Attr 3 "Activation time / duration"),
       (4, c5Attr 4 "Shield Bonus"),
       (5, c5Attr 5 "Damage Modifier"),
       (6, c5Attr 6 "rate of fire bonus"),
       (7, c5Attr 7 "Missile Damage Bonus"),
       (8, c5Attr 8 "Neutralization Amount"),
       (50, c5Attr 50 "Mutated Attr A"),
       (60, c5Attr 60 "Mutated Attr B")],
    dogma_attributes_name_to_id :=
      [("Armor Hitpoints Repaired", 1), ("Activation Cost", 2),
       ("Activation time / duration", 3), ("Shield Bonus", 4),
       ("Damage Modifier", 5), ("rate of fire bonus", 6),
       ("Missile Damage Bonus", 7), ("Neutralization Amount", 8),
       ("Mutated Attr A", 50), ("Mutated Attr B", 60)],
    types := [(100, c5Type 100 "Source" [⟨50, 10⟩]),
              (2000, c5Type 2000 "Resulting" []),
              (1000, c5Type 1000 "Mutator One" []),
              (1001, c5Type 1001 "Mutator Two" [])],
    market_groups := [],
    abyssal_items := [],
    mutaplasmid_effects :=
      { source_to_mutator_to_resulting := [(100, [(1000, 2000), (1001, 2000)])],
        resulting_to_applicable := [(2000, [100])],
        resulting_to_mutator_to_source :=
          [(2000, [(1000, [100]), (1001, [100])])],
        attributes := [(1000, [(50, ⟨2, 1⟩)]),
                       (1001, [(50, ⟨2, 1⟩), (60, ⟨3, 2⟩)])] } }

/-- The report generated from `c5Store`. -/
def c5Report : DynamicsReport := (DynamicsReport.new c5Store).getD ⟨[]⟩

theorem checkSetEq_ok {item_group place : String} {varying : Finset Int}
    {ids : List Int}
    (h : checkSetEq item_group place varying ids = Except.ok ()) :
    idSet ids = varying := by
  by_cases hc : idSet ids = varying
  · exact hc
  · simp only [checkSetEq, if_neg hc] at h
    exact Except.noConfusion h

theorem checkDynamics_ok (item_group : String) (varying : Finset Int) :
    ∀ (dyns : List DynamicItemData),
      checkDynamics item_group varying dyns = Except.ok () →
      ∀ d ∈ dyns, idSet (d.attributes.map (fun a => a.id)) = varying := by
  intro dyns
  induction dyns with
  | nil => intro _ d hd; exact absurd hd (List.not_mem_nil d)
  | cons dyn rest ih =>
      intro h d hd
      simp only [checkDynamics] at h
      cases hcs : checkSetEq item_group
          ("dynamic[" ++ toString dyn.item_id ++ "]") varying
          (dyn.attributes.map (fun a => a.id)) with
      | error e => simp only [hcs] at h; exact Except.noConfusion h
      | ok u =>
          simp only [hcs] at h
          cases u
          rcases List.mem_cons.mp hd with h1 | h2
          · subst h1; exact checkSetEq_ok hcs
          · exact ih h d h2

theorem checkBaseTypes_ok (item_group : String) (varying : Finset Int) :
    ∀ (bts : List BaseItemType),
      checkBaseTypes item_group varying bts = Except.ok () →
      ∀ b ∈ bts, idSet (b.attributes.map (fun a => a.id)) = varying := by
  intro bts
  induction bts with
  | nil => intro _ b hb; exact absurd hb (List.not_mem_nil b)
  | cons bt rest ih =>
      intro h b hb
      simp only [checkBaseTypes] at h
      cases hcs : checkSetEq item_group
          ("base_type[" ++ toString bt.id ++ "]") varying
          (bt.attributes.map (fun a => a.id)) with
      | error e => simp only [hcs] at h; exact Except.noConfusion h
      | ok u =>
          simp only [hcs] at h
          cases u
          rcases List.mem_cons.mp hb with h1 | h2
          · subst h1; exact checkSetEq_ok hcs
          · exact ih h b h2

theorem checkMutators_ok (item_group : String) (varying : Finset Int) :
    ∀ (ms : List MutatorConcise),
      checkMutators item_group varying ms = Except.ok () →
      ∀ m ∈ ms, idSet (m.attributes.map (fun a => a.id)) = varying := by
  intro ms
  induction ms with
  | nil => intro _ m hm; exact absurd hm (List.not_mem_nil m)
  | cons mu rest ih =>
      intro h m hm
      simp only [checkMutators] at h
      cases hcs : checkSetEq item_group
          ("mutator[" ++ toString mu.id ++ "]") varying
          (mu.attributes.map (fun a => a.id)) with
      | error e => simp only [hcs] at h; exact Except.noConfusion h
      | ok u =>
          simp only [hcs] at h
          cases u
          rcases List.mem_cons.mp hm with h1 | h2
          · subst h1; exact checkSetEq_ok hcs
          · exact ih h m h2

theorem checkSmgs_ok (item_group : String) (base_types : List BaseItemType)
    (mutators : List MutatorConcise) (varying : Finset Int) :
    ∀ (smgs : List SourceMutatorGroup),
      checkSmgs item_group base_types mutators varying smgs = Except.ok () →
      ∀ smg ∈ smgs,
        idSet (smg.attributes.map (fun a => a.id)) = varying ∧
        ∀ d ∈ smg.dynamics,
          idSet (d.attributes.map (fun a => a.id)) = varying := by
  intro smgs
  induction smgs with
  | nil => intro _ smg hs; exact absurd hs (List.not_mem_nil smg)
  | cons smg0 rest ih =>
      intro h s hs
      simp only [checkSmgs] at h
      split at h
      · exact Except.noConfusion h
      · split at h
        · exact Except.noConfusion h
        · split at h
          · exact Except.noConfusion h
          · split at h
            · exact Except.noConfusion h
            · cases hcs : checkSetEq item_group "attributes" varying
                  (smg0.attributes.map (fun a => a.id)) with
              | error e => simp only [hcs] at h; exact Except.noConfusion h
              | ok u =>
                  simp only [hcs] at h
                  cases hcd : checkDynamics item_group varying
                      smg0.dynamics with
                  | error e =>
                      simp only [hcd] at h; exact Except.noConfusion h
                  | ok u2 =>
                      simp only [hcd] at h
                      cases u; cases u2
                      rcases List.mem_cons.mp hs with h1 | h2
                      · subst h1
                        exact ⟨checkSetEq_ok hcs,
                          checkDynamics_ok item_group varying _ hcd⟩
                      · exact ih h s h2

theorem checkGroup_ok {item_group_name : String} {g : ResultingGroup}
    (h : checkGroup item_group_name g = Except.ok ()) :
    duplicates (g.varying_attributes.map (fun a => a.id)) = [] ∧
    checkSmgs item_group_name g.base_types g.mutators
      (idSet (g.varying_attributes.map (fun a => a.id)))
      g.source_mutator_groups = Except.ok () ∧
    checkBaseTypes item_group_name
      (idSet (g.varying_attributes.map (fun a => a.id)))
      g.base_types = Except.ok () ∧
    checkMutators item_group_name
      (idSet (g.varying_attributes.map (fun a => a.id)))
      g.mutators = Except.ok () ∧
    idSet (g.min_max_attributes.map (fun a => a.id)) =
      idSet (g.varying_attributes.map (fun a => a.id)) := by
  simp only [checkGroup] at h
  split at h
  · exact Except.noConfusion h
  · rename_i hdup
    cases hsm : checkSmgs item_group_name g.base_types g.mutators
        (idSet (g.varying_attributes.map (fun a => a.id)))
        g.source_mutator_groups with
    | error e => simp only [hsm] at h; exact Except.noConfusion h
    | ok u =>
        simp only [hsm] at h
        cases hbt : checkBaseTypes item_group_name
            (idSet (g.varying_attributes.map (fun a => a.id)))
            g.base_types with
        | error e => simp only [hbt] at h; exact Except.noConfusion h
        | ok u2 =>
            simp only [hbt] at h
            cases hmu : checkMutators item_group_name
                (idSet (g.varying_attributes.map (fun a => a.id)))
                g.mutators with
            | error e => simp only [hmu] at h; exact Except.noConfusion h
            | ok u3 =>
                simp only [hmu] at h
                cases u; cases u2; cases u3
                exact ⟨not_not.mp hdup, rfl, rfl, rfl, checkSetEq_ok h⟩

theorem check_integrity_ok :
    ∀ (data : List (String × ResultingGroup)),
      check_integrity data = Except.ok () →
      ∀ p ∈ data, checkGroup p.1 p.2 = Except.ok () := by
  intro data
  induction data with
  | nil => intro _ p hp; exact absurd hp (List.not_mem_nil p)
  | cons e rest ih =>
      obtain ⟨nm, g⟩ := e
      intro h p hp
      simp only [check_integrity] at h
      cases hcg : checkGroup nm g with
      | error e2 => simp only [hcg] at h; exact Except.noConfusion h
      | ok u =>
          simp only [hcg] at h
          cases u
          rcases List.mem_cons.mp hp with h1 | h2
          · subst h1; exact hcg
          · exact ih h p h2

/-- **C5 (amended).** The report builder does not itself enforce the
attribute-id discipline (see the counterexample); it is
`check_integrity` that verifies it, and whenever `check_integrity`
accepts a report, every group's varying-attribute ids are duplicate-free
and every attribute-id list in the group — per mutator, per base type,
per source-mutator pair, per dynamic instance, and `min_max_attributes`
— has exactly the same id set as `varying_attributes`. -/
theorem integrity_ok_attribute_sets
    (data : List (String × ResultingGroup))
    (h : check_integrity data = Except.ok ()) :
    ∀ p ∈ data,
      duplicates (p.2.varying_attributes.map (fun a => a.id)) = [] ∧
      (∀ m ∈ p.2.mutators,
        idSet (m.attributes.map (fun a => a.id)) =
          idSet (p.2.varying_attributes.map (fun a => a.id))) ∧
      (∀ b ∈ p.2.base_types,
        idSet (b.attributes.map (fun a => a.id)) =
          idSet (p.2.varying_attributes.map (fun a => a.id))) ∧
      (∀ smg ∈ p.2.source_mutator_groups,
        idSet (smg.attributes.map (fun a => a.id)) =
          idSet (p.2.varying_attributes.map (fun a => a.id)) ∧
        ∀ d ∈ smg.dynamics,
          idSet (d.attributes.map (fun a => a.id)) =
            idSet (p.2.varying_attributes.map (fun a => a.id))) ∧
      idSet (p.2.min_max_attributes.map (fun a => a.id)) =
        idSet (p.2.varying_attributes.map (fun a => a.id)) := by
  intro p hp
  obtain ⟨hdup, hsm, hbt, hmu, hmm⟩ :=
    checkGroup_ok (check_integrity_ok data h p hp)
  refine ⟨hdup, ?_, ?_, ?_, hmm⟩
  · intro m hm
    exact checkMutators_ok p.1
      (idSet (p.2.varying_attributes.map (fun a => a.id)))
      p.2.mutators hmu m hm
  · intro b hb
    exact checkBaseTypes_ok p.1
      (idSet (p.2.varying_attributes.map (fun a => a.id)))
      p.2.base_types hbt b hb
  · intro smg hs
    exact checkSmgs_ok p.1 p.2.base_types p.2.mutators
      (idSet (p.2.varying_attributes.map (fun a => a.id)))
      p.2.source_mutator_groups hsm smg hs

/-- **C5, counterexample.** The report `DynamicsReport::new` builds from
`c5Store` (two mutators for resulting type 2000 with differing attribute
sets) keeps mutator 1001's full range list {50, 60} even though the
group's varying ids are exactly {50}: the mutator lists are not
restricted to `varying_attributes`, the report violates the id-set
discipline, and it is returned anyway — `check_integrity`'s failure is
only logged. -/
theorem report_mutator_ids_exceed_varying :
    DynamicsReport.new c5Store = some c5Report ∧
    (∃ p ∈ c5Report.data, ∃ m ∈ p.2.mutators,
      idSet (m.attributes.map (fun a => a.id)) ≠
        idSet (p.2.varying_attributes.map (fun a => a.id))) ∧
    check_integrity c5Report.data ≠ Except.ok () :=
  ⟨by decide, by decide, by decide⟩

/-- A single-group report satisfying the integrity discipline (every id
list covers exactly the varying id 50). -/
def c5WitnessGroup : ResultingGroup :=
  ⟨[⟨100, 1000, [⟨50, 1, 2⟩],
      [⟨500, "Unknown", "other", "Direct", [⟨50, 3⟩]⟩]⟩],
    [⟨100, "Source", [⟨50, 10⟩]⟩],
    [⟨1000, "Mutator One", [⟨50, 1, 2⟩]⟩],
    [⟨50, "Mutated Attr A", none⟩],
    [⟨50, 10, 20⟩]⟩

theorem integrity_ok_attribute_sets_witness :
    check_integrity [("Resulting", c5WitnessGroup)] = Except.ok () ∧
    ∀ p ∈ [("Resulting", c5WitnessGroup)],
      duplicates (p.2.varying_attributes.map (fun a => a.id)) = [] ∧
      (∀ m ∈ p.2.mutators,
        idSet (m.attributes.map (fun a => a.id)) =
          idSet (p.2.varying_attributes.map (fun a => a.id))) ∧
      (∀ b ∈ p.2.base_types,
        idSet (b.attributes.map (fun a => a.id)) =
          idSet (p.2.varying_attributes.map (fun a => a.id))) ∧
      (∀ smg ∈ p.2.source_mutator_groups,
        idSet (smg.attributes.map (fun a => a.id)) =
          idSet (p.2.varying_attributes.map (fun a => a.id)) ∧
        ∀ d ∈ smg.dynamics,
          idSet (d.attributes.map (fun a => a.id)) =
            idSet (p.2.varying_attributes.map (fun a => a.id))) ∧
      idSet (p.2.min_max_attributes.map (fun a => a.id)) =
        idSet (p.2.varying_attributes.map (fun a => a.id)) :=
  ⟨by decide,
    integrity_ok_attribute_sets [("Resulting", c5WitnessGroup)] (by decide)⟩

end Dyn

end RustEve
